import Mathlib

set_option maxHeartbeats 1000000

namespace GSS

/-! # Shallow embedding of the GSS-Explorer Bron–Kerbosch core

This file embeds `src/BronKerbosch/src/main.cpp` (the `Graph` class and
`main`) into Lean.  C++ vectors indexed by vertex are modelled as total
functions `Nat → α` with pointwise update; out-of-bounds accesses (undefined
behaviour in C++) are resolved benignly and never occur on the well-formed
runs the theorems talk about.  The recursive enumerator is modelled with
explicit fuel; `none` means the fuel ran out, and all theorems about a
completed enumeration are stated conditionally on (or witnessed by) a
successful run. -/

/-- Pointwise update of a function-modelled C++ vector. -/
def upd {α : Type} (f : Nat → α) (i : Nat) (a : α) : Nat → α :=
  fun j => if j = i then a else f j

@[simp] theorem upd_same {α : Type} (f : Nat → α) (i : Nat) (a : α) : upd f i a i = a := by
  simp [upd]

theorem upd_other {α : Type} (f : Nat → α) (i j : Nat) (a : α) (h : j ≠ i) :
    upd f i a j = f j := by
  simp [upd, h]

/-! ## Input stream (`cin`) and `Graph::readGraph`

The byte stream is modelled at the whitespace-token level: each token either
parses as an integer or is malformed.  `operator>>` on an `int` follows C++11
semantics: on extraction failure the target is set to `0` and the fail state
is latched; once the stream has failed, further extractions leave the target
unchanged. -/

/-- One whitespace-separated token of the input: an integer literal or a
malformed token. -/
inductive Tok where
  | num (k : Int) : Tok
  | bad : Tok
deriving DecidableEq, Repr

/-- State of `std::cin`: remaining tokens and the latched fail bit. -/
structure InStream where
  toks : List Tok
  failed : Bool
deriving DecidableEq, Repr

/-- Embedding of `cin >> x` for `int x` whose current value is `old`. -/
def readInt (s : InStream) (old : Int) : InStream × Int :=
  if s.failed then (s, old)
  else
    match s.toks with
    | Tok.num k :: rest => ({ toks := rest, failed := false }, k)
    | _ => ({ s with failed := true }, 0)

/-- Graph data built by `Graph::readGraph`: vertex/edge counts, adjacency
lists, degrees and the maximum degree. -/
structure GraphData where
  num_vertices : Nat
  num_edges : Nat
  adj_list : Nat → List Nat
  degrees : Nat → Nat
deriving Inhabited

/-- Edge-reading loop of `readGraph`: `m` iterations of
`cin >> u >> v; degrees[u]++; degrees[v]++; adj[u].push_back(v);
adj[v].push_back(u);`.  The loop performs no failure check, exactly as in the
source. -/
def readEdges : Nat → InStream → (Nat → List Nat) → (Nat → Nat) → Int → Int →
    InStream × (Nat → List Nat) × (Nat → Nat)
  | 0, s, adj, deg, _, _ => (s, adj, deg)
  | m + 1, s, adj, deg, u0, v0 =>
    let (s1, u) := readInt s u0
    let (s2, v) := readInt s1 v0
    let un := u.toNat
    let vn := v.toNat
    let deg1 := upd deg un (deg un + 1)
    let deg2 := upd deg1 vn (deg1 vn + 1)
    let adj1 := upd adj un (adj un ++ [v.toNat])
    let adj2 := upd adj1 vn (adj1 vn ++ [u.toNat])
    readEdges m s2 adj2 deg2 u v

/-- Embedding of `Graph::readGraph`.  Returns `none` when the function
returns `0`, i.e. exactly when the header extraction `cin >> num_vertices >>
num_edges` fails; edge-line extraction failures are not checked. -/
def readGraph (s0 : InStream) : Option GraphData :=
  let (s1, nv) := readInt s0 0
  let (s2, ne) := readInt s1 0
  if s2.failed then none
  else
    let (_, adj, deg) := readEdges ne.toNat s2 (fun _ => []) (fun _ => 0) 0 0
    some { num_vertices := nv.toNat, num_edges := ne.toNat, adj_list := adj, degrees := deg }

/-- Maximum of `deg` over vertices `0..n`, as computed by the
`max_degree` loop at the end of `readGraph`. -/
def maxDegOf (n : Nat) (deg : Nat → Nat) : Nat :=
  (List.range n).foldl (fun acc v => max acc (deg v)) 0

/-- Exit code of `main` as a function of the input stream: `1` exactly when
`readGraph` reports failure, `0` otherwise (the enumeration itself never
changes the exit code; the model assumes it terminates, which holds on the
well-formed inputs the theorems quantify over). -/
def mainExitCode (ts : List Tok) : Nat :=
  match readGraph { toks := ts, failed := false } with
  | none => 1
  | some _ => 0

/-- Syntactic predicate: the two header reads both succeed, i.e. the stream
starts with two integer tokens. -/
def headerOk : List Tok → Bool
  | Tok.num _ :: Tok.num _ :: _ => true
  | _ => false

/-! ## Well-formed graphs and maximal cliques

A graph is given to the program as a vertex count `n` and a list of edges.
Well-formedness is the hypothesis of the spec: endpoints in range, no
self-loops, no duplicate edges (in either orientation). -/

/-- Adjacency relation determined by an edge list. -/
def adjRel (E : List (Nat × Nat)) (u v : Nat) : Prop :=
  (u, v) ∈ E ∨ (v, u) ∈ E

instance (E : List (Nat × Nat)) (u v : Nat) : Decidable (adjRel E u v) := by
  unfold adjRel; infer_instance

/-- Well-formed input graph: undirected simple graph on vertices `0..n`,
no self-loops, no duplicate edges in either orientation. -/
def WFGraph (n : Nat) (E : List (Nat × Nat)) : Prop :=
  (∀ e ∈ E, e.1 < n ∧ e.2 < n ∧ e.1 ≠ e.2) ∧
  E.Pairwise (fun e f => ¬ (e.1 = f.1 ∧ e.2 = f.2) ∧ ¬ (e.1 = f.2 ∧ e.2 = f.1)) ∧
  (∀ e ∈ E, (e.2, e.1) ∉ E)

instance (n : Nat) (E : List (Nat × Nat)) : Decidable (WFGraph n E) := by
  unfold WFGraph; infer_instance

/-- Clique: a set of pairwise adjacent vertices. -/
def IsClique (E : List (Nat × Nat)) (S : Finset Nat) : Prop :=
  ∀ u ∈ S, ∀ v ∈ S, u ≠ v → adjRel E u v

instance (E : List (Nat × Nat)) (S : Finset Nat) : Decidable (IsClique E S) := by
  unfold IsClique; infer_instance

/-- Maximal clique: a nonempty clique of the graph on `0..n` that no vertex
can extend.  (Nonemptiness only matters for `n = 0`, matching the boundary
behaviour `N = 0 → count 0`; for `n ≥ 1` the empty set is never maximal.) -/
def IsMaxClique (n : Nat) (E : List (Nat × Nat)) (S : Finset Nat) : Prop :=
  S.Nonempty ∧ S ⊆ Finset.range n ∧ IsClique E S ∧
    ∀ w ∈ Finset.range n, w ∉ S → ¬ IsClique E (insert w S)

instance (n : Nat) (E : List (Nat × Nat)) (S : Finset Nat) : Decidable (IsMaxClique n E S) := by
  unfold IsMaxClique; infer_instance

/-- Number of maximal cliques of the graph `(n, E)`. -/
def maxCliqueCount (n : Nat) (E : List (Nat × Nat)) : Nat :=
  ((Finset.range n).powerset.filter (fun S => IsMaxClique n E S)).card

/-- Adjacency lists as built by `readGraph` from an explicit edge list
(each edge appended to both endpoint lists, in input order). -/
def buildAdj (E : List (Nat × Nat)) : Nat → List Nat :=
  E.foldl (fun adj e =>
    let adj1 := upd adj e.1 (adj e.1 ++ [e.2])
    upd adj1 e.2 (adj1 e.2 ++ [e.1])) (fun _ => [])

/-- Degrees as built by `readGraph` from an explicit edge list. -/
def buildDeg (E : List (Nat × Nat)) : Nat → Nat :=
  E.foldl (fun deg e =>
    let deg1 := upd deg e.1 (deg e.1 + 1)
    upd deg1 e.2 (deg1 e.2 + 1)) (fun _ => 0)

/-! ## Degeneracy ordering: `Graph::dgn_order_cal`

The bucket queue `vector<list<int>> D` is modelled as `Nat → List Nat`; the
per-vertex iterator handles give O(1) erasure of the unique occurrence of a
vertex in its bucket, which `List.erase` reproduces.  The scan loop
`for (i = 0; i <= max_degree; i++) { if (i >= 0 && !D[i].empty()) { ...;
i -= 2; } }` is modelled with an `Int` counter and explicit fuel. -/

/-- State of `dgn_order_cal`: buckets, current residual degrees, emitted
order. -/
structure DgnState where
  D : Nat → List Nat
  cur_deg : Nat → Nat
  order : List Nat

/-- Body of the neighbour loop after popping `v`: move each not-yet-emitted
neighbour `u` down one bucket and decrement its residual degree. -/
def dgnNbStep (t : DgnState) (u : Nat) : DgnState :=
  if t.cur_deg u ≠ 0 then
    let d := t.cur_deg u
    let D1 := upd t.D d ((t.D d).erase u)
    let D2 := upd D1 (d - 1) (D1 (d - 1) ++ [u])
    { D := D2, cur_deg := upd t.cur_deg u (d - 1), order := t.order }
  else t

/-- Popping `v` (the front of bucket `i`, with tail `rest`): emit it, erase
it from the bucket, zero its degree (the "emitted" sentinel), then process
its neighbours. -/
def dgnPop (adj : Nat → List Nat) (s : DgnState) (i : Nat) (v : Nat) (rest : List Nat) :
    DgnState :=
  let s1 : DgnState := { D := upd s.D i rest, cur_deg := upd s.cur_deg v 0,
                         order := s.order ++ [v] }
  (adj v).foldl dgnNbStep s1

/-- The scan loop of `dgn_order_cal`.  After a pop at counter `i` the source
does `i -= 2` and the `for` increment adds one back, so the next counter is
`i - 1`; otherwise the counter advances by one.  `none` means the fuel ran
out. -/
def dgnLoop (adj : Nat → List Nat) (maxDeg : Nat) : Nat → Int → DgnState → Option DgnState
  | 0, _, _ => none
  | fuel + 1, i, s =>
    if i > (maxDeg : Int) then some s
    else if 0 ≤ i then
      match s.D i.toNat with
      | [] => dgnLoop adj maxDeg fuel (i + 1) s
      | v :: rest => dgnLoop adj maxDeg fuel (i - 1) (dgnPop adj s i.toNat v rest)
    else dgnLoop adj maxDeg fuel (i + 1) s

/-- Fuel sufficient for the scan loop: each iteration either advances the
counter or emits a vertex, and at most `n` vertices are emitted. -/
def dgnFuel (n maxDeg : Nat) : Nat := 2 * n + maxDeg + 2

/-- Initial buckets: vertex `v` pushed to `D[degrees[v]]` for `v = 0..n-1`,
so each bucket lists its vertices in increasing order. -/
def dgnInit (n : Nat) (deg : Nat → Nat) : DgnState :=
  { D := fun d => (List.range n).filter (fun v => deg v = d),
    cur_deg := deg, order := [] }

/-- Embedding of `Graph::dgn_order_cal`, producing `dgn_order`. -/
def dgn_order_cal (n : Nat) (adj : Nat → List Nat) (deg : Nat → Nat) : Option (List Nat) :=
  match dgnLoop adj (maxDegOf n deg) (dgnFuel n (maxDegOf n deg)) 0 (dgnInit n deg) with
  | none => none
  | some s => some s.order

/-- Embedding of the final loop of `dgn_order_cal`:
`rev_dgn.resize(n); for (i = 0; i < n; i++) rev_dgn[dgn_order[i]] = i`. -/
def buildRev (n : Nat) (order : List Nat) : Nat → Nat :=
  (List.range n).foldl (fun rev i => upd rev (order.getD i 0) i) (fun _ => 0)

/-! ## Enumeration state and `Graph::bron_kerbosch_pivot` -/

/-- One recorded search-tree node (`struct SearchTreeNode`). -/
structure Node where
  node_id : Int
  parent_id : Int
  children_ids : List Int
  cliques_in_subtree : Nat
  creation_order : Nat
  depth : Nat
  current_clique : List Nat
  p_size : Nat
  x_size : Nat
  candidate_vertex : Int
  pruned_by_pivot : Bool
deriving DecidableEq, Repr, Inhabited

/-- Mutable members of `Graph` used by the enumerator. -/
structure St where
  adj_list : Nat → List Nat
  v_list : Nat → Nat
  rev_idx : Nat → Int
  clique : List Nat
  clique_count : Nat
  track_search_tree : Bool
  node_counter : Nat
  search_tree_nodes : List Node

/-- The continue condition of every neighbour-list walk:
`¬(rev_idx[w] < p_idx ∨ rev_idx[w] ≥ e_idx)`. -/
def inWinB (rev : Nat → Int) (p e : Nat) (w : Nat) : Bool :=
  decide ((p : Int) ≤ rev w ∧ rev w < (e : Int))

/-- Pivot candidate-degree: walk the adjacency list counting entries until
the first whose `rev_idx` leaves `[p_idx, e_idx)` (lines 207–212). -/
def countWin (rev : Nat → Int) (p e : Nat) : List Nat → Nat
  | [] => 0
  | w :: rest => if inWinB rev p e w then countWin rev p e rest + 1 else 0

/-- Pivot selection loop (lines 203–217): first strictly-larger
candidate-degree wins; `(-1, -1)` are the initial `pivot`/`_max_degree`. -/
def pivotSel (s : St) (x p e : Nat) : Int × Int :=
  (List.range (e - x)).foldl
    (fun acc k =>
      let v := s.v_list (x + k)
      let n_v : Int := countWin s.rev_idx p e (s.adj_list v)
      if n_v > acc.2 then ((v : Int), n_v) else acc)
    (-1, -1)

/-- Marking loop for `pivot_neigh` (lines 226–230): walk `adj_list[pivot]`
until it leaves the window, marking offset `rev_idx[v] - p_idx`. -/
def markNeigh (rev : Nat → Int) (p e : Nat) : List Nat → (Nat → Bool) → (Nat → Bool)
  | [], marks => marks
  | w :: rest, marks =>
      if inWinB rev p e w then
        markNeigh rev p e rest (upd marks ((rev w).toNat - p) true)
      else marks

/-- Candidate separation loop (lines 233–241): P entries not marked as pivot
neighbours are branching candidates, marked ones are pruned. -/
def splitCands (vl : Nat → Nat) (p e : Nat) (marks : Nat → Bool) : List Nat × List Nat :=
  (List.range (e - p)).foldl
    (fun acc k =>
      if marks k then (acc.1, acc.2 ++ [vl (p + k)])
      else (acc.1 ++ [vl (p + k)], acc.2))
    ([], [])

/-- Neighbour test used by both restriction loops: walk the adjacency list
while inside `[p_idx, e_idx)`, looking for `cand`. -/
def nbInWin (rev : Nat → Int) (p e : Nat) (cand : Nat) : List Nat → Bool
  | [] => false
  | w :: rest =>
      if inWinB rev p e w then (decide (w = cand)) || nbInWin rev p e cand rest
      else false

/-- Swap of the entries at positions `i` and `j` of a function-modelled
vector. -/
def swapF (vl : Nat → Nat) (i j : Nat) : Nat → Nat :=
  upd (upd vl i (vl j)) j (vl i)

/-- The X-restriction loop (lines 246–262), iterated over the descending
index list `[p-1, …, x]`, threading the accumulated `num_x`. -/
def restrictX (p e : Nat) (cand : Nat) : List Nat → St × Nat → St × Nat
  | [], acc => acc
  | j :: rest, (s, num_x) =>
      if nbInWin s.rev_idx p e cand (s.adj_list (s.v_list j)) then
        let num_x' := num_x + 1
        let tgt := p - num_x'
        let rev1 := upd s.rev_idx (s.v_list j) (tgt : Int)
        let rev2 := upd rev1 (s.v_list tgt) (j : Int)
        restrictX p e cand rest
          ({ s with rev_idx := rev2, v_list := swapF s.v_list j tgt }, num_x')
      else restrictX p e cand rest (s, num_x)

/-- The P-restriction loop (lines 264–280), iterated over the ascending
index list `[p, …, e-1]`, threading the accumulated `num_p`. -/
def restrictP (p e : Nat) (cand : Nat) : List Nat → St × Nat → St × Nat
  | [], acc => acc
  | j :: rest, (s, num_p) =>
      if nbInWin s.rev_idx p e cand (s.adj_list (s.v_list j)) then
        let tgt := p + num_p
        let rev1 := upd s.rev_idx (s.v_list j) (tgt : Int)
        let rev2 := upd rev1 (s.v_list tgt) (j : Int)
        restrictP p e cand rest
          ({ s with rev_idx := rev2, v_list := swapF s.v_list j tgt }, num_p + 1)
      else restrictP p e cand rest (s, num_p)

/-- Element read of a `vector<int>` modelled as a list (default never hit on
in-bounds runs). -/
def getN (l : List Nat) (i : Nat) : Nat := l.getD i 0

/-- Swap of two positions of a list-modelled `vector<int>`. -/
def swapL (l : List Nat) (i j : Nat) : List Nat :=
  (l.set i (getN l j)).set j (getN l i)

/-- In-place partition scan of one adjacency list (lines 286–295): advance
`read`, break at the first entry outside the parent window `[p, e)`, and
swap entries inside `[p, pHi)` forward to `write`. -/
def partScan (rev : Nat → Int) (p e pHi : Nat) : Nat → Nat → Nat → List Nat → List Nat
  | 0, _, _, l => l
  | fuelR + 1, read, write, l =>
      if read < l.length then
        let w := getN l read
        if inWinB rev p e w then
          if inWinB rev p pHi w then
            partScan rev p e pHi fuelR (read + 1) (write + 1) (swapL l write read)
          else partScan rev p e pHi fuelR (read + 1) write l
        else l
      else l

/-- Window loop of the partition step (lines 282–296): re-establish the
child P-prefix on `adj_list[v_list[i]]` for `i ∈ [lo, lo+cnt)`. -/
def partWindow (p e pHi lo cnt : Nat) (s : St) : St :=
  (List.range cnt).foldl
    (fun t k =>
      let u := t.v_list (lo + k)
      let l := t.adj_list u
      { t with adj_list := upd t.adj_list u (partScan t.rev_idx p e pHi l.length 0 0 l) }) s

/-- Restoration of one adjacency list (lines 304–315): erase every
occurrence of `cand` inside the window prefix, then insert `cand` before the
first entry outside `[p, e)` (or at the end). -/
def reinsertCand (rev : Nat → Int) (p e : Nat) (cand : Nat) : List Nat → List Nat
  | [] => [cand]
  | w :: rest =>
      if inWinB rev p e w then
        if w = cand then reinsertCand rev p e cand rest
        else w :: reinsertCand rev p e cand rest
      else cand :: w :: rest

/-- Window loop of the restoration step (lines 303–316). -/
def restoreWindow (p e : Nat) (cand : Nat) (lo cnt : Nat) (s : St) : St :=
  (List.range cnt).foldl
    (fun t k =>
      let u := t.v_list (lo + k)
      { t with adj_list := upd t.adj_list u (reinsertCand t.rev_idx p e cand (t.adj_list u)) }) s

/-- Moving the consumed candidate from P into X (lines 318–321). -/
def moveCandToX (p : Nat) (cand : Nat) (s : St) : St :=
  let w := s.v_list p
  let rev1 := upd s.rev_idx w (s.rev_idx cand)
  let rev2 := upd rev1 cand (p : Int)
  let j := (rev2 (s.v_list p)).toNat
  { s with rev_idx := rev2, v_list := swapF s.v_list p j }

/-- End-of-loop restoration (lines 324–328), with `p` the incremented
`p_idx` (original plus the number of consumed candidates). -/
def unwindCands (p : Nat) (cands : List Nat) (s : St) : St :=
  (List.range cands.length).foldl
    (fun t i =>
      let pos := p - i - 1
      let c := cands.getD i 0
      let w := t.v_list pos
      let rev1 := upd t.rev_idx w (t.rev_idx c)
      let rev2 := upd rev1 c (pos : Int)
      let j := (rev2 (t.v_list pos)).toNat
      { t with rev_idx := rev2, v_list := swapF t.v_list pos j }) s

/-- Appending a child id to a recorded node. -/
def addChild (nd : Node) (c : Int) : Node :=
  { nd with children_ids := nd.children_ids ++ [c] }

/-- Node recording on entry (lines 169–188).  Returns the updated state and
`current_node_id` (`-1` when tracking is off). -/
def recordNode (depth : Nat) (parent_id cand_v : Int) (is_pruned : Bool)
    (x p e : Nat) (s : St) : St × Int :=
  if s.track_search_tree then
    let cid : Int := (s.node_counter : Int)
    let nd : Node :=
      { node_id := cid, parent_id := parent_id, children_ids := [],
        cliques_in_subtree := 0, creation_order := s.search_tree_nodes.length,
        depth := depth, current_clique := s.clique,
        x_size := p - x, p_size := e - p,
        candidate_vertex := cand_v, pruned_by_pivot := is_pruned }
    let nodes1 := s.search_tree_nodes ++ [nd]
    let nodes2 :=
      if 0 ≤ parent_id ∧ parent_id < (nodes1.length : Int) then
        nodes1.set parent_id.toNat (addChild (nodes1.getD parent_id.toNat default) cid)
      else nodes1
    ({ s with node_counter := s.node_counter + 1, search_tree_nodes := nodes2 }, cid)
  else (s, -1)

/-- Writing `cliques_in_subtree` of the current node on return
(lines 195–197 and 410–412). -/
def setCliques (cid : Int) (val : Nat) (s : St) : St :=
  if s.track_search_tree ∧ 0 ≤ cid then
    { s with search_tree_nodes :=
        (s.search_tree_nodes.set cid.toNat
          { s.search_tree_nodes.getD cid.toNat default with cliques_in_subtree := val }) }
  else s

/-- Embedding of `Graph::bron_kerbosch_pivot` (lines 165–415), with explicit
fuel bounding the recursion depth; `none` means the fuel ran out.  The
candidate loop threads `(state, p_idx, total_cliques)`; the shadow loop
(lines 332–408) restores the saved `v_list`, `rev_idx`, `adj_list` around
each pruned candidate and discards the returned counts. -/
def bron_kerbosch_pivot : Nat → Nat → Nat → Nat → Nat → Int → Int → Bool → St →
    Option (St × Nat)
  | 0, _, _, _, _, _, _, _, _ => none
  | fuel + 1, x, p, e, depth, parent_id, cand_v, is_pruned, s0 =>
    let rc := recordNode depth parent_id cand_v is_pruned x p e s0
    let s := rc.1
    let cid := rc.2
    if x = p ∧ p = e then
      let s1 := if is_pruned then s else { s with clique_count := s.clique_count + 1 }
      some (setCliques cid 1 s1, 1)
    else
      let pv := (pivotSel s x p e).1
      let pivotAdj := if 0 ≤ pv then s.adj_list pv.toNat else []
      let marks := markNeigh s.rev_idx p e pivotAdj (fun _ => false)
      let cands := splitCands s.v_list p e marks
      let r_cands := cands.1
      let pruned_cands := cands.2
      let main :=
        r_cands.foldl
          (fun acc cand =>
            match acc with
            | none => none
            | some (t, pc, total) =>
              let xs := (List.range (pc - x)).map (fun k => pc - 1 - k)
              let rx := restrictX pc e cand xs (t, 0)
              let t1 := rx.1
              let num_x := rx.2
              let ps := (List.range (e - pc)).map (fun k => pc + k)
              let rp := restrictP pc e cand ps (t1, 0)
              let t2 := rp.1
              let num_p := rp.2
              let t3 := partWindow pc e (pc + num_p) (pc - num_x) (num_x + num_p) t2
              let t4 := { t3 with clique := t3.clique ++ [cand] }
              match bron_kerbosch_pivot fuel (pc - num_x) pc (pc + num_p)
                  (depth + 1) cid (cand : Int) false t4 with
              | none => none
              | some (t5, sub) =>
                let t6 := { t5 with clique := t5.clique.dropLast }
                let t7 := restoreWindow pc e cand (pc - num_x) (num_x + num_p) t6
                let t8 := moveCandToX pc cand t7
                some (t8, pc + 1, total + sub))
          (some (s, p, 0))
      match main with
      | none => none
      | some (s2, p2, total) =>
        let s3 := unwindCands p2 r_cands s2
        let after :=
          if s3.track_search_tree ∧ 0 ≤ cid then
            let savedVl := s3.v_list
            let savedRev := s3.rev_idx
            let savedAdj := s3.adj_list
            let sh :=
              pruned_cands.foldl
                (fun acc cand =>
                  match acc with
                  | none => none
                  | some t =>
                    let t0 := { t with v_list := savedVl, rev_idx := savedRev,
                                       adj_list := savedAdj }
                    let xs := (List.range (p2 - x)).map (fun k => p2 - 1 - k)
                    let rx := restrictX p2 e cand xs (t0, 0)
                    let t1 := rx.1
                    let num_x := rx.2
                    let ps := (List.range (e - p2)).map (fun k => p2 + k)
                    let rp := restrictP p2 e cand ps (t1, 0)
                    let t2 := rp.1
                    let num_p := rp.2
                    let t3 := partWindow p2 e (p2 + num_p) (p2 - num_x) (num_x + num_p) t2
                    let t4 := { t3 with clique := t3.clique ++ [cand] }
                    match bron_kerbosch_pivot fuel (p2 - num_x) p2 (p2 + num_p)
                        (depth + 1) cid (cand : Int) true t4 with
                    | none => none
                    | some (t5, _) =>
                      some { t5 with clique := t5.clique.dropLast })
                (some s3)
            match sh with
            | none => none
            | some t => some { t with v_list := savedVl, rev_idx := savedRev,
                                      adj_list := savedAdj }
          else some s3
        match after with
        | none => none
        | some s4 => some (setCliques cid total s4, total)

/-- The outer partition scan (lines 489–494): like `partScan` but with no
break (the whole list is scanned), selecting entries with
`rev_idx ∈ [lo, hi)`. -/
def partScanAll (rev : Nat → Int) (lo hi : Nat) : Nat → Nat → Nat → List Nat → List Nat
  | 0, _, _, l => l
  | fuelR + 1, read, write, l =>
      if read < l.length then
        if inWinB rev lo hi (getN l read) then
          partScanAll rev lo hi fuelR (read + 1) (write + 1) (swapL l write read)
        else partScanAll rev lo hi fuelR (read + 1) write l
      else l

/-- One iteration of the outer driver loop of `bron_kerbosch_degeneracy`
(lines 470–505) for position `i`. -/
def bkOuterStep (fuel : Nat) (order : List Nat) (rev_dgn : Nat → Nat) (i : Nat)
    (s : St) : Option St :=
  let v := order.getD i 0
  let X := (s.adj_list v).filter (fun u => rev_dgn u < i)
  let P := (s.adj_list v).filter (fun u => ¬ (rev_dgn u < i))
  let vlC := X ++ P
  let L := vlC.length
  let vl1 : Nat → Nat := fun j => if j < L then getN vlC j else s.v_list j
  let rev1 := (List.range L).foldl (fun r j => upd r (getN vlC j) (j : Int)) s.rev_idx
  let s1 := { s with v_list := vl1, rev_idx := rev1 }
  let s2 := vlC.foldl
    (fun t u =>
      { t with adj_list :=
          (upd t.adj_list u
            (partScanAll t.rev_idx X.length L ((t.adj_list u).length) 0 0 (t.adj_list u))) }) s1
  let s3 := { s2 with clique := s2.clique ++ [v] }
  match bron_kerbosch_pivot fuel 0 X.length L 0 (-1) (-1) false s3 with
  | none => none
  | some (s4, _) =>
    let s5 := { s4 with clique := s4.clique.dropLast }
    let rev2 := (List.range L).foldl (fun r j => upd r (s5.v_list j) (-1 : Int)) s5.rev_idx
    some { s5 with rev_idx := rev2 }

/-- The outer driver loop, over positions `0..n-1`. -/
def bkOuterLoop (fuel : Nat) (order : List Nat) (rev_dgn : Nat → Nat) :
    List Nat → St → Option St
  | [], s => some s
  | i :: rest, s =>
    match bkOuterStep fuel order rev_dgn i s with
    | none => none
    | some s1 => bkOuterLoop fuel order rev_dgn rest s1

/-- Embedding of `Graph::bron_kerbosch_degeneracy` (lines 467–506):
reset `rev_idx` to `-1`, then run the outer loop over degeneracy positions. -/
def bron_kerbosch_degeneracy (fuel n : Nat) (order : List Nat) (rev_dgn : Nat → Nat)
    (s0 : St) : Option St :=
  bkOuterLoop fuel order rev_dgn (List.range n) { s0 with rev_idx := fun _ => (-1 : Int) }

/-- Initial `Graph` state after construction and (optional)
`enable_search_tree_tracking`. -/
def initSt (track : Bool) (adj : Nat → List Nat) : St :=
  { adj_list := adj, v_list := fun _ => 0, rev_idx := fun _ => -1, clique := [],
    clique_count := 0, track_search_tree := track, node_counter := 0,
    search_tree_nodes := [] }

/-- The whole pipeline of `main` after a successful `readGraph`:
`dgn_order_cal` followed by `bron_kerbosch_degeneracy`. -/
def runBK (track : Bool) (n : Nat) (E : List (Nat × Nat)) (fuel : Nat) : Option St :=
  match dgn_order_cal n (buildAdj E) (buildDeg E) with
  | none => none
  | some order =>
    bron_kerbosch_degeneracy fuel n order (buildRev n order) (initSt track (buildAdj E))

/-! ## Claim C3: exit codes -/

/-- Token encoding of a graph input: header `n m` followed by the `m` edge
lines. -/
def encodeInput (n : Nat) (E : List (Nat × Nat)) : List Tok :=
  Tok.num (n : Int) :: Tok.num (E.length : Int) ::
    E.flatMap (fun e => [Tok.num (e.1 : Int), Tok.num (e.2 : Int)])

/-- C3 (counterexample): the input `2 1` followed by the malformed edge line
`1 x` parses its header, silently turns the failed edge reads into the edge
`(1, 0)`, and exits with code 0 — not, as claimed, with code 1. -/
theorem c3_malformed_edge_exit_cex :
    mainExitCode [Tok.num 2, Tok.num 1, Tok.num 1, Tok.bad] = 0 ∧
    mainExitCode [Tok.num 2, Tok.num 1, Tok.num 1, Tok.bad] ≠ 1 := by
  constructor
  · rfl
  · intro h
    simp [mainExitCode, readGraph, readInt] at h

/-- C3 (amended): the program exits with code 1 exactly on header-parse
failure; malformed edge lines are never detected (`readGraph` performs no
check on the edge extractions), and on a fully well-formed input the exit
code is 0. -/
theorem c3_exit_amended (ts : List Tok) (n : Nat) (E : List (Nat × Nat)) :
    (headerOk ts = false → mainExitCode ts = 1) ∧
    (WFGraph n E → mainExitCode (encodeInput n E) = 0) := by
  constructor
  · intro h
    match ts with
    | [] => rfl
    | Tok.bad :: _ => rfl
    | [Tok.num k] => rfl
    | Tok.num k :: Tok.bad :: _ => rfl
    | Tok.num k :: Tok.num k2 :: _ => simp [headerOk] at h
  · intro _
    rfl

/-- C3 (witness): the amended theorem applied to the header-less input
`x` and to the well-formed one-edge graph on two vertices. -/
theorem c3_exit_amended_witness :
    mainExitCode [Tok.bad] = 1 ∧ mainExitCode (encodeInput 2 [(0, 1)]) = 0 :=
  ⟨(c3_exit_amended [Tok.bad] 2 [(0, 1)]).1 rfl,
   (c3_exit_amended [Tok.bad] 2 [(0, 1)]).2 (by decide)⟩

/-! ## Claim C10: pivot validity -/

/-- Technical lemma: the pivot-selection fold over a nonempty index range
always ends with a pivot drawn from the scanned window. -/
theorem pivotSel_fold_mem (s : St) (x p e : Nat) (m : Nat) (hm : 0 < m) :
    ∃ k, k < m ∧
      ((List.range m).foldl
        (fun acc j =>
          let v := s.v_list (x + j)
          let n_v : Int := countWin s.rev_idx p e (s.adj_list v)
          if n_v > acc.2 then ((v : Int), n_v) else acc)
        ((-1 : Int), (-1 : Int))).1 = (s.v_list (x + k) : Int) := by
  induction m with
  | zero => omega
  | succ m ih =>
    rw [List.range_succ, List.foldl_append]
    rcases Nat.eq_zero_or_pos m with hz | hp
    · subst hz
      refine ⟨0, Nat.zero_lt_one, ?_⟩
      simp only [List.range_zero, List.foldl_nil, List.foldl_cons]
      simp [show ((-1 : Int) < (countWin s.rev_idx p e (s.adj_list (s.v_list x)) : Int))
        from by omega]
    · obtain ⟨k, hk, hval⟩ := ih hp
      simp only [List.foldl_cons, List.foldl_nil]
      set acc := (List.range m).foldl
        (fun acc j =>
          let v := s.v_list (x + j)
          let n_v : Int := countWin s.rev_idx p e (s.adj_list v)
          if n_v > acc.2 then ((v : Int), n_v) else acc)
        ((-1 : Int), (-1 : Int)) with hacc
      by_cases hc : ((countWin s.rev_idx p e (s.adj_list (s.v_list (x + m))) : Int) > acc.2)
      · exact ⟨m, Nat.lt_succ_self m, by simp [hc]⟩
      · exact ⟨k, Nat.lt_succ_of_lt hk, by simp [hc, hval]⟩

/-- C10: in every non-base-case invocation (`x_idx < e_idx`), the
pivot-selection loop leaves `pivot` equal to some vertex of the window
`v_list[x_idx..e_idx)`; in particular it is nonnegative (never the `-1`
sentinel) when `adj_list[pivot]` is subsequently walked. -/
theorem c10_pivot_valid (s : St) (x p e : Nat) (h : x < e) :
    (∃ i, x ≤ i ∧ i < e ∧ (pivotSel s x p e).1 = (s.v_list i : Int)) ∧
    0 ≤ (pivotSel s x p e).1 := by
  obtain ⟨k, hk, hval⟩ := pivotSel_fold_mem s x p e (e - x) (by omega)
  have hmem : (pivotSel s x p e).1 = (s.v_list (x + k) : Int) := hval
  refine ⟨⟨x + k, by omega, by omega, hmem⟩, ?_⟩
  rw [hmem]
  omega

/-- C10 (witness): the pivot of the one-vertex window `[0, 1)` on the
single-edge graph. -/
theorem c10_pivot_valid_witness :
    (0 : Nat) < 1 ∧
    ((∃ i, 0 ≤ i ∧ i < 1 ∧
        (pivotSel (initSt false (buildAdj [(0, 1)])) 0 0 1).1 =
          ((initSt false (buildAdj [(0, 1)])).v_list i : Int)) ∧
      0 ≤ (pivotSel (initSt false (buildAdj [(0, 1)])) 0 0 1).1) :=
  ⟨Nat.zero_lt_one, c10_pivot_valid (initSt false (buildAdj [(0, 1)])) 0 0 1 Nat.zero_lt_one⟩

/-! ## Claim C4: the base case of `bron_kerbosch_pivot` -/

/-- Node recording does not touch the clique counter. -/
theorem recordNode_count (depth : Nat) (pid cv : Int) (pr : Bool) (x p e : Nat) (s : St) :
    ((recordNode depth pid cv pr x p e s).1).clique_count = s.clique_count := by
  by_cases h : s.track_search_tree <;> simp [recordNode, h]

/-- Writing `cliques_in_subtree` does not touch the clique counter. -/
theorem setCliques_count (cid : Int) (v : Nat) (s : St) :
    (setCliques cid v s).clique_count = s.clique_count := by
  unfold setCliques
  split <;> rfl

/-- C4: a call with P empty (`p_idx = e_idx`) never recurses; it returns 1
exactly when X is also empty, increments `clique_count` exactly when X is
empty and the call is not a shadow branch, and contributes 0 (leaving the
counter unchanged) when X is nonempty. -/
theorem c4_base_case (fuel x p e depth : Nat) (pid cv : Int) (pr : Bool) (s : St)
    (hpe : p = e) :
    ∃ s', bron_kerbosch_pivot (fuel + 1) x p e depth pid cv pr s =
        some (s', if x = p then 1 else 0) ∧
      s'.clique_count = s.clique_count + (if x = p ∧ pr = false then 1 else 0) := by
  subst hpe
  simp only [bron_kerbosch_pivot]
  by_cases hx : x = p
  · subst hx
    simp only [and_self, if_true]
    cases pr with
    | false =>
      refine ⟨_, rfl, ?_⟩
      simp [setCliques_count, recordNode_count]
    | true =>
      refine ⟨_, rfl, ?_⟩
      simp [setCliques_count, recordNode_count]
  · simp only [hx, false_and, if_false, eq_self_iff_true, and_true]
    have hsplit : ∀ (vl : Nat → Nat) (marks : Nat → Bool), splitCands vl p p marks = ([], []) := by
      intro vl marks
      simp [splitCands]
    simp only [hsplit, List.foldl_nil]
    have hunwind : ∀ t : St, unwindCands p ([] : List Nat) t = t := by
      intro t
      simp [unwindCands]
    simp only [hunwind]
    split
    · exfalso
      rename_i heq
      split at heq <;> simp at heq
    · rename_i s4 heq
      refine ⟨_, rfl, ?_⟩
      have h4 : s4.clique_count = s.clique_count := by
        split at heq <;>
          first
          | (injection heq with h
             rw [← h]
             simp [recordNode_count])
      simp [hx, setCliques_count, h4]

/-- C4 (witness): instantiated at the empty window on the initial state of
the single-edge graph, with `fuel = 0 + 1`, `x = p = e = 0`, not pruned. -/
theorem c4_base_case_witness :
    ∃ s', bron_kerbosch_pivot 1 0 0 0 0 (-1) (-1) false (initSt false (buildAdj [(0, 1)])) =
        some (s', if 0 = 0 then 1 else 0) ∧
      s'.clique_count = (initSt false (buildAdj [(0, 1)])).clique_count +
        (if 0 = 0 ∧ false = false then 1 else 0) :=
  c4_base_case 0 0 0 0 0 (-1) (-1) false (initSt false (buildAdj [(0, 1)])) rfl

/-! ## Residual degrees and adjacency-structure facts for C5/C6 -/

/-- Residual degree of `v` with respect to the emitted list `o`: the number
of neighbours of `v` not yet emitted. -/
def resDeg (adj : Nat → List Nat) (o : List Nat) (v : Nat) : Nat :=
  ((adj v).filter (fun u => decide (u ∉ o))).length

/-- Bundled well-formedness of an adjacency structure, as produced by
`readGraph` from a well-formed edge list. -/
structure AdjOK (n : Nat) (adj : Nat → List Nat) (deg : Nat → Nat) : Prop where
  len : ∀ v, deg v = (adj v).length
  nodup : ∀ v, (adj v).Nodup
  noself : ∀ v, v ∉ adj v
  bound : ∀ v u, u ∈ adj v → u < n ∧ v < n
  symm : ∀ u v, u ∈ adj v → v ∈ adj u

theorem filter_not_mem_snoc (o : List Nat) (v : Nat) (hvo : v ∉ o) :
    ∀ (l : List Nat), l.Nodup →
      (l.filter (fun w => decide (w ∉ o))).length =
        (l.filter (fun w => decide (w ∉ o ++ [v]))).length + (if v ∈ l then 1 else 0) := by
  intro l
  induction l with
  | nil => simp
  | cons a l ih =>
    intro hnd
    have hndl : l.Nodup := hnd.of_cons
    rw [List.filter_cons, List.filter_cons]
    by_cases hao : a ∈ o
    · have h1 : (decide (a ∉ o)) = false := by simp [hao]
      have h2 : (decide (a ∉ o ++ [v])) = false := by simp [hao]
      rw [h1, h2]
      have hva : ¬ (v = a) := fun h => hvo (h ▸ hao)
      simp only [Bool.false_eq_true, if_false, List.mem_cons, hva, false_or]
      exact ih hndl
    · by_cases hav : a = v
      · subst hav
        have hal : a ∉ l := (List.nodup_cons.mp hnd).1
        have h1 : (decide (a ∉ o)) = true := by simp [hao]
        have h2 : (decide (a ∉ o ++ [a])) = false := by simp
        rw [h1, h2]
        have hfeq : l.filter (fun w => decide (w ∉ o ++ [a])) =
            l.filter (fun w => decide (w ∉ o)) := by
          apply List.filter_congr
          intro w hw
          have hwa : ¬ (w = a) := fun h => hal (h ▸ hw)
          simp [hwa]
        simp only [Bool.false_eq_true, if_false, if_true, List.length_cons, hfeq,
          List.mem_cons, true_or, if_pos]
        try omega
      · have h1 : (decide (a ∉ o)) = true := by simp [hao]
        have h2 : (decide (a ∉ o ++ [v])) = true := by simp [hao, hav]
        rw [h1, h2]
        have hva : ¬ (v = a) := fun h => hav h.symm
        simp only [if_true, List.length_cons, List.mem_cons, hva, false_or]
        rw [ih hndl]
        omega

/-- Emitting one more vertex `v` lowers the residual degree of `u` by one
exactly when `v` is a neighbour of `u`. -/
theorem resDeg_snoc (adj : Nat → List Nat) (o : List Nat) (u v : Nat)
    (hnd : (adj u).Nodup) (hvo : v ∉ o) :
    resDeg adj o u = resDeg adj (o ++ [v]) u + (if v ∈ adj u then 1 else 0) :=
  filter_not_mem_snoc o v hvo (adj u) hnd

theorem resDeg_nil (adj : Nat → List Nat) (v : Nat) :
    resDeg adj [] v = (adj v).length := by
  simp [resDeg]

theorem resDeg_le_len (adj : Nat → List Nat) (o : List Nat) (v : Nat) :
    resDeg adj o v ≤ (adj v).length :=
  List.length_filter_le _ _

theorem foldl_max_le_acc (deg : Nat → Nat) (l : List Nat) :
    ∀ acc, acc ≤ l.foldl (fun a w => max a (deg w)) acc := by
  induction l with
  | nil => intro acc; simp
  | cons w l ih =>
    intro acc
    calc acc ≤ max acc (deg w) := Nat.le_max_left _ _
    _ ≤ l.foldl (fun a w => max a (deg w)) (max acc (deg w)) := ih _

theorem deg_le_foldl_max (deg : Nat → Nat) (l : List Nat) :
    ∀ acc v, v ∈ l → deg v ≤ l.foldl (fun a w => max a (deg w)) acc := by
  induction l with
  | nil => intro acc v h; cases h
  | cons w l ih =>
    intro acc v hv
    rcases List.mem_cons.mp hv with h | h
    · subst h
      calc deg v ≤ max acc (deg v) := Nat.le_max_right _ _
      _ ≤ _ := foldl_max_le_acc deg l _
    · exact ih _ v h

/-- Every vertex degree is bounded by `max_degree`. -/
theorem deg_le_maxDegOf (n : Nat) (deg : Nat → Nat) (v : Nat) (hv : v < n) :
    deg v ≤ maxDegOf n deg :=
  deg_le_foldl_max deg (List.range n) 0 v (List.mem_range.mpr hv)

/-- Per-edge contribution to the adjacency list of `v`. -/
def adjContrib (v : Nat) (e : Nat × Nat) : List Nat :=
  (if e.1 = v then [e.2] else []) ++ (if e.2 = v then [e.1] else [])

theorem buildAdj_go (E : List (Nat × Nat)) :
    ∀ (adj0 : Nat → List Nat) (v : Nat),
      (E.foldl (fun adj e =>
        let adj1 := upd adj e.1 (adj e.1 ++ [e.2])
        upd adj1 e.2 (adj1 e.2 ++ [e.1])) adj0) v = adj0 v ++ E.flatMap (adjContrib v) := by
  induction E with
  | nil => intro adj0 v; simp
  | cons e E ih =>
    intro adj0 v
    rw [List.foldl_cons, ih, List.flatMap_cons, ← List.append_assoc]
    congr 1
    obtain ⟨a, b⟩ := e
    by_cases h1 : v = a
    · subst h1
      by_cases h2 : v = b
      · subst h2
        simp [adjContrib, upd]
      · have hb : ¬ (b = v) := fun h => h2 h.symm
        simp [adjContrib, upd, h2, hb]
    · have ha : ¬ (a = v) := fun h => h1 h.symm
      by_cases h2 : v = b
      · subst h2
        simp [adjContrib, upd, h1, ha]
      · have hb : ¬ (b = v) := fun h => h2 h.symm
        simp [adjContrib, upd, h1, h2, ha, hb]

/-- Closed form of `buildAdj`. -/
theorem buildAdj_eq (E : List (Nat × Nat)) (v : Nat) :
    buildAdj E v = E.flatMap (adjContrib v) := by
  rw [buildAdj, buildAdj_go]
  rfl

theorem buildDeg_go (E : List (Nat × Nat)) :
    ∀ (deg0 : Nat → Nat) (v : Nat),
      (E.foldl (fun deg e =>
        let deg1 := upd deg e.1 (deg e.1 + 1)
        upd deg1 e.2 (deg1 e.2 + 1)) deg0) v = deg0 v + (E.flatMap (adjContrib v)).length := by
  induction E with
  | nil => intro deg0 v; simp
  | cons e E ih =>
    intro deg0 v
    rw [List.foldl_cons, ih, List.flatMap_cons]
    obtain ⟨a, b⟩ := e
    by_cases h1 : v = a
    · subst h1
      by_cases h2 : v = b
      · subst h2
        simp [adjContrib, upd]
        omega
      · have hb : ¬ (b = v) := fun h => h2 h.symm
        simp [adjContrib, upd, h2, hb]
        omega
    · have ha : ¬ (a = v) := fun h => h1 h.symm
      by_cases h2 : v = b
      · subst h2
        simp [adjContrib, upd, h1, ha]
        omega
      · have hb : ¬ (b = v) := fun h => h2 h.symm
        simp [adjContrib, upd, h1, h2, ha, hb]

/-- `degrees` agrees with adjacency-list lengths. -/
theorem buildDeg_eq_len (E : List (Nat × Nat)) (v : Nat) :
    buildDeg E v = (buildAdj E v).length := by
  rw [buildDeg, buildDeg_go, buildAdj_eq]
  omega

theorem mem_adjContrib {v u : Nat} {e : Nat × Nat} :
    u ∈ adjContrib v e ↔ (e.1 = v ∧ e.2 = u) ∨ (e.2 = v ∧ e.1 = u) := by
  unfold adjContrib
  by_cases h1 : e.1 = v <;> by_cases h2 : e.2 = v <;> simp [h1, h2] <;> aesop

theorem mem_buildAdj {E : List (Nat × Nat)} {v u : Nat} :
    u ∈ buildAdj E v ↔ ((v, u) ∈ E ∨ (u, v) ∈ E) := by
  rw [buildAdj_eq, List.mem_flatMap]
  constructor
  · rintro ⟨e, he, hu⟩
    rcases mem_adjContrib.mp hu with ⟨h1, h2⟩ | ⟨h1, h2⟩
    · left; have : e = (v, u) := by ext <;> simp [h1, h2]
      rwa [← this]
    · right; have : e = (u, v) := by ext <;> simp [h1, h2]
      rwa [← this]
  · rintro (h | h)
    · exact ⟨(v, u), h, by simp [adjContrib]⟩
    · exact ⟨(u, v), h, by simp [adjContrib]⟩

theorem flatMap_contrib_nodup (v : Nat) :
    ∀ (E : List (Nat × Nat)), (∀ e ∈ E, e.1 ≠ e.2) →
      E.Pairwise (fun e f => ¬ (e.1 = f.1 ∧ e.2 = f.2) ∧ ¬ (e.1 = f.2 ∧ e.2 = f.1)) →
      (E.flatMap (adjContrib v)).Nodup := by
  intro E
  induction E with
  | nil => simp
  | cons e E ih =>
    intro hs hp
    obtain ⟨hhead, htail⟩ := List.pairwise_cons.mp hp
    rw [List.flatMap_cons, List.nodup_append]
    refine ⟨?_, ih (fun f hf => hs f (List.mem_cons_of_mem e hf)) htail, ?_⟩
    · have hne := hs e (List.mem_cons_self e E)
      unfold adjContrib
      by_cases h1 : e.1 = v <;> by_cases h2 : e.2 = v
      · exfalso
        exact hne (h1.trans h2.symm)
      · simp [h1, h2]
      · simp [h1, h2]
      · simp [h1, h2]
    · intro u hu hu'
      obtain ⟨f, hf, huf⟩ := List.mem_flatMap.mp hu'
      have hrel := hhead f hf
      rcases mem_adjContrib.mp hu with ⟨h1, h2⟩ | ⟨h1, h2⟩ <;>
        rcases mem_adjContrib.mp huf with ⟨g1, g2⟩ | ⟨g1, g2⟩
      · exact hrel.1 ⟨h1.trans g1.symm, h2.trans g2.symm⟩
      · exact hrel.2 ⟨h1.trans g1.symm, h2.trans g2.symm⟩
      · exact hrel.2 ⟨h2.trans g2.symm, h1.trans g1.symm⟩
      · exact hrel.1 ⟨h2.trans g2.symm, h1.trans g1.symm⟩

/-- Adjacency lists built from a well-formed edge list contain no
duplicates. -/
theorem buildAdj_nodup {n : Nat} {E : List (Nat × Nat)} (hwf : WFGraph n E) (v : Nat) :
    (buildAdj E v).Nodup := by
  rw [buildAdj_eq]
  exact flatMap_contrib_nodup v E (fun e he => (hwf.1 e he).2.2) hwf.2.1

theorem buildAdj_noself {n : Nat} {E : List (Nat × Nat)} (hwf : WFGraph n E) (v : Nat) :
    v ∉ buildAdj E v := by
  intro h
  rcases mem_buildAdj.mp h with h' | h' <;> exact (hwf.1 _ h').2.2 rfl

theorem buildAdj_bound {n : Nat} {E : List (Nat × Nat)} (hwf : WFGraph n E) (v u : Nat)
    (h : u ∈ buildAdj E v) : u < n ∧ v < n := by
  rcases mem_buildAdj.mp h with h' | h'
  · exact ⟨(hwf.1 _ h').2.1, (hwf.1 _ h').1⟩
  · exact ⟨(hwf.1 _ h').1, (hwf.1 _ h').2.1⟩

theorem buildAdj_symm {E : List (Nat × Nat)} (v u : Nat)
    (h : u ∈ buildAdj E v) : v ∈ buildAdj E u := by
  rcases mem_buildAdj.mp h with h' | h' <;> exact mem_buildAdj.mpr (by tauto)

/-- The graph store built by `readGraph` from a well-formed edge list is a
well-formed adjacency structure. -/
theorem adjOK_of_WF {n : Nat} {E : List (Nat × Nat)} (hwf : WFGraph n E) :
    AdjOK n (buildAdj E) (buildDeg E) :=
  ⟨fun v => buildDeg_eq_len E v, buildAdj_nodup hwf, buildAdj_noself hwf,
   buildAdj_bound hwf, fun u v h => buildAdj_symm v u h⟩

/-- A vertex with an unemitted neighbour has positive residual degree. -/
theorem resDeg_pos (adj : Nat → List Nat) (base : List Nat) (u v : Nat)
    (hv : v ∈ adj u) (hvo : v ∉ base) : 1 ≤ resDeg adj base u := by
  have : v ∈ (adj u).filter (fun w => decide (w ∉ base)) :=
    List.mem_filter.mpr ⟨hv, by simpa using hvo⟩
  have := List.length_pos.mpr (List.ne_nil_of_mem this)
  simpa [resDeg] using this

/-- Invariant carried through the neighbour loop of one pop of
`dgn_order_cal`.  `base` is the order before the pop, `v` the popped vertex,
`itop` the bucket index, `l` the neighbours not yet processed. -/
structure NbInv (n itop : Nat) (adj : Nat → List Nat) (base : List Nat) (v : Nat)
    (l : List Nat) (t : DgnState) : Prop where
  ord : t.order = base ++ [v]
  ordLt : ∀ u ∈ t.order, u < n
  ordNd : t.order.Nodup
  bucketMem : ∀ d u, u ∈ t.D d → u < n ∧ u ∉ t.order ∧ t.cur_deg u = d
  bucketNd : ∀ d, (t.D d).Nodup
  cover : ∀ u, u < n → u ∉ t.order → u ∈ t.D (t.cur_deg u)
  res : ∀ u, u < n → u ∉ t.order →
    t.cur_deg u + (if u ∈ adj v ∧ u ∉ l then 1 else 0) = resDeg adj base u
  emitted0 : ∀ u ∈ t.order, t.cur_deg u = 0
  low : ∀ d : Nat, (d : Int) < (itop : Int) - 1 → t.D d = []

theorem nbFold_spec (n itop : Nat) (adj : Nat → List Nat) (base : List Nat) (v : Nat)
    (hbound : ∀ w u, u ∈ adj w → u < n ∧ w < n)
    (hsymm : ∀ u w, u ∈ adj w → w ∈ adj u)
    (hvo : v ∉ base)
    (hlb : ∀ u, u < n → u ∉ base → itop ≤ resDeg adj base u) :
    ∀ (l : List Nat) (t : DgnState), l.Nodup → (∀ w ∈ l, w ∈ adj v) →
      NbInv n itop adj base v l t →
      NbInv n itop adj base v [] (l.foldl dgnNbStep t) := by
  intro l
  induction l with
  | nil => intro t _ _ h; exact h
  | cons u l' ih =>
    intro t hnd hsub J
    have hul' : u ∉ l' := (List.nodup_cons.mp hnd).1
    have huadj : u ∈ adj v := hsub u (List.mem_cons_self u l')
    have hun : u < n := (hbound v u huadj).1
    have hvadj : v ∈ adj u := hsymm u v huadj
    rw [List.foldl_cons]
    apply ih _ hnd.of_cons (fun w hw => hsub w (List.mem_cons_of_mem _ hw))
    by_cases hcz : t.cur_deg u = 0
    · -- `u` is already emitted: the guard skips it and nothing changes.
      have hskip : dgnNbStep t u = t := by simp [dgnNbStep, hcz]
      rw [hskip]
      have huo : u ∈ t.order := by
        by_contra huo
        have := J.res u hun huo
        have hpos : 1 ≤ resDeg adj base u := resDeg_pos adj base u v hvadj hvo
        simp [hcz, List.mem_cons] at this
        omega
      refine ⟨J.ord, J.ordLt, J.ordNd, J.bucketMem, J.bucketNd, J.cover, ?_, J.emitted0, J.low⟩
      intro w hw hwo
      have hwu : w ≠ u := fun h => hwo (h ▸ huo)
      have := J.res w hw hwo
      have hmemiff : (w ∉ u :: l') ↔ (w ∉ l') := by simp [hwu]
      by_cases hwl : w ∈ adj v ∧ w ∉ l'
      · rw [if_pos hwl]
        rw [if_pos ⟨hwl.1, hmemiff.mpr hwl.2⟩] at this
        exact this
      · rw [if_neg hwl]
        rw [if_neg (fun hc => hwl ⟨hc.1, hmemiff.mp hc.2⟩)] at this
        exact this
    · -- `u` is unemitted: it moves one bucket down.
      have huo : u ∉ t.order := fun h => hcz (J.emitted0 u h)
      have hub : u ∉ base := fun h => huo (J.ord ▸ List.mem_append_left _ h)
      have hres : t.cur_deg u = resDeg adj base u := by
        have := J.res u hun huo
        simp [List.mem_cons] at this
        omega
      have hd1 : 1 ≤ t.cur_deg u := Nat.one_le_iff_ne_zero.mpr hcz
      have hdlb : itop ≤ t.cur_deg u := hres ▸ hlb u hun hub
      have hstep : dgnNbStep t u =
          { D := upd (upd t.D (t.cur_deg u) ((t.D (t.cur_deg u)).erase u))
              (t.cur_deg u - 1)
              ((upd t.D (t.cur_deg u) ((t.D (t.cur_deg u)).erase u)) (t.cur_deg u - 1) ++ [u]),
            cur_deg := upd t.cur_deg u (t.cur_deg u - 1), order := t.order } := by
        simp [dgnNbStep, hcz]
      rw [hstep]
      set d := t.cur_deg u with hdd
      have hdne : d - 1 ≠ d := by omega
      have humem : u ∈ t.D d := J.cover u hun huo
      have hud1 : u ∉ t.D (d - 1) := fun h => hdne ((J.bucketMem _ u h).2.2).symm
      refine ⟨J.ord, J.ordLt, J.ordNd, ?_, ?_, ?_, ?_, ?_, ?_⟩ <;> dsimp only
      · -- bucketMem
        intro d' w hw
        by_cases h1 : d' = d - 1
        · subst h1
          simp only [upd_same] at hw
          rw [upd_other _ _ _ _ hdne] at hw
          rcases List.mem_append.mp hw with hw | hw
          · obtain ⟨hwn, hwo, hwc⟩ := J.bucketMem _ w hw
            have hwu : w ≠ u := fun h => by rw [h] at hwc; exact hdne hwc.symm
            exact ⟨hwn, hwo, by rw [upd_other _ _ _ _ hwu]; exact hwc⟩
          · have hwu : w = u := by simpa using hw
            subst hwu
            exact ⟨hun, huo, upd_same _ _ _⟩
        · rw [upd_other _ _ _ _ h1] at hw
          by_cases h2 : d' = d
          · subst h2
            rw [upd_same] at hw
            have hw' : w ∈ t.D d := List.mem_of_mem_erase hw
            have hwu : w ≠ u := ((List.Nodup.mem_erase_iff (J.bucketNd d)).mp hw).1
            obtain ⟨hwn, hwo, hwc⟩ := J.bucketMem _ w hw'
            exact ⟨hwn, hwo, by rw [upd_other _ _ _ _ hwu]; exact hwc⟩
          · rw [upd_other _ _ _ _ h2] at hw
            obtain ⟨hwn, hwo, hwc⟩ := J.bucketMem _ w hw
            have hwu : w ≠ u := fun h => h2 (by rw [← hwc, h])
            exact ⟨hwn, hwo, by rw [upd_other _ _ _ _ hwu]; exact hwc⟩
      · -- bucketNd
        intro d'
        by_cases h1 : d' = d - 1
        · subst h1
          simp only [upd_same]
          rw [upd_other _ _ _ _ hdne]
          exact List.Nodup.append (J.bucketNd _) (List.nodup_singleton u)
            (by intro w hw hw'
                have : w = u := by simpa using hw'
                exact hud1 (this ▸ hw))
        · rw [upd_other _ _ _ _ h1]
          by_cases h2 : d' = d
          · subst h2
            rw [upd_same]
            exact (J.bucketNd d).erase u
          · rw [upd_other _ _ _ _ h2]
            exact J.bucketNd d'
      · -- cover
        intro w hwn hwo
        by_cases hwu : w = u
        · subst hwu
          simp only [upd_same]
          rw [upd_other _ _ _ _ hdne]
          exact List.mem_append_right _ (List.mem_singleton_self _)
        · rw [upd_other _ _ _ _ hwu]
          have hold := J.cover w hwn hwo
          by_cases h1 : t.cur_deg w = d - 1
          · rw [h1, upd_same]
            rw [upd_other _ _ _ _ hdne]
            exact List.mem_append_left _ (h1 ▸ hold)
          · rw [upd_other _ _ _ _ h1]
            by_cases h2 : t.cur_deg w = d
            · rw [h2, upd_same]
              exact (List.mem_erase_of_ne hwu).mpr (h2 ▸ hold)
            · rw [upd_other _ _ _ _ h2]
              exact hold
      · -- res
        intro w hwn hwo
        by_cases hwu : w = u
        · subst hwu
          rw [upd_same, if_pos ⟨huadj, hul'⟩]
          omega
        · rw [upd_other _ _ _ _ hwu]
          have := J.res w hwn hwo
          have hmemiff : (w ∉ u :: l') ↔ (w ∉ l') := by simp [hwu]
          by_cases hwl : w ∈ adj v ∧ w ∉ l'
          · rw [if_pos hwl]
            rw [if_pos ⟨hwl.1, hmemiff.mpr hwl.2⟩] at this
            exact this
          · rw [if_neg hwl]
            rw [if_neg (fun hc => hwl ⟨hc.1, hmemiff.mp hc.2⟩)] at this
            exact this
      · -- emitted0
        intro w hw
        have hwu : w ≠ u := fun h => huo (h ▸ hw)
        rw [upd_other _ _ _ _ hwu]
        exact J.emitted0 w hw
      · -- low buckets stay empty
        intro d' hd'
        have h1 : d' ≠ d - 1 := by omega
        have h2 : d' ≠ d := by omega
        rw [upd_other _ _ _ _ h1, upd_other _ _ _ _ h2]
        exact J.low d' hd'

/-- Steady-state invariant of the bucket queue between scan iterations. -/
structure DgnInv (n : Nat) (adj : Nat → List Nat) (s : DgnState) : Prop where
  ordLt : ∀ v ∈ s.order, v < n
  ordNd : s.order.Nodup
  bucketMem : ∀ d v, v ∈ s.D d → v < n ∧ v ∉ s.order ∧ s.cur_deg v = d
  bucketNd : ∀ d, (s.D d).Nodup
  cover : ∀ v, v < n → v ∉ s.order → v ∈ s.D (s.cur_deg v)
  res : ∀ v, v < n → v ∉ s.order → s.cur_deg v = resDeg adj s.order v
  emitted0 : ∀ v ∈ s.order, s.cur_deg v = 0

/-- All buckets strictly below the scan counter are empty. -/
def LowEmpty (s : DgnState) (i : Int) : Prop :=
  ∀ d : Nat, (d : Int) < i → s.D d = []

/-- The degeneracy-order minimality property of a (partial) emission order:
each emitted vertex has, at its emission point, minimal residual degree
among the vertices not yet emitted at that point. -/
def DgnMin (n : Nat) (adj : Nat → List Nat) (o : List Nat) : Prop :=
  ∀ k u, k < o.length → u < n → u ∉ o.take k →
    resDeg adj (o.take k) (o.getD k 0) ≤ resDeg adj (o.take k) u

theorem dgnPop_spec (n : Nat) (adj : Nat → List Nat)
    (hbound : ∀ w u, u ∈ adj w → u < n ∧ w < n)
    (hnodupadj : ∀ w, (adj w).Nodup)
    (hsymm : ∀ u w, u ∈ adj w → w ∈ adj u)
    (s : DgnState) (i : Int) (hi : 0 ≤ i)
    (inv : DgnInv n adj s) (low : LowEmpty s i)
    (v : Nat) (rest : List Nat) (hD : s.D i.toNat = v :: rest) :
    DgnInv n adj (dgnPop adj s i.toNat v rest) ∧
    (dgnPop adj s i.toNat v rest).order = s.order ++ [v] ∧
    LowEmpty (dgnPop adj s i.toNat v rest) (i - 1) ∧
    v < n ∧ v ∉ s.order ∧
    (∀ u, u < n → u ∉ s.order → resDeg adj s.order v ≤ resDeg adj s.order u) := by
  have hvmem : v ∈ s.D i.toNat := by rw [hD]; exact List.mem_cons_self v rest
  obtain ⟨hvn, hvo, hvc⟩ := inv.bucketMem _ v hvmem
  have hicast : ((i.toNat : Nat) : Int) = i := Int.toNat_of_nonneg hi
  have hlb : ∀ u, u < n → u ∉ s.order → i.toNat ≤ resDeg adj s.order u := by
    intro u hun huo
    by_contra hlt
    push_neg at hlt
    have hcur : s.cur_deg u = resDeg adj s.order u := inv.res u hun huo
    have hcov := inv.cover u hun huo
    have hemp : s.D (s.cur_deg u) = [] := by
      apply low
      rw [hcur]
      omega
    rw [hemp] at hcov
    cases hcov
  have hmin : ∀ u, u < n → u ∉ s.order → resDeg adj s.order v ≤ resDeg adj s.order u := by
    intro u hun huo
    have h1 : resDeg adj s.order v = i.toNat := by
      rw [← inv.res v hvn hvo, hvc]
    rw [h1]
    exact hlb u hun huo
  have hvrest : v ∉ rest := by
    have := inv.bucketNd i.toNat
    rw [hD] at this
    exact (List.nodup_cons.mp this).1
  -- the state after the head is removed and `v` is emitted
  have hJ1 : NbInv n i.toNat adj s.order v (adj v)
      { D := upd s.D i.toNat rest, cur_deg := upd s.cur_deg v 0,
        order := s.order ++ [v] } := by
    refine ⟨rfl, ?_, ?_, ?_, ?_, ?_, ?_, ?_, ?_⟩ <;> dsimp only
    · intro u hu
      rcases List.mem_append.mp hu with h | h
      · exact inv.ordLt u h
      · rw [List.mem_singleton.mp h]; exact hvn
    · rw [List.nodup_append]
      exact ⟨inv.ordNd, List.nodup_singleton v,
        fun w hw hw' => hvo ((List.mem_singleton.mp hw') ▸ hw)⟩
    · intro d w hw
      by_cases h1 : d = i.toNat
      · subst h1
        rw [upd_same] at hw
        have hw' : w ∈ s.D i.toNat := by rw [hD]; exact List.mem_cons_of_mem v hw
        obtain ⟨hwn, hwo, hwc⟩ := inv.bucketMem _ w hw'
        have hwv : w ≠ v := fun h => hvrest (h ▸ hw)
        refine ⟨hwn, ?_, by rw [upd_other _ _ _ _ hwv]; exact hwc⟩
        simp [List.mem_append, hwo, hwv]
      · rw [upd_other _ _ _ _ h1] at hw
        obtain ⟨hwn, hwo, hwc⟩ := inv.bucketMem _ w hw
        have hwv : w ≠ v := fun h => h1 (by rw [← hwc, h, hvc])
        refine ⟨hwn, ?_, by rw [upd_other _ _ _ _ hwv]; exact hwc⟩
        simp [List.mem_append, hwo, hwv]
    · intro d
      by_cases h1 : d = i.toNat
      · subst h1
        rw [upd_same]
        have := inv.bucketNd i.toNat
        rw [hD] at this
        exact this.of_cons
      · rw [upd_other _ _ _ _ h1]
        exact inv.bucketNd d
    · intro w hwn hwo
      have hwv : w ≠ v := by
        intro h
        refine hwo ?_
        rw [h]
        exact List.mem_append_right _ (List.mem_singleton_self v)
      have hwo' : w ∉ s.order := fun h => hwo (List.mem_append_left _ h)
      rw [upd_other _ _ _ _ hwv]
      have hold := inv.cover w hwn hwo'
      by_cases h1 : s.cur_deg w = i.toNat
      · rw [h1, upd_same]
        rw [h1, hD] at hold
        rcases List.mem_cons.mp hold with h | h
        · exact absurd h hwv
        · exact h
      · rw [upd_other _ _ _ _ h1]
        exact hold
    · intro w hwn hwo
      have hwv : w ≠ v := by
        intro h
        refine hwo ?_
        rw [h]
        exact List.mem_append_right _ (List.mem_singleton_self v)
      have hwo' : w ∉ s.order := fun h => hwo (List.mem_append_left _ h)
      rw [upd_other _ _ _ _ hwv]
      rw [if_neg (fun hc => hc.2 hc.1)]
      simpa using inv.res w hwn hwo'
    · intro w hw
      rcases List.mem_append.mp hw with h | h
      · have hwv : w ≠ v := fun he => hvo (he ▸ h)
        rw [upd_other _ _ _ _ hwv]
        exact inv.emitted0 w h
      · rw [List.mem_singleton.mp h, upd_same]
    · intro d hd
      have h1 : d ≠ i.toNat := by omega
      rw [upd_other _ _ _ _ h1]
      apply low
      omega
  have hJfinal := nbFold_spec n i.toNat adj s.order v hbound hsymm hvo hlb
    (adj v) _ (hnodupadj v) (fun w hw => hw) hJ1
  have hpop : dgnPop adj s i.toNat v rest =
      (adj v).foldl dgnNbStep
        { D := upd s.D i.toNat rest, cur_deg := upd s.cur_deg v 0,
          order := s.order ++ [v] } := rfl
  rw [hpop]
  set t := (adj v).foldl dgnNbStep
    { D := upd s.D i.toNat rest, cur_deg := upd s.cur_deg v 0,
      order := s.order ++ [v] } with ht
  refine ⟨?_, hJfinal.ord, ?_, hvn, hvo, hmin⟩
  · refine ⟨hJfinal.ordLt, hJfinal.ordNd, hJfinal.bucketMem, hJfinal.bucketNd,
      hJfinal.cover, ?_, hJfinal.emitted0⟩
    intro u hun huo
    have hres := hJfinal.res u hun huo
    have huob : u ∉ s.order := by
      rw [hJfinal.ord] at huo
      exact fun h => huo (List.mem_append_left _ h)
    have hsn := resDeg_snoc adj s.order u v (hnodupadj u) hvo
    rw [hJfinal.ord]
    have hiff : (u ∈ adj v) ↔ (v ∈ adj u) := ⟨fun h => hsymm u v h, fun h => hsymm v u h⟩
    by_cases hua : u ∈ adj v
    · rw [if_pos ⟨hua, by simp⟩] at hres
      rw [if_pos (hiff.mp hua)] at hsn
      omega
    · rw [if_neg (fun hc => hua hc.1)] at hres
      rw [if_neg (fun hc => hua (hiff.mpr hc))] at hsn
      omega
  · intro d hd
    apply hJfinal.low
    omega

theorem nodup_lt_length_le (l : List Nat) (n : Nat) (hnd : l.Nodup)
    (hlt : ∀ w ∈ l, w < n) : l.length ≤ n := by
  have h1 : l.toFinset ⊆ Finset.range n := by
    intro w hw
    exact Finset.mem_range.mpr (hlt w (List.mem_toFinset.mp hw))
  have h2 := Finset.card_le_card h1
  rwa [List.toFinset_card_of_nodup hnd, Finset.card_range] at h2

theorem dgnMin_snoc (n : Nat) (adj : Nat → List Nat) (o : List Nat) (v : Nat)
    (hmin : DgnMin n adj o)
    (hv : ∀ u, u < n → u ∉ o → resDeg adj o v ≤ resDeg adj o u) :
    DgnMin n adj (o ++ [v]) := by
  intro k u hk hu hut
  rw [List.length_append, List.length_singleton] at hk
  by_cases hko : k < o.length
  · rw [List.take_append_of_le_length (le_of_lt hko)] at hut ⊢
    rw [List.getD_append _ _ _ _ hko]
    exact hmin k u hko hu hut
  · have hk' : k = o.length := by omega
    subst hk'
    rw [List.take_left] at hut ⊢
    have hget : (o ++ [v]).getD o.length 0 = v := by
      rw [List.getD_eq_getElem?_getD]
      simp
    rw [hget]
    exact hv u hu hut

theorem dgnLoop_spec (n maxDeg : Nat) (adj : Nat → List Nat)
    (hbound : ∀ w u, u ∈ adj w → u < n ∧ w < n)
    (hnodupadj : ∀ w, (adj w).Nodup)
    (hsymm : ∀ u w, u ∈ adj w → w ∈ adj u)
    (hdeg : ∀ u, u < n → (adj u).length ≤ maxDeg) :
    ∀ (fuel : Nat) (i : Int) (s : DgnState),
      DgnInv n adj s → DgnMin n adj s.order → LowEmpty s i →
      -1 ≤ i → i ≤ (maxDeg : Int) + 1 →
      2 * (n - s.order.length) + ((maxDeg : Int) + 1 - i).toNat < fuel →
      ∃ s', dgnLoop adj maxDeg fuel i s = some s' ∧ DgnInv n adj s' ∧
        DgnMin n adj s'.order ∧ (∀ v, v < n → v ∈ s'.order) := by
  intro fuel
  induction fuel with
  | zero => intro i s _ _ _ _ _ hf; omega
  | succ f ih =>
    intro i s inv hmin low hlo hhi hf
    rw [dgnLoop]
    by_cases hgt : i > (maxDeg : Int)
    · rw [if_pos hgt]
      refine ⟨s, rfl, inv, hmin, ?_⟩
      intro v hv
      by_contra hvo
      have hcov := inv.cover v hv hvo
      have hemp : s.D (s.cur_deg v) = [] := by
        apply low
        have h1 : s.cur_deg v = resDeg adj s.order v := inv.res v hv hvo
        have h2 : resDeg adj s.order v ≤ (adj v).length := resDeg_le_len adj s.order v
        have h3 := hdeg v hv
        omega
      rw [hemp] at hcov
      cases hcov
    · rw [if_neg hgt]
      by_cases hge : 0 ≤ i
      · rw [if_pos hge]
        cases hDi : s.D i.toNat with
        | nil =>
          apply ih (i + 1) s inv hmin ?_ (by omega) (by omega) (by omega)
          intro d hd
          by_cases h : (d : Int) < i
          · exact low d h
          · have hdi : d = i.toNat := by omega
            rw [hdi]
            exact hDi
        | cons v rest =>
          obtain ⟨inv', hord', low', hvn, hvo, hminv⟩ :=
            dgnPop_spec n adj hbound hnodupadj hsymm s i hge inv low v rest hDi
          have hlen : s.order.length < n := by
            have hnd : (v :: s.order).Nodup := List.nodup_cons.mpr ⟨hvo, inv.ordNd⟩
            have hle := nodup_lt_length_le (v :: s.order) n hnd ?_
            · simpa using hle
            · intro w hw
              rcases List.mem_cons.mp hw with h | h
              · exact h ▸ hvn
              · exact inv.ordLt w h
          apply ih (i - 1) _ inv' ?_ low' (by omega) (by omega) ?_
          · rw [hord']
            exact dgnMin_snoc n adj s.order v hmin hminv
          · rw [hord', List.length_append, List.length_singleton]
            omega
      · rw [if_neg hge]
        apply ih (i + 1) s inv hmin ?_ (by omega) (by omega) (by omega)
        intro d hd
        omega

/-- Full specification of `dgn_order_cal` on a well-formed adjacency
structure: the scan loop terminates within its fuel having emitted every
vertex exactly once, and the order satisfies the degeneracy-minimality
property. -/
theorem dgn_order_cal_spec (n : Nat) (adj : Nat → List Nat) (deg : Nat → Nat)
    (hok : AdjOK n adj deg) :
    ∃ o, dgn_order_cal n adj deg = some o ∧ o.Nodup ∧ (∀ v, v ∈ o ↔ v < n) ∧
      o.length = n ∧ DgnMin n adj o := by
  have hinv : DgnInv n adj (dgnInit n deg) := by
    refine ⟨?_, ?_, ?_, ?_, ?_, ?_, ?_⟩ <;> dsimp only [dgnInit]
    · intro v hv; cases hv
    · exact List.nodup_nil
    · intro d v hv
      have h1 := List.mem_filter.mp hv
      refine ⟨List.mem_range.mp h1.1, ?_, by simpa using h1.2⟩
      intro h
      cases h
    · intro d
      exact List.Nodup.filter _ (List.nodup_range n)
    · intro v hv _
      exact List.mem_filter.mpr ⟨List.mem_range.mpr hv, by simp⟩
    · intro v hv _
      rw [resDeg_nil]
      exact hok.len v
    · intro v hv; cases hv
  have hdeg : ∀ u, u < n → (adj u).length ≤ maxDegOf n deg := by
    intro u hu
    rw [← hok.len u]
    exact deg_le_maxDegOf n deg u hu
  obtain ⟨s', hrun, inv', hmin', hcomp⟩ :=
    dgnLoop_spec n (maxDegOf n deg) adj hok.bound hok.nodup hok.symm hdeg
      (dgnFuel n (maxDegOf n deg)) 0 (dgnInit n deg) hinv
      (by intro k u hk; simp [dgnInit] at hk)
      (by intro d hd; exact absurd hd (by omega))
      (by omega) (by omega)
      (by simp [dgnFuel, dgnInit]; omega)
  refine ⟨s'.order, ?_, inv'.ordNd, ?_, ?_, hmin'⟩
  · rw [dgn_order_cal, hrun]
  · intro v
    exact ⟨fun h => inv'.ordLt v h, fun h => hcomp v h⟩
  · have hsub : s'.order.toFinset = Finset.range n := by
      ext w
      simp only [List.mem_toFinset, Finset.mem_range]
      exact ⟨fun h => inv'.ordLt w h, fun h => hcomp w h⟩
    calc s'.order.length = s'.order.toFinset.card :=
          (List.toFinset_card_of_nodup inv'.ordNd).symm
    _ = n := by rw [hsub, Finset.card_range]

theorem buildRev_aux (o : List Nat) (hnd : o.Nodup) :
    ∀ (m : Nat), m ≤ o.length →
      ∀ i, i < m → ((List.range m).foldl (fun rev j => upd rev (o.getD j 0) j)
        (fun _ => 0)) (o.getD i 0) = i := by
  intro m
  induction m with
  | zero => intro _ i hi; omega
  | succ m ih =>
    intro hm i hi
    rw [List.range_succ, List.foldl_append, List.foldl_cons, List.foldl_nil]
    by_cases him : i = m
    · subst him
      rw [upd_same]
    · have hilt : i < m := by omega
      have hne : o.getD i 0 ≠ o.getD m 0 := by
        intro he
        have hio : i < o.length := by omega
        have hmo : m < o.length := by omega
        rw [List.getD_eq_getElem o 0 hio, List.getD_eq_getElem o 0 hmo] at he
        exact him ((List.Nodup.getElem_inj_iff hnd).mp he)
      rw [upd_other _ _ _ _ hne]
      exact ih (by omega) i hilt

/-- With a duplicate-free order of length `n`, `rev_dgn` inverts
`dgn_order` position-wise. -/
theorem buildRev_getD (o : List Nat) (n : Nat) (hnd : o.Nodup) (hlen : o.length = n)
    (i : Nat) (hi : i < n) : buildRev n o (o.getD i 0) = i := by
  unfold buildRev
  exact buildRev_aux o hnd n (by omega) i hi

/-! ## Claims C5 and C6: the degeneracy ordering -/

/-- C5: on a well-formed graph, `dgn_order_cal` terminates with `dgn_order`
containing every vertex exactly once, and `rev_dgn` is the positional
inverse of `dgn_order` in both directions. -/
theorem c5_dgn_order_perm (n : Nat) (E : List (Nat × Nat)) (hwf : WFGraph n E) :
    ∃ o, dgn_order_cal n (buildAdj E) (buildDeg E) = some o ∧
      o.length = n ∧ o.Nodup ∧ (∀ v, v ∈ o ↔ v < n) ∧
      (∀ i, i < n → buildRev n o (o.getD i 0) = i) ∧
      (∀ v, v < n → o.getD (buildRev n o v) 0 = v) := by
  obtain ⟨o, hrun, hnd, hmem, hlen, _⟩ := dgn_order_cal_spec n _ _ (adjOK_of_WF hwf)
  refine ⟨o, hrun, hlen, hnd, hmem, fun i hi => buildRev_getD o n hnd hlen i hi, ?_⟩
  intro v hv
  obtain ⟨i, hi, hgv⟩ := List.mem_iff_getElem.mp ((hmem v).mpr hv)
  have hgd : o.getD i 0 = v := by rw [List.getD_eq_getElem o 0 hi, hgv]
  have hrv : buildRev n o v = i := by
    rw [← hgd]
    exact buildRev_getD o n hnd hlen i (by omega)
  rw [hrv, hgd]

/-- C5 (witness): the path graph `0 – 1 – 2`, whose degeneracy order is
`[0, 2, 1]`. -/
theorem c5_dgn_order_perm_witness :
    WFGraph 3 [(0, 1), (1, 2)] ∧
    (∃ o, dgn_order_cal 3 (buildAdj [(0, 1), (1, 2)]) (buildDeg [(0, 1), (1, 2)]) = some o ∧
      o.length = 3 ∧ o.Nodup ∧ (∀ v, v ∈ o ↔ v < 3) ∧
      (∀ i, i < 3 → buildRev 3 o (o.getD i 0) = i) ∧
      (∀ v, v < 3 → o.getD (buildRev 3 o v) 0 = v)) :=
  ⟨by decide, c5_dgn_order_perm 3 [(0, 1), (1, 2)] (by decide)⟩

/-- C6: the order produced by `dgn_order_cal` is a degeneracy ordering: the
vertex emitted at position `i` has, at that moment, residual degree no
greater than that of any vertex emitted at a later position `j`. -/
theorem c6_dgn_order_minimal (n : Nat) (E : List (Nat × Nat)) (hwf : WFGraph n E) :
    ∃ o, dgn_order_cal n (buildAdj E) (buildDeg E) = some o ∧
      ∀ i j, i < j → j < n →
        resDeg (buildAdj E) (o.take i) (o.getD i 0) ≤
          resDeg (buildAdj E) (o.take i) (o.getD j 0) := by
  obtain ⟨o, hrun, hnd, hmem, hlen, hmin⟩ := dgn_order_cal_spec n _ _ (adjOK_of_WF hwf)
  refine ⟨o, hrun, ?_⟩
  intro i j hij hj
  have hjlen : j < o.length := by omega
  have hu : o.getD j 0 < n := by
    rw [List.getD_eq_getElem o 0 hjlen]
    exact (hmem _).mp (List.getElem_mem hjlen)
  apply hmin i (o.getD j 0) (by omega) hu
  intro hmemtake
  obtain ⟨k, hk, hgk⟩ := List.mem_iff_getElem.mp hmemtake
  have hkt : k < i := by
    have := hk
    rw [List.length_take] at this
    omega
  rw [List.getD_eq_getElem o 0 hjlen] at hgk
  simp only [List.getElem_take] at hgk
  have : k = j := (List.Nodup.getElem_inj_iff hnd).mp hgk
  omega

/-- C6 (witness): the path graph `0 – 1 – 2`. -/
theorem c6_dgn_order_minimal_witness :
    WFGraph 3 [(0, 1), (1, 2)] ∧
    (∃ o, dgn_order_cal 3 (buildAdj [(0, 1), (1, 2)]) (buildDeg [(0, 1), (1, 2)]) = some o ∧
      ∀ i j, i < j → j < 3 →
        resDeg (buildAdj [(0, 1), (1, 2)]) (o.take i) (o.getD i 0) ≤
          resDeg (buildAdj [(0, 1), (1, 2)]) (o.take i) (o.getD j 0)) :=
  ⟨by decide, c6_dgn_order_minimal 3 [(0, 1), (1, 2)] (by decide)⟩

/-! ## Invariants of the enumeration state (`v_list`, `rev_idx`, `adj_list`)

These definitions support claims C1, C2, C7, C8 and C9.  `adj0` is the
pristine adjacency structure built by `readGraph`; during enumeration
`adj_list` is only ever a permutation of it. -/

/-- The contents of the half-open window `[a, b)` of `v_list`. -/
def contentL (s : St) (a b : Nat) : List Nat :=
  (List.range (b - a)).map (fun k => s.v_list (a + k))

/-- The P-prefix property of one adjacency list: every entry whose
`rev_idx` lies in `[p, e)` precedes every entry whose `rev_idx` does not. -/
def SplitWin (rev : Nat → Int) (p e : Nat) (l : List Nat) : Prop :=
  ∃ l1 l2, l = l1 ++ l2 ∧ (∀ w ∈ l1, inWinB rev p e w = true) ∧
    (∀ w ∈ l2, inWinB rev p e w = false)

/-- Well-formedness of the pristine adjacency structure. -/
structure GraphOK (n : Nat) (adj0 : Nat → List Nat) : Prop where
  nodup : ∀ v, (adj0 v).Nodup
  noself : ∀ v, v ∉ adj0 v
  bound : ∀ v u, u ∈ adj0 v → u < n ∧ v < n
  symm : ∀ u v, u ∈ adj0 v → v ∈ adj0 u

/-- The entry invariant of `bron_kerbosch_pivot` for window `(x, p, e)`:
the spec's §8 universal invariants.  `bij1`/`bij2` say `rev_idx` and
`v_list` are mutually inverse on the window, `pre` is the P-prefix
convention, `perm` says each adjacency list is a permutation of the true
neighbour set, `cliq_*` say R is a clique, `win_adj` says every window
vertex is adjacent to all of R, and `sat` says the window contains every
common neighbour of R. -/
structure BKInv (n : Nat) (adj0 : Nat → List Nat) (x p e : Nat) (s : St) : Prop where
  hxp : x ≤ p
  hpe : p ≤ e
  bij1 : ∀ i, x ≤ i → i < e → s.rev_idx (s.v_list i) = (i : Int)
  bij2 : ∀ w, w < n → (x : Int) ≤ s.rev_idx w → s.rev_idx w < (e : Int) →
    s.v_list (s.rev_idx w).toNat = w
  vlt : ∀ i, x ≤ i → i < e → s.v_list i < n
  perm : ∀ u, List.Perm (s.adj_list u) (adj0 u)
  pre : ∀ i, x ≤ i → i < e → SplitWin s.rev_idx p e (s.adj_list (s.v_list i))
  cliq_lt : ∀ r ∈ s.clique, r < n
  cliq_nd : s.clique.Nodup
  cliq_adj : ∀ r ∈ s.clique, ∀ q ∈ s.clique, r ≠ q → r ∈ adj0 q
  win_adj : ∀ i, x ≤ i → i < e → ∀ r ∈ s.clique, s.v_list i ∈ adj0 r
  sat : ∀ w, w < n → (∀ r ∈ s.clique, w ∈ adj0 r) → ∃ i, x ≤ i ∧ i < e ∧ s.v_list i = w
  cliq_ne : s.clique ≠ []
  rev_bound : ∀ w, (x : Int) ≤ s.rev_idx w → s.rev_idx w < (e : Int) → w < n

/-- Cliques as finsets, via membership in the pristine adjacency lists. -/
def IsCliqueA (adj0 : Nat → List Nat) (C : Finset Nat) : Prop :=
  ∀ u ∈ C, ∀ w ∈ C, u ≠ w → u ∈ adj0 w

instance (adj0 : Nat → List Nat) (C : Finset Nat) : Decidable (IsCliqueA adj0 C) := by
  unfold IsCliqueA; infer_instance

/-- Maximal cliques over the pristine adjacency structure. -/
def IsMaxCliqueA (n : Nat) (adj0 : Nat → List Nat) (C : Finset Nat) : Prop :=
  C.Nonempty ∧ C ⊆ Finset.range n ∧ IsCliqueA adj0 C ∧
    ∀ w ∈ Finset.range n, w ∉ C → ¬ IsCliqueA adj0 (insert w C)

instance (n : Nat) (adj0 : Nat → List Nat) (C : Finset Nat) :
    Decidable (IsMaxCliqueA n adj0 C) := by
  unfold IsMaxCliqueA; infer_instance

/-- The number of maximal cliques `C` with `R ⊆ C` and `C ∖ R ⊆ P`: the
quantity a `bron_kerbosch_pivot` call computes. -/
def mcCount (n : Nat) (adj0 : Nat → List Nat) (R : List Nat) (P : List Nat) : Nat :=
  ((Finset.range n).powerset.filter (fun C => IsMaxCliqueA n adj0 C ∧
    (∀ r ∈ R, r ∈ C) ∧ ∀ w ∈ C, w ∉ R → w ∈ P)).card

/-- The state after the common swap step
`rev_idx[v_list[j]] = tgt; rev_idx[v_list[tgt]] = j; swap(v_list[j], v_list[tgt])`. -/
def swapSt (s : St) (j tgt : Nat) : St :=
  { s with
    rev_idx := upd (upd s.rev_idx (s.v_list j) (tgt : Int)) (s.v_list tgt) (j : Int),
    v_list := swapF s.v_list j tgt }

theorem swapSt_adj (s : St) (j tgt : Nat) : (swapSt s j tgt).adj_list = s.adj_list := rfl

theorem swapSt_clique (s : St) (j tgt : Nat) : (swapSt s j tgt).clique = s.clique := rfl

theorem swapSt_count (s : St) (j tgt : Nat) :
    (swapSt s j tgt).clique_count = s.clique_count := rfl

/-- Key properties of one swap step inside the window. -/
theorem swapSt_spec (n : Nat) (x e : Nat) (s : St) (j tgt : Nat)
    (hj1 : x ≤ j) (hj2 : j < e) (ht1 : x ≤ tgt) (ht2 : tgt < e)
    (bij1 : ∀ i, x ≤ i → i < e → s.rev_idx (s.v_list i) = (i : Int))
    (bij2 : ∀ w, w < n → (x : Int) ≤ s.rev_idx w → s.rev_idx w < (e : Int) →
      s.v_list (s.rev_idx w).toNat = w) :
    (∀ i, x ≤ i → i < e → (swapSt s j tgt).rev_idx ((swapSt s j tgt).v_list i) = (i : Int)) ∧
    (∀ w, w < n → (x : Int) ≤ (swapSt s j tgt).rev_idx w →
      (swapSt s j tgt).rev_idx w < (e : Int) →
      (swapSt s j tgt).v_list ((swapSt s j tgt).rev_idx w).toNat = w) ∧
    (∀ i, i ≠ j → i ≠ tgt → (swapSt s j tgt).v_list i = s.v_list i) ∧
    (∀ w, w ≠ s.v_list j → w ≠ s.v_list tgt → (swapSt s j tgt).rev_idx w = s.rev_idx w) ∧
    ((swapSt s j tgt).v_list tgt = s.v_list j ∧
      (swapSt s j tgt).rev_idx (s.v_list j) = (tgt : Int) ∧
      (swapSt s j tgt).v_list j = s.v_list tgt ∧
      (swapSt s j tgt).rev_idx (s.v_list tgt) = (j : Int)) := by
  by_cases hjt : j = tgt
  · subst hjt
    have hvl : ∀ i, (swapSt s j j).v_list i = s.v_list i := by
      intro i
      by_cases h : i = j <;> simp [swapSt, swapF, upd, h]
    have hrev : ∀ w, (swapSt s j j).rev_idx w = s.rev_idx w := by
      intro w
      by_cases h : w = s.v_list j
      · subst h
        simp [swapSt, upd, bij1 j hj1 hj2]
      · simp [swapSt, upd, h]
    refine ⟨?_, ?_, ?_, ?_, ?_⟩
    · intro i hi1 hi2
      rw [hvl, hrev]
      exact bij1 i hi1 hi2
    · intro w hw h1 h2
      rw [hrev] at h1 h2 ⊢
      rw [hvl]
      exact bij2 w hw h1 h2
    · intro i _ _
      exact hvl i
    · intro w _ _
      exact hrev w
    · refine ⟨hvl j ▸ rfl, ?_, hvl j ▸ rfl, ?_⟩ <;>
        (rw [hrev]; exact bij1 j hj1 hj2)
  · have hvv : s.v_list j ≠ s.v_list tgt := by
      intro h
      have h1 := bij1 j hj1 hj2
      have h2 := bij1 tgt ht1 ht2
      rw [h] at h1
      rw [h2] at h1
      exact hjt (by exact_mod_cast h1.symm)
    have hvlj : (swapSt s j tgt).v_list j = s.v_list tgt := by
      simp [swapSt, swapF, upd, hjt, Ne.symm hjt]
    have hvlt : (swapSt s j tgt).v_list tgt = s.v_list j := by
      simp [swapSt, swapF, upd]
    have hvlo : ∀ i, i ≠ j → i ≠ tgt → (swapSt s j tgt).v_list i = s.v_list i := by
      intro i h1 h2
      simp [swapSt, swapF, upd, h1, h2]
    have hrevj : (swapSt s j tgt).rev_idx (s.v_list j) = (tgt : Int) := by
      simp [swapSt, upd, hvv, Ne.symm hvv]
    have hrevt : (swapSt s j tgt).rev_idx (s.v_list tgt) = (j : Int) := by
      simp [swapSt, upd]
    have hrevo : ∀ w, w ≠ s.v_list j → w ≠ s.v_list tgt →
        (swapSt s j tgt).rev_idx w = s.rev_idx w := by
      intro w h1 h2
      simp [swapSt, upd, h1, h2]
    refine ⟨?_, ?_, hvlo, hrevo, hvlt, hrevj, hvlj, hrevt⟩
    · intro i hi1 hi2
      by_cases h1 : i = j
      · subst h1
        rw [hvlj, hrevt]
      · by_cases h2 : i = tgt
        · subst h2
          rw [hvlt, hrevj]
        · rw [hvlo i h1 h2]
          have hne1 : s.v_list i ≠ s.v_list j := by
            intro h
            have := bij1 i hi1 hi2
            rw [h, bij1 j hj1 hj2] at this
            exact h1 (by exact_mod_cast this.symm)
          have hne2 : s.v_list i ≠ s.v_list tgt := by
            intro h
            have := bij1 i hi1 hi2
            rw [h, bij1 tgt ht1 ht2] at this
            exact h2 (by exact_mod_cast this.symm)
          rw [hrevo _ hne1 hne2]
          exact bij1 i hi1 hi2
    · intro w hw h1 h2
      by_cases hwj : w = s.v_list j
      · subst hwj
        rw [hrevj] at h1 h2 ⊢
        simpa using hvlt
      · by_cases hwt : w = s.v_list tgt
        · subst hwt
          rw [hrevt] at h1 h2 ⊢
          simpa using hvlj
        · rw [hrevo w hwj hwt] at h1 h2 ⊢
          have hold := bij2 w hw h1 h2
          have hpos : (s.rev_idx w).toNat ≠ j := by
            intro h
            have hc := congrArg s.v_list h
            rw [hold] at hc
            exact hwj hc
          have hpos2 : (s.rev_idx w).toNat ≠ tgt := by
            intro h
            have hc := congrArg s.v_list h
            rw [hold] at hc
            exact hwt hc
          rw [hvlo _ hpos hpos2]
          exact hold

theorem contentL_nil (s : St) (a b : Nat) (h : b ≤ a) : contentL s a b = [] := by
  unfold contentL
  rw [Nat.sub_eq_zero_of_le h]
  rfl

theorem contentL_succ_right (s : St) (a b : Nat) (h : a ≤ b) :
    contentL s a (b + 1) = contentL s a b ++ [s.v_list b] := by
  unfold contentL
  rw [show b + 1 - a = (b - a) + 1 by omega, List.range_succ, List.map_append]
  simp [show a + (b - a) = b by omega]

theorem contentL_cons_left (s : St) (a b : Nat) (h : a < b) :
    contentL s a b = s.v_list a :: contentL s (a + 1) b := by
  unfold contentL
  rw [show b - a = (b - (a + 1)) + 1 by omega, List.range_succ_eq_map]
  simp only [List.map_cons, Nat.add_zero, List.map_map]
  congr 1
  apply List.map_congr_left
  intro k _
  simp only [Function.comp_apply]
  congr 1
  omega

theorem mem_contentL (s : St) (a b w : Nat) :
    w ∈ contentL s a b ↔ ∃ i, a ≤ i ∧ i < b ∧ s.v_list i = w := by
  unfold contentL
  simp only [List.mem_map, List.mem_range]
  constructor
  · rintro ⟨k, hk, hw⟩
    exact ⟨a + k, by omega, by omega, hw⟩
  · rintro ⟨i, h1, h2, hw⟩
    exact ⟨i - a, by omega, by rw [show a + (i - a) = i by omega]; exact hw⟩

theorem contentL_congr (s t : St) (a b : Nat)
    (h : ∀ i, a ≤ i → i < b → s.v_list i = t.v_list i) :
    contentL s a b = contentL t a b := by
  unfold contentL
  apply List.map_congr_left
  intro k hk
  rw [List.mem_range] at hk
  exact h (a + k) (by omega) (by omega)

theorem contentL_length (s : St) (a b : Nat) : (contentL s a b).length = b - a := by
  simp [contentL]

/-- `SplitWin` only depends on window membership, not on exact `rev` values. -/
theorem SplitWin_transfer (r1 r2 : Nat → Int) (p e : Nat) (l : List Nat)
    (h : ∀ w, inWinB r1 p e w = inWinB r2 p e w) (hs : SplitWin r1 p e l) :
    SplitWin r2 p e l := by
  obtain ⟨l1, l2, heq, h1, h2⟩ := hs
  exact ⟨l1, l2, heq, fun w hw => (h w).symm.trans (h1 w hw),
    fun w hw => (h w).symm.trans (h2 w hw)⟩

/-- The neighbour-walk test finds `cand` iff `cand` is in the list, provided
the list satisfies the P-prefix property and `cand` is in the window. -/
theorem nbInWin_iff (rev : Nat → Int) (p e : Nat) (cand : Nat) (l : List Nat)
    (hs : SplitWin rev p e l) (hc : inWinB rev p e cand = true) :
    (nbInWin rev p e cand l = true) ↔ cand ∈ l := by
  obtain ⟨l1, l2, heq, h1, h2⟩ := hs
  subst heq
  induction l1 with
  | nil =>
    simp only [List.nil_append]
    constructor
    · intro h
      cases l2 with
      | nil => simp [nbInWin] at h
      | cons w rest =>
        rw [nbInWin] at h
        rw [h2 w (List.mem_cons_self w rest)] at h
        simp at h
    · intro h
      exact absurd hc (by rw [h2 cand h]; simp)
  | cons w l1' ih =>
    rw [List.cons_append, nbInWin]
    rw [h1 w (List.mem_cons_self w l1')]
    simp only [if_true]
    by_cases hwc : w = cand
    · subst hwc
      simp
    · rw [List.mem_cons]
      have hih := ih (fun w' hw' => h1 w' (List.mem_cons_of_mem w hw'))
      constructor
      · intro h
        rcases Bool.or_eq_true_iff.mp h with h | h
        · exact Or.inl (of_decide_eq_true h).symm
        · exact Or.inr (hih.mp h)
      · rintro (h | h)
        · exact absurd h.symm hwc
        · exact Bool.or_eq_true_iff.mpr (Or.inr (hih.mpr h))

theorem markNeigh_aux (rev : Nat → Int) (p e : Nat) :
    ∀ (l1 l2 : List Nat), (∀ w ∈ l1, inWinB rev p e w = true) →
      (∀ w ∈ l2, inWinB rev p e w = false) →
      ∀ (base : Nat → Bool) (k : Nat),
        (markNeigh rev p e (l1 ++ l2) base) k = true ↔
          (base k = true ∨ ∃ w ∈ l1, (rev w).toNat - p = k) := by
  intro l1
  induction l1 with
  | nil =>
    intro l2 h1 h2 base k
    simp only [List.nil_append]
    cases l2 with
    | nil => simp [markNeigh]
    | cons w rest =>
      rw [markNeigh, h2 w (List.mem_cons_self w rest)]
      simp
  | cons w l1' ih =>
    intro l2 h1 h2 base k
    rw [List.cons_append, markNeigh, h1 w (List.mem_cons_self w l1')]
    simp only [if_true]
    rw [ih l2 (fun w' hw' => h1 w' (List.mem_cons_of_mem w hw')) h2]
    constructor
    · rintro (hb | hw)
      · by_cases hk : (rev w).toNat - p = k
        · exact Or.inr ⟨w, List.mem_cons_self w l1', hk⟩
        · rw [upd_other _ _ _ _ (fun h => hk h.symm)] at hb
          exact Or.inl hb
      · obtain ⟨w', hw', hk⟩ := hw
        exact Or.inr ⟨w', List.mem_cons_of_mem w hw', hk⟩
    · rintro (hb | ⟨w', hw', hk⟩)
      · by_cases hk : k = (rev w).toNat - p
        · subst hk
          exact Or.inl (upd_same _ _ _)
        · rw [upd_other _ _ _ _ hk]
          exact Or.inl hb
      · rcases List.mem_cons.mp hw' with h | h
        · subst h
          subst hk
          exact Or.inl (upd_same _ _ _)
        · exact Or.inr ⟨w', h, hk⟩

theorem splitCands_aux (vl : Nat → Nat) (p : Nat) (marks : Nat → Bool) :
    ∀ (L : List Nat) (acc : List Nat × List Nat),
      L.foldl (fun acc k =>
        if marks k then (acc.1, acc.2 ++ [vl (p + k)])
        else (acc.1 ++ [vl (p + k)], acc.2)) acc =
      (acc.1 ++ (L.filter (fun k => !(marks k))).map (fun k => vl (p + k)),
       acc.2 ++ (L.filter (fun k => marks k)).map (fun k => vl (p + k))) := by
  intro L
  induction L with
  | nil => intro acc; simp
  | cons k L ih =>
    intro acc
    rw [List.foldl_cons]
    by_cases hk : marks k = true
    · rw [ih]
      simp [List.filter_cons, hk]
    · rw [ih]
      simp only [Bool.not_eq_true] at hk
      simp [List.filter_cons, hk]

/-- Closed form of the candidate-separation loop. -/
theorem splitCands_eq (vl : Nat → Nat) (p e : Nat) (marks : Nat → Bool) :
    splitCands vl p e marks =
      (((List.range (e - p)).filter (fun k => !(marks k))).map (fun k => vl (p + k)),
       ((List.range (e - p)).filter (fun k => marks k)).map (fun k => vl (p + k))) := by
  unfold splitCands
  rw [splitCands_aux]
  simp

theorem range_off_cons (j m : Nat) :
    (List.range (m + 1)).map (fun k => j + k) =
      j :: (List.range m).map (fun k => (j + 1) + k) := by
  rw [List.range_succ_eq_map]
  simp only [List.map_cons, Nat.add_zero, List.map_map]
  congr 1
  apply List.map_congr_left
  intro k _
  simp only [Function.comp_apply]
  omega

theorem range_desc_cons (p m : Nat) :
    (List.range (m + 1)).map (fun k => p - 1 - k) =
      (p - 1) :: (List.range m).map (fun k => p - 2 - k) := by
  rw [List.range_succ_eq_map]
  simp only [List.map_cons, Nat.sub_zero, List.map_map]
  congr 1
  apply List.map_congr_left
  intro k hk
  rw [List.mem_range] at hk
  simp only [Function.comp_apply]
  omega

/-- Mid-loop invariant of the P-restriction loop (lines 264–280): positions
`[p, p+num_p)` hold the neighbours of `cand` found so far (in original P
order), `[p+num_p, j)` a permutation of the non-neighbours scanned so far,
and `[j, e)` is untouched.  `s` is the loop-entry state. -/
structure RPMid (n x p e cand : Nat) (s : St) (j num_p : Nat) (t : St) : Prop where
  hj1 : p + num_p ≤ j
  hj2 : j ≤ e
  untouched : ∀ i, j ≤ i → i < e → t.v_list i = s.v_list i
  vl_frame : ∀ i, i < p ∨ e ≤ i → t.v_list i = s.v_list i
  rev_frame : ∀ w, ¬ ((p : Int) ≤ s.rev_idx w ∧ s.rev_idx w < (e : Int)) →
    t.rev_idx w = s.rev_idx w
  win_pres : ∀ w, inWinB t.rev_idx p e w = inWinB s.rev_idx p e w
  bij1 : ∀ i, x ≤ i → i < e → t.rev_idx (t.v_list i) = (i : Int)
  bij2 : ∀ w, w < n → (x : Int) ≤ t.rev_idx w → t.rev_idx w < (e : Int) →
    t.v_list (t.rev_idx w).toNat = w
  sel : contentL t p (p + num_p) =
    (contentL s p j).filter (fun u => decide (cand ∈ s.adj_list u))
  oth : List.Perm (contentL t (p + num_p) j)
    ((contentL s p j).filter (fun u => !(decide (cand ∈ s.adj_list u))))
  adj_eq : t.adj_list = s.adj_list
  cl_eq : t.clique = s.clique
  cc_eq : t.clique_count = s.clique_count
  tr_eq : t.track_search_tree = s.track_search_tree
  nc_eq : t.node_counter = s.node_counter
  nodes_eq : t.search_tree_nodes = s.search_tree_nodes

theorem restrictP_cons (p e cand j : Nat) (rest : List Nat) (t : St) (np : Nat) :
    restrictP p e cand (j :: rest) (t, np) =
      if nbInWin t.rev_idx p e cand (t.adj_list (t.v_list j)) = true then
        restrictP p e cand rest (swapSt t j (p + np), np + 1)
      else restrictP p e cand rest (t, np) := by
  rw [restrictP]
  rfl

theorem restrictP_go (n x p e cand : Nat) (s : St)
    (hxp : x ≤ p) (hpe : p ≤ e)
    (hpre : ∀ i, x ≤ i → i < e → SplitWin s.rev_idx p e (s.adj_list (s.v_list i)))
    (hcand : inWinB s.rev_idx p e cand = true) :
    ∀ (m j : Nat) (t : St) (np : Nat), j + m = e →
      RPMid n x p e cand s j np t →
      RPMid n x p e cand s e
        (restrictP p e cand ((List.range m).map (fun k => j + k)) (t, np)).2
        (restrictP p e cand ((List.range m).map (fun k => j + k)) (t, np)).1 := by
  intro m
  induction m with
  | zero =>
    intro j t np hje M
    have hj : j = e := by omega
    subst hj
    simpa [restrictP] using M
  | succ m ih =>
    intro j t np hje M
    have hjlt : j < e := by omega
    have hMj : p + np ≤ j := M.hj1
    rw [range_off_cons j m, restrictP_cons]
    have htest : (nbInWin t.rev_idx p e cand (t.adj_list (t.v_list j)) = true) ↔
        cand ∈ s.adj_list (s.v_list j) := by
      rw [M.adj_eq, M.untouched j (le_refl j) hjlt]
      exact nbInWin_iff t.rev_idx p e cand (s.adj_list (s.v_list j))
        (SplitWin_transfer s.rev_idx t.rev_idx p e _
          (fun w => (M.win_pres w).symm) (hpre j (by omega) hjlt))
        ((M.win_pres cand).trans hcand)
    by_cases hmem : cand ∈ s.adj_list (s.v_list j)
    · rw [if_pos (htest.mpr hmem)]
      apply ih (j + 1) _ (np + 1) (by omega)
      have hswap := swapSt_spec n x e t j (p + np) (by omega) hjlt (by omega) (by omega)
        M.bij1 M.bij2
      obtain ⟨b1, b2, vlo, revo, hvt, hrj, hvj, hrt⟩ := hswap
      have htvj : t.v_list j = s.v_list j := M.untouched j (le_refl j) hjlt
      -- window membership of the two swapped vertices before the swap
      have hwin_j : inWinB t.rev_idx p e (t.v_list j) = true := by
        have := M.bij1 j (by omega) hjlt
        simp [inWinB, this]
        omega
      have hwin_t : inWinB t.rev_idx p e (t.v_list (p + np)) = true := by
        have := M.bij1 (p + np) (by omega) (by omega)
        simp [inWinB, this]
        omega
      refine ⟨by omega, by omega, ?_, ?_, ?_, ?_, b1, b2, ?_, ?_, M.adj_eq, M.cl_eq,
        M.cc_eq, M.tr_eq, M.nc_eq, M.nodes_eq⟩
      · intro i hi1 hi2
        rw [vlo i (by omega) (by omega)]
        exact M.untouched i (by omega) hi2
      · intro i hi
        rw [vlo i (by omega) (by omega)]
        exact M.vl_frame i hi
      · -- rev_frame
        intro w hw
        have hwb : inWinB t.rev_idx p e w = false := by
          rw [M.win_pres]
          simp only [inWinB]
          exact decide_eq_false hw
        have hw1 : w ≠ t.v_list j := by
          intro h
          rw [h, hwin_j] at hwb
          cases hwb
        have hw2 : w ≠ t.v_list (p + np) := by
          intro h
          rw [h, hwin_t] at hwb
          cases hwb
        rw [revo w hw1 hw2]
        exact M.rev_frame w hw
      · -- win_pres
        intro w
        by_cases hw1 : w = t.v_list j
        · subst hw1
          rw [← M.win_pres, hwin_j]
          have : (swapSt t j (p + np)).rev_idx (t.v_list j) = ((p + np : Nat) : Int) := hrj
          simp only [inWinB, this]
          simp only [decide_eq_true_eq]
          omega
        · by_cases hw2 : w = t.v_list (p + np)
          · subst hw2
            rw [← M.win_pres, hwin_t]
            have : (swapSt t j (p + np)).rev_idx (t.v_list (p + np)) = (j : Int) := hrt
            simp only [inWinB, this]
            simp only [decide_eq_true_eq]
            omega
          · have hre := revo w hw1 hw2
            have hmw := M.win_pres w
            simp only [inWinB] at hmw ⊢
            rw [hre]
            exact hmw
      · -- sel
        rw [show p + (np + 1) = (p + np) + 1 by omega]
        rw [contentL_succ_right _ p (p + np) (by omega)]
        rw [contentL_succ_right s p j (by omega), List.filter_append]
        have hsing : (List.filter (fun u => decide (cand ∈ s.adj_list u)) [s.v_list j]) =
            [s.v_list j] := by
          simp [hmem]
        rw [hsing]
        have hcc : contentL (swapSt t j (p + np)) p (p + np) = contentL t p (p + np) := by
          apply contentL_congr
          intro i hi1 hi2
          exact vlo i (by omega) (by omega)
        rw [hcc, M.sel, hvt, htvj]
      · -- oth
        have hrhs : (contentL s p (j + 1)).filter (fun u => !(decide (cand ∈ s.adj_list u))) =
            (contentL s p j).filter (fun u => !(decide (cand ∈ s.adj_list u))) := by
          rw [contentL_succ_right s p j (by omega), List.filter_append]
          have : (List.filter (fun u => !(decide (cand ∈ s.adj_list u))) [s.v_list j]) = [] := by
            simp [hmem]
          rw [this, List.append_nil]
        rw [hrhs, show p + (np + 1) = (p + np) + 1 by omega]
        by_cases hjeq : j = p + np
        · rw [contentL_nil _ (p + np + 1) (j + 1) (by omega)]
          have := M.oth
          rw [contentL_nil t (p + np) j (by omega)] at this
          exact this
        · have hlt : p + np < j := by omega
          rw [contentL_succ_right _ (p + np + 1) j (by omega)]
          have hcc : contentL (swapSt t j (p + np)) (p + np + 1) j =
              contentL t (p + np + 1) j := by
            apply contentL_congr
            intro i hi1 hi2
            exact vlo i (by omega) (by omega)
          rw [hcc, hvj]
          refine List.Perm.trans (List.perm_append_singleton _ _) ?_
          rw [← contentL_cons_left t (p + np) j hlt]
          exact M.oth
    · rw [if_neg (fun h => hmem (htest.mp h))]
      apply ih (j + 1) t np (by omega)
      have htvj : t.v_list j = s.v_list j := M.untouched j (le_refl j) hjlt
      refine ⟨by omega, by omega, ?_, M.vl_frame, M.rev_frame, M.win_pres, M.bij1, M.bij2,
        ?_, ?_, M.adj_eq, M.cl_eq, M.cc_eq, M.tr_eq, M.nc_eq, M.nodes_eq⟩
      · intro i hi1 hi2
        exact M.untouched i (by omega) hi2
      · rw [contentL_succ_right s p j (by omega), List.filter_append]
        rw [M.sel]
        have : (List.filter (fun u => decide (cand ∈ s.adj_list u)) [s.v_list j]) = [] := by
          simp [hmem]
        rw [this, List.append_nil]
      · rw [contentL_succ_right s p j (by omega), List.filter_append,
          contentL_succ_right t (p + np) j (by omega), htvj]
        have : (List.filter (fun u => !(decide (cand ∈ s.adj_list u))) [s.v_list j]) =
            [s.v_list j] := by
          simp [hmem]
        rw [this]
        exact M.oth.append_right _

/-- Mid-loop invariant of the X-restriction loop (lines 246–262), scanning
positions downward from `p-1`; `m` positions `[x, x+m)` remain, positions
`[x+m, p)` have been scanned, `[p-num_x, p)` holds the neighbours of `cand`
found so far, `[x+m, p-num_x)` a permutation of the scanned
non-neighbours. -/
structure XMid (n x p e cand : Nat) (s : St) (m num_x : Nat) (t : St) : Prop where
  hm : x + m ≤ p
  hnx : num_x ≤ p - (x + m)
  untouched : ∀ i, x ≤ i → i < x + m → t.v_list i = s.v_list i
  vl_frame : ∀ i, i < x ∨ p ≤ i → t.v_list i = s.v_list i
  rev_frame : ∀ w, ¬ ((x : Int) ≤ s.rev_idx w ∧ s.rev_idx w < (p : Int)) →
    t.rev_idx w = s.rev_idx w
  win_pres : ∀ w, inWinB t.rev_idx p e w = inWinB s.rev_idx p e w
  xwin : ∀ w, inWinB t.rev_idx x p w = inWinB s.rev_idx x p w
  bij1 : ∀ i, x ≤ i → i < e → t.rev_idx (t.v_list i) = (i : Int)
  bij2 : ∀ w, w < n → (x : Int) ≤ t.rev_idx w → t.rev_idx w < (e : Int) →
    t.v_list (t.rev_idx w).toNat = w
  sel : List.Perm (contentL t (p - num_x) p)
    ((contentL s (x + m) p).filter (fun u => decide (cand ∈ s.adj_list u)))
  oth : List.Perm (contentL t (x + m) (p - num_x))
    ((contentL s (x + m) p).filter (fun u => !(decide (cand ∈ s.adj_list u))))
  adj_eq : t.adj_list = s.adj_list
  cl_eq : t.clique = s.clique
  cc_eq : t.clique_count = s.clique_count
  tr_eq : t.track_search_tree = s.track_search_tree
  nc_eq : t.node_counter = s.node_counter
  nodes_eq : t.search_tree_nodes = s.search_tree_nodes

theorem restrictX_cons (p e cand j : Nat) (rest : List Nat) (t : St) (nx : Nat) :
    restrictX p e cand (j :: rest) (t, nx) =
      if nbInWin t.rev_idx p e cand (t.adj_list (t.v_list j)) = true then
        restrictX p e cand rest (swapSt t j (p - (nx + 1)), nx + 1)
      else restrictX p e cand rest (t, nx) := by
  rw [restrictX]
  rfl

theorem restrictX_go (n x p e cand : Nat) (s : St)
    (hxp : x ≤ p) (hpe : p ≤ e)
    (hpre : ∀ i, x ≤ i → i < e → SplitWin s.rev_idx p e (s.adj_list (s.v_list i)))
    (hcand : inWinB s.rev_idx p e cand = true) :
    ∀ (m : Nat) (t : St) (nx : Nat),
      XMid n x p e cand s m nx t →
      XMid n x p e cand s 0
        (restrictX p e cand ((List.range m).map (fun k => (x + m) - 1 - k)) (t, nx)).2
        (restrictX p e cand ((List.range m).map (fun k => (x + m) - 1 - k)) (t, nx)).1 := by
  intro m
  induction m with
  | zero =>
    intro t nx M
    simpa [restrictX] using M
  | succ m ih =>
    intro t nx M
    have hM := M.hm
    have hMx := M.hnx
    set j := x + m with hj
    have hjlt : j < p := by omega
    have htgt : j ≤ p - (nx + 1) := by omega
    have htlt : p - (nx + 1) < p := by omega
    rw [range_desc_cons (x + (m + 1)) m]
    have hhead : x + (m + 1) - 1 = j := by omega
    have htail : ∀ k, x + (m + 1) - 2 - k = (x + m) - 1 - k := by intro k; omega
    rw [hhead]
    rw [show (List.map (fun k => x + (m + 1) - 2 - k) (List.range m)) =
        (List.map (fun k => (x + m) - 1 - k) (List.range m)) from
      List.map_congr_left (fun k _ => htail k)]
    rw [restrictX_cons]
    have htvj : t.v_list j = s.v_list j := M.untouched j (by omega) (by omega)
    have htest : (nbInWin t.rev_idx p e cand (t.adj_list (t.v_list j)) = true) ↔
        cand ∈ s.adj_list (s.v_list j) := by
      rw [M.adj_eq, htvj]
      exact nbInWin_iff t.rev_idx p e cand (s.adj_list (s.v_list j))
        (SplitWin_transfer s.rev_idx t.rev_idx p e _
          (fun w => (M.win_pres w).symm) (hpre j (by omega) (by omega)))
        ((M.win_pres cand).trans hcand)
    by_cases hmem : cand ∈ s.adj_list (s.v_list j)
    · rw [if_pos (htest.mpr hmem)]
      apply ih _ (nx + 1)
      have hswap := swapSt_spec n x e t j (p - (nx + 1)) (by omega) (by omega) (by omega)
        (by omega) M.bij1 M.bij2
      obtain ⟨b1, b2, vlo, revo, hvt, hrj, hvj, hrt⟩ := hswap
      have hwin_j : inWinB t.rev_idx p e (t.v_list j) = false := by
        have := M.bij1 j (by omega) (by omega)
        simp only [inWinB, this, decide_eq_false_iff_not]
        omega
      have hwin_t : inWinB t.rev_idx p e (t.v_list (p - (nx + 1))) = false := by
        have := M.bij1 (p - (nx + 1)) (by omega) (by omega)
        simp only [inWinB, this]
        simp only [decide_eq_false_iff_not]
        omega
      have hxwin_j : inWinB t.rev_idx x p (t.v_list j) = true := by
        have := M.bij1 j (by omega) (by omega)
        simp only [inWinB, this, decide_eq_true_eq]
        omega
      have hxwin_t : inWinB t.rev_idx x p (t.v_list (p - (nx + 1))) = true := by
        have := M.bij1 (p - (nx + 1)) (by omega) (by omega)
        simp only [inWinB, this, decide_eq_true_eq]
        omega
      refine ⟨by omega, by omega, ?_, ?_, ?_, ?_, ?_, b1, b2, ?_, ?_, M.adj_eq, M.cl_eq,
        M.cc_eq, M.tr_eq, M.nc_eq, M.nodes_eq⟩
      · intro i hi1 hi2
        rw [vlo i (by omega) (by omega)]
        exact M.untouched i hi1 (by omega)
      · intro i hi
        rw [vlo i (by omega) (by omega)]
        exact M.vl_frame i hi
      · -- rev_frame
        intro w hw
        have hwb : inWinB t.rev_idx x p w = false := by
          rw [M.xwin]
          simp only [inWinB]
          exact decide_eq_false hw
        have hw1 : w ≠ t.v_list j := by
          intro h
          rw [h, hxwin_j] at hwb
          cases hwb
        have hw2 : w ≠ t.v_list (p - (nx + 1)) := by
          intro h
          rw [h, hxwin_t] at hwb
          cases hwb
        rw [revo w hw1 hw2]
        exact M.rev_frame w hw
      · -- win_pres
        intro w
        by_cases hw1 : w = t.v_list j
        · subst hw1
          rw [← M.win_pres, hwin_j]
          have h5 : (swapSt t j (p - (nx + 1))).rev_idx (t.v_list j) =
            ((p - (nx + 1) : Nat) : Int) := hrj
          simp only [inWinB, h5, decide_eq_false_iff_not]
          omega
        · by_cases hw2 : w = t.v_list (p - (nx + 1))
          · subst hw2
            rw [← M.win_pres, hwin_t]
            have h5 : (swapSt t j (p - (nx + 1))).rev_idx (t.v_list (p - (nx + 1))) =
              (j : Int) := hrt
            simp only [inWinB, h5, decide_eq_false_iff_not]
            omega
          · have hre := revo w hw1 hw2
            have hmw := M.win_pres w
            simp only [inWinB] at hmw ⊢
            rw [hre]
            exact hmw
      · -- xwin
        intro w
        by_cases hw1 : w = t.v_list j
        · subst hw1
          rw [← M.xwin, hxwin_j]
          have h5 : (swapSt t j (p - (nx + 1))).rev_idx (t.v_list j) =
            ((p - (nx + 1) : Nat) : Int) := hrj
          simp only [inWinB, h5, decide_eq_true_eq]
          omega
        · by_cases hw2 : w = t.v_list (p - (nx + 1))
          · subst hw2
            rw [← M.xwin, hxwin_t]
            have h5 : (swapSt t j (p - (nx + 1))).rev_idx (t.v_list (p - (nx + 1))) =
              (j : Int) := hrt
            simp only [inWinB, h5, decide_eq_true_eq]
            omega
          · have hre := revo w hw1 hw2
            have hmw := M.xwin w
            simp only [inWinB] at hmw ⊢
            rw [hre]
            exact hmw
      · -- sel
        have hcons : contentL (swapSt t j (p - (nx + 1))) (p - (nx + 1)) p =
            t.v_list j :: contentL t (p - nx) p := by
          rw [contentL_cons_left _ (p - (nx + 1)) p htlt, hvt]
          congr 1
          rw [show p - (nx + 1) + 1 = p - nx by omega]
          apply contentL_congr
          intro i hi1 hi2
          exact vlo i (by omega) (by omega)
        rw [hcons]
        have hrhs : contentL s (x + m) p = s.v_list j :: contentL s (x + (m + 1)) p := by
          rw [show x + (m + 1) = j + 1 by omega]
          exact contentL_cons_left s j p hjlt
        rw [hrhs, List.filter_cons, if_pos (by simpa using hmem), htvj]
        exact M.sel.cons (s.v_list j)
      · -- oth
        have hrhs : contentL s (x + m) p = s.v_list j :: contentL s (x + (m + 1)) p := by
          rw [show x + (m + 1) = j + 1 by omega]
          exact contentL_cons_left s j p hjlt
        have hpredout : (!(decide (cand ∈ s.adj_list (s.v_list j)))) = false := by
          simpa using hmem
        rw [hrhs, List.filter_cons, hpredout]
        simp only [Bool.false_eq_true, if_false]
        by_cases hjeq : j = p - (nx + 1)
        · rw [contentL_nil _ (x + m) (p - (nx + 1)) (by omega)]
          have hmo := M.oth
          rw [contentL_nil t (x + (m + 1)) (p - nx) (by omega)] at hmo
          exact hmo
        · have hjt : j < p - (nx + 1) := by omega
          have hlhs : contentL (swapSt t j (p - (nx + 1))) (x + m) (p - (nx + 1)) =
              t.v_list (p - (nx + 1)) :: contentL t (j + 1) (p - (nx + 1)) := by
            rw [show x + m = j from rfl, contentL_cons_left _ j (p - (nx + 1)) hjt, hvj]
            congr 1
            apply contentL_congr
            intro i hi1 hi2
            exact vlo i (by omega) (by omega)
          rw [hlhs]
          have hmo := M.oth
          rw [show x + (m + 1) = j + 1 by omega,
            show p - nx = (p - (nx + 1)) + 1 by omega,
            contentL_succ_right t (j + 1) (p - (nx + 1)) (by omega)] at hmo
          exact (List.perm_append_singleton _ _).symm.trans hmo
    · rw [if_neg (fun h => hmem (htest.mp h))]
      apply ih _ nx
      refine ⟨by omega, by omega, ?_, M.vl_frame, M.rev_frame, M.win_pres, M.xwin,
        M.bij1, M.bij2, ?_, ?_, M.adj_eq, M.cl_eq, M.cc_eq, M.tr_eq, M.nc_eq, M.nodes_eq⟩
      · intro i hi1 hi2
        exact M.untouched i hi1 (by omega)
      · have hrhs : contentL s (x + m) p = s.v_list j :: contentL s (x + (m + 1)) p := by
          rw [show x + (m + 1) = j + 1 by omega]
          exact contentL_cons_left s j p hjlt
        rw [hrhs, List.filter_cons, if_neg (by simpa using hmem)]
        exact M.sel
      · have hrhs : contentL s (x + m) p = s.v_list j :: contentL s (x + (m + 1)) p := by
          rw [show x + (m + 1) = j + 1 by omega]
          exact contentL_cons_left s j p hjlt
        have hpredout : (!(decide (cand ∈ s.adj_list (s.v_list j)))) = true := by
          simpa using hmem
        rw [hrhs, List.filter_cons, hpredout]
        simp only [if_true]
        have hlhs : contentL t (x + m) (p - nx) =
            s.v_list j :: contentL t (x + (m + 1)) (p - nx) := by
          rw [show x + (m + 1) = j + 1 by omega, show x + m = j from rfl]
          rw [contentL_cons_left t j (p - nx) (by omega), htvj]
        rw [hlhs]
        exact M.oth.cons (s.v_list j)

/-! ## Counting layer: partitioning the maximal-clique count over branches

`mcCountAvoid` adds to `mcCount` the constraint that the clique avoids the
already-consumed branch candidates `D`; the candidate loop of
`bron_kerbosch_pivot` peels one candidate off at a time. -/

/-- Maximal cliques containing `R`, extending only into `P`, avoiding `D`. -/
def mcCountAvoid (n : Nat) (adj0 : Nat → List Nat) (R P D : List Nat) : Nat :=
  ((Finset.range n).powerset.filter (fun C => IsMaxCliqueA n adj0 C ∧
    (∀ r ∈ R, r ∈ C) ∧ (∀ w ∈ C, w ∉ R → w ∈ P) ∧ ∀ d ∈ D, d ∉ C)).card

theorem mcCount_congr (n : Nat) (adj0 : Nat → List Nat) (R R' P P' : List Nat)
    (hR : ∀ w, w ∈ R ↔ w ∈ R') (hP : ∀ w, w ∈ P ↔ w ∈ P') :
    mcCount n adj0 R P = mcCount n adj0 R' P' := by
  unfold mcCount
  congr 1
  apply Finset.filter_congr
  intro C _
  constructor
  · rintro ⟨h1, h2, h3⟩
    exact ⟨h1, fun r hr => h2 r ((hR r).mpr hr),
      fun w hw hwn => (hP w).mp (h3 w hw (fun hc => hwn ((hR w).mp hc)))⟩
  · rintro ⟨h1, h2, h3⟩
    exact ⟨h1, fun r hr => h2 r ((hR r).mp hr),
      fun w hw hwn => (hP w).mpr (h3 w hw (fun hc => hwn ((hR w).mpr hc)))⟩

theorem mcCountAvoid_nil (n : Nat) (adj0 : Nat → List Nat) (R P : List Nat) :
    mcCountAvoid n adj0 R P [] = mcCount n adj0 R P := by
  unfold mcCountAvoid mcCount
  congr 1
  apply Finset.filter_congr
  intro C _
  simp only [List.not_mem_nil, false_implies, implies_true, and_true]

/-- Splitting the avoided count on whether the clique uses the next branch
candidate `c`: the branch with `c` counts exactly the cliques the child call
at `R ++ [c]` counts over the restricted candidate set. -/
theorem mcCountAvoid_split (n : Nat) (adj0 : Nat → List Nat) (hok : GraphOK n adj0)
    (R P D : List Nat) (c : Nat)
    (hcP : c ∈ P) (hcD : c ∉ D) (hRD : ∀ r ∈ R, r ∉ D) :
    mcCountAvoid n adj0 R P D =
      mcCount n adj0 (R ++ [c])
        (P.filter (fun w => !(decide (w ∈ D)) && decide (c ∈ adj0 w)))
      + mcCountAvoid n adj0 R P (D ++ [c]) := by
  classical
  unfold mcCountAvoid mcCount
  rw [← Finset.filter_card_add_filter_neg_card_eq_card
    (p := fun C : Finset Nat => c ∈ C)]
  congr 1
  · rw [Finset.filter_filter]
    congr 1
    apply Finset.filter_congr
    intro C _
    constructor
    · rintro ⟨⟨hmax, hR, hP', hD⟩, hc⟩
      refine ⟨hmax, ?_, ?_⟩
      · intro r hr
        rcases List.mem_append.mp hr with h | h
        · exact hR r h
        · rw [List.mem_singleton.mp h]; exact hc
      · intro w hw hwn
        have hwR : w ∉ R := fun h => hwn (List.mem_append.mpr (Or.inl h))
        have hwc : w ≠ c := fun h => hwn (List.mem_append.mpr (Or.inr (by simp [h])))
        refine List.mem_filter.mpr ⟨hP' w hw hwR, ?_⟩
        have hadj : c ∈ adj0 w := hmax.2.2.1 c hc w hw (fun h => hwc h.symm)
        have hwD : w ∉ D := fun h => hD w h hw
        simp [hwD, hadj]
    · rintro ⟨hmax, hR, hP'⟩
      have hc : c ∈ C := hR c (List.mem_append.mpr (Or.inr (List.mem_singleton_self c)))
      refine ⟨⟨hmax, fun r hr => hR r (List.mem_append.mpr (Or.inl hr)), ?_, ?_⟩, hc⟩
      · intro w hw hwR
        by_cases hwc : w = c
        · rw [hwc]; exact hcP
        · have : w ∉ R ++ [c] := by
            intro h
            rcases List.mem_append.mp h with h | h
            · exact hwR h
            · exact hwc (List.mem_singleton.mp h)
          exact List.mem_of_mem_filter (hP' w hw this)
      · intro d hd hdC
        by_cases hdc : d = c
        · exact hcD (hdc ▸ hd)
        · have hdR : d ∉ R := fun h => hRD d h hd
          have : d ∉ R ++ [c] := by
            intro h
            rcases List.mem_append.mp h with h | h
            · exact hdR h
            · exact hdc (List.mem_singleton.mp h)
          have := List.of_mem_filter (hP' d hdC this)
          simp only [Bool.and_eq_true, Bool.not_eq_true', decide_eq_false_iff_not] at this
          exact this.1 hd
  · rw [Finset.filter_filter]
    congr 1
    apply Finset.filter_congr
    intro C _
    constructor
    · rintro ⟨⟨hmax, hR, hP', hD⟩, hc⟩
      refine ⟨hmax, hR, hP', ?_⟩
      intro d hd
      rcases List.mem_append.mp hd with h | h
      · exact hD d h
      · rw [List.mem_singleton.mp h]; exact hc
    · rintro ⟨hmax, hR, hP', hD⟩
      exact ⟨⟨hmax, hR, hP', fun d hd => hD d (List.mem_append.mpr (Or.inl hd))⟩,
        hD c (List.mem_append.mpr (Or.inr (List.mem_singleton_self c)))⟩

/-- A vertex `z` adjacent to all of `R` and all of `P` kills every candidate
clique: nothing drawn from `R ∪ P` can be maximal.  This is why pivot-pruned
shadow branches never contribute to the count. -/
theorem mcCount_cover_zero (n : Nat) (adj0 : Nat → List Nat) (hok : GraphOK n adj0)
    (R P : List Nat) (z : Nat) (hz : z < n)
    (hzR : ∀ r ∈ R, z ∈ adj0 r) (hzP : ∀ w ∈ P, w ∈ adj0 z) :
    mcCount n adj0 R P = 0 := by
  unfold mcCount
  rw [Finset.card_eq_zero]
  rw [Finset.filter_eq_empty_iff]
  rintro C _ ⟨hmax, hR, hP⟩
  have hCz : ∀ w ∈ C, w ∈ adj0 z := by
    intro w hw
    by_cases hwR : w ∈ R
    · exact hok.symm z w (hzR w hwR)
    · exact hzP w (hP w hw hwR)
  have hzC : z ∉ C := by
    intro h
    exact hok.noself z (hCz z h)
  have hclique : IsCliqueA adj0 (insert z C) := by
    intro u hu w hw huw
    rcases Finset.mem_insert.mp hu with hu | hu
    · rcases Finset.mem_insert.mp hw with hw | hw
      · exact absurd (hu.trans hw.symm) huw
      · rw [hu]
        exact hok.symm w z (hCz w hw)
    · rcases Finset.mem_insert.mp hw with hw | hw
      · rw [hw]
        exact hCz u hu
      · exact hmax.2.2.1 u hu w hw huw
  exact hmax.2.2.2 z (Finset.mem_range.mpr hz) hzC hclique

/-- When the window is saturated and `P` is empty with no excluded vertex
left, `R` itself is the unique counted clique. -/
theorem mcCount_base_one (n : Nat) (adj0 : Nat → List Nat) (hok : GraphOK n adj0)
    (R P : List Nat) (hne : R ≠ []) (hlt : ∀ r ∈ R, r < n)
    (hcl : ∀ r ∈ R, ∀ q ∈ R, r ≠ q → r ∈ adj0 q)
    (hsat : ∀ w, w < n → (∀ r ∈ R, w ∈ adj0 r) → False) :
    mcCount n adj0 R P = 1 := by
  unfold mcCount
  rw [Finset.card_eq_one]
  refine ⟨R.toFinset, ?_⟩
  have hmaxR : IsMaxCliqueA n adj0 R.toFinset := by
    refine ⟨?_, ?_, ?_, ?_⟩
    · obtain ⟨r, hr⟩ := List.exists_mem_of_ne_nil R hne
      exact ⟨r, List.mem_toFinset.mpr hr⟩
    · intro w hw
      exact Finset.mem_range.mpr (hlt w (List.mem_toFinset.mp hw))
    · intro u hu w hw huw
      exact hcl u (List.mem_toFinset.mp hu) w (List.mem_toFinset.mp hw) huw
    · intro w hw hwC hclq
      refine hsat w (Finset.mem_range.mp hw) ?_
      intro r hr
      exact hclq w (Finset.mem_insert_self w _) r
        (Finset.mem_insert_of_mem (List.mem_toFinset.mpr hr))
        (fun h => hwC (h ▸ List.mem_toFinset.mpr hr))
  rw [Finset.eq_singleton_iff_unique_mem]
  constructor
  · refine Finset.mem_filter.mpr ⟨Finset.mem_powerset.mpr ?_, hmaxR, ?_, ?_⟩
    · intro w hw
      exact Finset.mem_range.mpr (hlt w (List.mem_toFinset.mp hw))
    · intro r hr
      exact List.mem_toFinset.mpr hr
    · intro w hw hwn
      exact absurd (List.mem_toFinset.mp hw) hwn
  · intro C hC
    obtain ⟨hpw, hmax, hR, hP⟩ := Finset.mem_filter.mp hC
    apply Finset.Subset.antisymm
    · intro w hw
      by_contra hwn
      have hwR : w ∉ R := fun h => hwn (List.mem_toFinset.mpr h)
      refine hsat w ?_ ?_
      · exact Finset.mem_range.mp (Finset.mem_powerset.mp hpw hw)
      · intro r hr
        exact hmax.2.2.1 w hw r (hR r hr) (fun h => hwR (h ▸ hr))
    · intro r hr
      exact hR r (List.mem_toFinset.mp hr)

/-- With the X side non-empty, `R` extends a previously reported clique and
must not be counted: the witness `z ∈ X` is adjacent to all of `R`. -/
theorem mcCount_base_zero (n : Nat) (adj0 : Nat → List Nat) (hok : GraphOK n adj0)
    (R : List Nat) (z : Nat) (hz : z < n) (hzR : ∀ r ∈ R, z ∈ adj0 r) :
    mcCount n adj0 R [] = 0 :=
  mcCount_cover_zero n adj0 hok R [] z hz hzR (by intro w hw; cases hw)

/-- Once all branch candidates are consumed, the remaining candidate set is
covered by the pivot, so no counted clique avoids all of them. -/
theorem mcCountAvoid_final (n : Nat) (adj0 : Nat → List Nat) (hok : GraphOK n adj0)
    (R P D : List Nat) (pv : Nat) (hpv : pv < n)
    (hpvR : ∀ r ∈ R, pv ∈ adj0 r)
    (hcover : ∀ w ∈ P, w ∉ D → w ∈ adj0 pv) :
    mcCountAvoid n adj0 R P D = 0 := by
  unfold mcCountAvoid
  rw [Finset.card_eq_zero, Finset.filter_eq_empty_iff]
  rintro C _ ⟨hmax, hR, hP, hD⟩
  have hCpv : ∀ w ∈ C, pv ∈ adj0 w := by
    intro w hw
    by_cases hwR : w ∈ R
    · exact hpvR w hwR
    · have hwP := hP w hw hwR
      by_cases hwD : w ∈ D
      · exact absurd hw (hD w hwD)
      · exact hok.symm w pv (hcover w hwP hwD)
  have hpvC : pv ∉ C := by
    intro h
    exact hok.noself pv (hCpv pv h)
  have hclique : IsCliqueA adj0 (insert pv C) := by
    intro u hu w hw huw
    rcases Finset.mem_insert.mp hu with hu | hu
    · rcases Finset.mem_insert.mp hw with hw | hw
      · exact absurd (hu.trans hw.symm) huw
      · rw [hu]
        exact hCpv w hw
    · rcases Finset.mem_insert.mp hw with hw | hw
      · rw [hw]
        exact hok.symm pv u (hCpv u hu)
      · exact hmax.2.2.1 u hu w hw huw
  exact hmax.2.2.2 pv (Finset.mem_range.mpr hpv) hpvC hclique

/-! ## The in-place partition scans (lines 286–295 and 489–494) -/

theorem set_append_off (pre l : List Nat) (k v : Nat) :
    (pre ++ l).set (pre.length + k) v = pre ++ l.set k v := by
  induction pre with
  | nil => simp
  | cons a t ih =>
    simp only [List.cons_append, List.length_cons]
    rw [show t.length + 1 + k = (t.length + k) + 1 by omega]
    show a :: (t ++ l).set (t.length + k) v = a :: (t ++ l.set k v)
    rw [ih]

theorem getN_split (pre mid rest : List Nat) (h : Nat) :
    getN (pre ++ (mid ++ (h :: rest))) (pre.length + mid.length) = h := by
  unfold getN
  rw [List.getD_append_right _ _ _ _ (by omega)]
  rw [show pre.length + mid.length - pre.length = mid.length by omega]
  rw [List.getD_append_right _ _ _ _ (le_refl _)]
  rw [Nat.sub_self]
  rfl

theorem swapL_same (pre rest : List Nat) (h : Nat) :
    swapL (pre ++ h :: rest) pre.length pre.length = pre ++ h :: rest := by
  unfold swapL
  have hg : getN (pre ++ h :: rest) pre.length = h := by
    have := getN_split pre [] rest h
    simpa using this
  rw [hg]
  have hs : (pre ++ h :: rest).set pre.length h = pre ++ h :: rest := by
    have := set_append_off pre (h :: rest) 0 h
    simpa using this
  rw [hs, hs]

theorem swapL_mid (pre mr rest : List Nat) (m0 h : Nat) :
    swapL (pre ++ (m0 :: (mr ++ (h :: rest)))) pre.length (pre.length + (mr.length + 1)) =
      pre ++ (h :: (mr ++ (m0 :: rest))) := by
  unfold swapL
  have hgr : getN (pre ++ (m0 :: (mr ++ (h :: rest)))) (pre.length + (mr.length + 1)) = h := by
    have := getN_split pre (m0 :: mr) rest h
    simpa using this
  have hgw : getN (pre ++ (m0 :: (mr ++ (h :: rest)))) pre.length = m0 := by
    have := getN_split pre [] (mr ++ h :: rest) m0
    simpa using this
  rw [hgr, hgw]
  have h1 : (pre ++ (m0 :: (mr ++ (h :: rest)))).set pre.length h =
      pre ++ (h :: (mr ++ (h :: rest))) := by
    have := set_append_off pre (m0 :: (mr ++ (h :: rest))) 0 h
    simpa using this
  rw [h1]
  have h2 : (pre ++ (h :: (mr ++ (h :: rest)))).set (pre.length + (mr.length + 1)) m0 =
      pre ++ (h :: (mr ++ (m0 :: rest))) := by
    rw [set_append_off pre (h :: (mr ++ (h :: rest))) (mr.length + 1) m0]
    congr 1
    show h :: ((mr ++ (h :: rest)).set mr.length m0) = h :: (mr ++ (m0 :: rest))
    congr 1
    have := set_append_off mr (h :: rest) 0 m0
    simpa using this
  rw [h2]

theorem inWinB_sub_false (rev : Nat → Int) (p pHi e w : Nat) (h : pHi ≤ e)
    (hw : inWinB rev p e w = false) : inWinB rev p pHi w = false := by
  simp only [inWinB, decide_eq_false_iff_not] at hw ⊢
  omega

/-- Loop invariant of the bounded partition scan: positions `[0, write)` are
the child-window entries found so far, `[write, read)` a permutation of the
scanned non-child entries, and the list beyond the first entry outside the
parent window is never touched. -/
theorem partScan_go (rev : Nat → Int) (p e pHi : Nat) :
    ∀ (a2 : List Nat) (fuel : Nat) (pre mid b : List Nat),
      (∀ w ∈ pre, inWinB rev p pHi w = true) →
      (∀ w ∈ mid, inWinB rev p e w = true ∧ inWinB rev p pHi w = false) →
      (∀ w ∈ a2, inWinB rev p e w = true) →
      (∀ w ∈ b, inWinB rev p e w = false) →
      a2.length ≤ fuel →
      ∃ pre2 mid2,
        partScan rev p e pHi fuel (pre.length + mid.length) pre.length
          (pre ++ (mid ++ (a2 ++ b))) = pre2 ++ (mid2 ++ b) ∧
        List.Perm pre2 (pre ++ a2.filter (fun w => inWinB rev p pHi w)) ∧
        List.Perm mid2 (mid ++ a2.filter (fun w => !(inWinB rev p pHi w))) ∧
        (∀ w ∈ pre2, inWinB rev p pHi w = true) ∧
        (∀ w ∈ mid2, inWinB rev p e w = true ∧ inWinB rev p pHi w = false) := by
  intro a2
  induction a2 with
  | nil =>
    intro fuel pre mid b hpre hmid _ hb _
    refine ⟨pre, mid, ?_, by simp, by simp, hpre, hmid⟩
    cases fuel with
    | zero => simp [partScan]
    | succ f =>
      rw [partScan]
      cases b with
      | nil =>
        rw [if_neg (by simp)]
        simp
      | cons w b2 =>
        rw [if_pos (by simp only [List.length_append, List.length_cons, List.length_nil]; omega)]
        have hg : getN (pre ++ (mid ++ ([] ++ w :: b2))) (pre.length + mid.length) = w := by
          have := getN_split pre mid b2 w
          simpa using this
        rw [hg]
        dsimp only
        rw [hb w (List.mem_cons_self w b2)]
        simp
  | cons h a2' ih =>
    intro fuel pre mid b hpre hmid ha2 hb hfuel
    cases fuel with
    | zero => simp at hfuel
    | succ f =>
      rw [partScan]
      rw [if_pos (by simp only [List.length_append, List.length_cons, List.length_nil]; omega)]
      have hg : getN (pre ++ (mid ++ ((h :: a2') ++ b))) (pre.length + mid.length) = h := by
        have := getN_split pre mid (a2' ++ b) h
        simpa using this
      rw [hg]
      dsimp only
      rw [if_pos (ha2 h (List.mem_cons_self h a2'))]
      by_cases hwin : inWinB rev p pHi h = true
      · rw [if_pos hwin]
        cases mid with
        | nil =>
          have hswap : swapL (pre ++ ([] ++ ((h :: a2') ++ b))) pre.length
              (pre.length + List.length ([] : List Nat)) = pre ++ h :: (a2' ++ b) := by
            simpa using swapL_same pre (a2' ++ b) h
          rw [hswap]
          have hre : pre.length + List.length ([] : List Nat) + 1 =
              (pre ++ [h]).length + List.length ([] : List Nat) := by simp
          have hwe : pre.length + 1 = (pre ++ [h]).length := by simp
          rw [hre, hwe]
          have hsh : pre ++ h :: (a2' ++ b) = (pre ++ [h]) ++ ([] ++ (a2' ++ b)) := by simp
          rw [hsh]
          obtain ⟨pre2, mid2, heq, hp2, hm2, hq1, hq2⟩ :=
            ih f (pre ++ [h]) [] b
              (by intro w hw
                  rcases List.mem_append.mp hw with hw | hw
                  · exact hpre w hw
                  · rw [List.mem_singleton.mp hw]; exact hwin)
              (by intro w hw; cases hw)
              (fun w hw => ha2 w (List.mem_cons_of_mem h hw)) hb (by simpa using hfuel)
          refine ⟨pre2, mid2, heq, ?_, ?_, hq1, hq2⟩
          · rw [List.filter_cons, if_pos (by simpa using hwin)]
            refine hp2.trans (List.Perm.of_eq ?_)
            simp
          · rw [List.filter_cons]
            simp only [hwin, Bool.not_true, Bool.false_eq_true, if_false]
            simpa using hm2
        | cons m0 mr =>
          have hswap : swapL (pre ++ ((m0 :: mr) ++ ((h :: a2') ++ b))) pre.length
              (pre.length + (m0 :: mr).length) = pre ++ (h :: (mr ++ (m0 :: (a2' ++ b)))) := by
            have := swapL_mid pre mr (a2' ++ b) m0 h
            simpa using this
          rw [hswap]
          have hre : pre.length + (m0 :: mr).length + 1 =
              (pre ++ [h]).length + (mr ++ [m0]).length := by simp; omega
          have hwe : pre.length + 1 = (pre ++ [h]).length := by simp
          rw [hre, hwe]
          have hsh : pre ++ (h :: (mr ++ (m0 :: (a2' ++ b)))) =
              (pre ++ [h]) ++ ((mr ++ [m0]) ++ (a2' ++ b)) := by simp
          rw [hsh]
          obtain ⟨pre2, mid2, heq, hp2, hm2, hq1, hq2⟩ :=
            ih f (pre ++ [h]) (mr ++ [m0]) b
              (by intro w hw
                  rcases List.mem_append.mp hw with hw | hw
                  · exact hpre w hw
                  · rw [List.mem_singleton.mp hw]; exact hwin)
              (by intro w hw
                  rcases List.mem_append.mp hw with hw | hw
                  · exact hmid w (List.mem_cons_of_mem m0 hw)
                  · rw [List.mem_singleton.mp hw]
                    exact hmid m0 (List.mem_cons_self m0 mr))
              (fun w hw => ha2 w (List.mem_cons_of_mem h hw)) hb (by simpa using hfuel)
          refine ⟨pre2, mid2, heq, ?_, ?_, hq1, hq2⟩
          · rw [List.filter_cons, if_pos (by simpa using hwin)]
            refine hp2.trans (List.Perm.of_eq ?_)
            simp
          · rw [List.filter_cons]
            simp only [hwin, Bool.not_true, Bool.false_eq_true, if_false]
            refine hm2.trans ?_
            exact (List.perm_append_singleton m0 mr).append_right _
      · rw [if_neg hwin]
        have hre : pre.length + mid.length + 1 = pre.length + (mid ++ [h]).length := by
          simp only [List.length_append, List.length_cons, List.length_nil]
          omega
        rw [hre]
        have hsh : pre ++ (mid ++ ((h :: a2') ++ b)) =
            pre ++ ((mid ++ [h]) ++ (a2' ++ b)) := by simp
        rw [hsh]
        obtain ⟨pre2, mid2, heq, hp2, hm2, hq1, hq2⟩ :=
          ih f pre (mid ++ [h]) b hpre
            (by intro w hw
                rcases List.mem_append.mp hw with hw | hw
                · exact hmid w hw
                · rw [List.mem_singleton.mp hw]
                  exact ⟨ha2 h (List.mem_cons_self h a2'), by simpa using hwin⟩)
            (fun w hw => ha2 w (List.mem_cons_of_mem h hw)) hb (by simpa using hfuel)
        refine ⟨pre2, mid2, heq, ?_, ?_, hq1, hq2⟩
        · rw [List.filter_cons, if_neg (by simpa using hwin)]
          exact hp2
        · rw [List.filter_cons]
          simp only [hwin]
          refine hm2.trans (List.Perm.of_eq ?_)
          simp

/-- Loop invariant of the outer full partition scan (no break): the whole
list is split into window entries first, the rest after. -/
theorem partScanAll_go (rev : Nat → Int) (lo hi : Nat) :
    ∀ (a2 : List Nat) (fuel : Nat) (pre mid : List Nat),
      (∀ w ∈ pre, inWinB rev lo hi w = true) →
      (∀ w ∈ mid, inWinB rev lo hi w = false) →
      a2.length ≤ fuel →
      ∃ pre2 mid2,
        partScanAll rev lo hi fuel (pre.length + mid.length) pre.length
          (pre ++ (mid ++ a2)) = pre2 ++ mid2 ∧
        List.Perm pre2 (pre ++ a2.filter (fun w => inWinB rev lo hi w)) ∧
        List.Perm mid2 (mid ++ a2.filter (fun w => !(inWinB rev lo hi w))) ∧
        (∀ w ∈ pre2, inWinB rev lo hi w = true) ∧
        (∀ w ∈ mid2, inWinB rev lo hi w = false) := by
  intro a2
  induction a2 with
  | nil =>
    intro fuel pre mid hpre hmid _
    refine ⟨pre, mid, ?_, by simp, by simp, hpre, hmid⟩
    cases fuel with
    | zero => simp [partScanAll]
    | succ f =>
      rw [partScanAll]
      rw [if_neg (by simp)]
      simp
  | cons h a2' ih =>
    intro fuel pre mid hpre hmid hfuel
    cases fuel with
    | zero => simp at hfuel
    | succ f =>
      rw [partScanAll]
      rw [if_pos (by simp only [List.length_append, List.length_cons, List.length_nil]; omega)]
      have hg : getN (pre ++ (mid ++ (h :: a2'))) (pre.length + mid.length) = h :=
        getN_split pre mid a2' h
      rw [hg]
      by_cases hwin : inWinB rev lo hi h = true
      · rw [if_pos hwin]
        cases mid with
        | nil =>
          have hswap : swapL (pre ++ ([] ++ (h :: a2'))) pre.length
              (pre.length + List.length ([] : List Nat)) = pre ++ h :: a2' := by
            simpa using swapL_same pre a2' h
          rw [hswap]
          have hre : pre.length + List.length ([] : List Nat) + 1 =
              (pre ++ [h]).length + List.length ([] : List Nat) := by simp
          have hwe : pre.length + 1 = (pre ++ [h]).length := by simp
          rw [hre, hwe]
          have hsh : pre ++ h :: a2' = (pre ++ [h]) ++ ([] ++ a2') := by simp
          rw [hsh]
          obtain ⟨pre2, mid2, heq, hp2, hm2, hq1, hq2⟩ :=
            ih f (pre ++ [h]) []
              (by intro w hw
                  rcases List.mem_append.mp hw with hw | hw
                  · exact hpre w hw
                  · rw [List.mem_singleton.mp hw]; exact hwin)
              (by intro w hw; cases hw) (by simpa using hfuel)
          refine ⟨pre2, mid2, heq, ?_, ?_, hq1, hq2⟩
          · rw [List.filter_cons, if_pos (by simpa using hwin)]
            refine hp2.trans (List.Perm.of_eq ?_)
            simp
          · rw [List.filter_cons]
            simp only [hwin, Bool.not_true, Bool.false_eq_true, if_false]
            simpa using hm2
        | cons m0 mr =>
          have hswap : swapL (pre ++ ((m0 :: mr) ++ (h :: a2'))) pre.length
              (pre.length + (m0 :: mr).length) = pre ++ (h :: (mr ++ (m0 :: a2'))) := by
            have := swapL_mid pre mr a2' m0 h
            simpa using this
          rw [hswap]
          have hre : pre.length + (m0 :: mr).length + 1 =
              (pre ++ [h]).length + (mr ++ [m0]).length := by
            simp only [List.length_append, List.length_cons, List.length_nil]
            omega
          have hwe : pre.length + 1 = (pre ++ [h]).length := by simp
          rw [hre, hwe]
          have hsh : pre ++ (h :: (mr ++ (m0 :: a2'))) =
              (pre ++ [h]) ++ ((mr ++ [m0]) ++ a2') := by simp
          rw [hsh]
          obtain ⟨pre2, mid2, heq, hp2, hm2, hq1, hq2⟩ :=
            ih f (pre ++ [h]) (mr ++ [m0])
              (by intro w hw
                  rcases List.mem_append.mp hw with hw | hw
                  · exact hpre w hw
                  · rw [List.mem_singleton.mp hw]; exact hwin)
              (by intro w hw
                  rcases List.mem_append.mp hw with hw | hw
                  · exact hmid w (List.mem_cons_of_mem m0 hw)
                  · rw [List.mem_singleton.mp hw]
                    exact hmid m0 (List.mem_cons_self m0 mr))
              (by simpa using hfuel)
          refine ⟨pre2, mid2, heq, ?_, ?_, hq1, hq2⟩
          · rw [List.filter_cons, if_pos (by simpa using hwin)]
            refine hp2.trans (List.Perm.of_eq ?_)
            simp
          · rw [List.filter_cons]
            simp only [hwin, Bool.not_true, Bool.false_eq_true, if_false]
            refine hm2.trans ?_
            exact (List.perm_append_singleton m0 mr).append_right _
      · rw [if_neg hwin]
        have hre : pre.length + mid.length + 1 = pre.length + (mid ++ [h]).length := by
          simp only [List.length_append, List.length_cons, List.length_nil]
          omega
        rw [hre]
        have hsh : pre ++ (mid ++ (h :: a2')) = pre ++ ((mid ++ [h]) ++ a2') := by simp
        rw [hsh]
        obtain ⟨pre2, mid2, heq, hp2, hm2, hq1, hq2⟩ :=
          ih f pre (mid ++ [h]) hpre
            (by intro w hw
                rcases List.mem_append.mp hw with hw | hw
                · exact hmid w hw
                · rw [List.mem_singleton.mp hw]
                  simpa using hwin)
            (by simpa using hfuel)
        refine ⟨pre2, mid2, heq, ?_, ?_, hq1, hq2⟩
        · rw [List.filter_cons, if_neg (by simpa using hwin)]
          exact hp2
        · rw [List.filter_cons]
          simp only [hwin]
          refine hm2.trans (List.Perm.of_eq ?_)
          simp

/-- Top-level form of the bounded scan used by `partWindow`: the window
prefix of the list is re-sorted so the child-window entries come first; the
tail from the first out-of-window entry on is untouched. -/
theorem partScan_spec (rev : Nat → Int) (p e pHi : Nat) (a b : List Nat)
    (hpe : pHi ≤ e)
    (ha : ∀ w ∈ a, inWinB rev p e w = true)
    (hb : ∀ w ∈ b, inWinB rev p e w = false) :
    ∃ pre2 mid2,
      partScan rev p e pHi (a ++ b).length 0 0 (a ++ b) = pre2 ++ (mid2 ++ b) ∧
      List.Perm pre2 (a.filter (fun w => inWinB rev p pHi w)) ∧
      List.Perm mid2 (a.filter (fun w => !(inWinB rev p pHi w))) ∧
      (∀ w ∈ pre2, inWinB rev p pHi w = true) ∧
      (∀ w ∈ mid2, inWinB rev p e w = true ∧ inWinB rev p pHi w = false) := by
  obtain ⟨pre2, mid2, heq, hp2, hm2, hq1, hq2⟩ :=
    partScan_go rev p e pHi a (a ++ b).length [] [] b
      (by intro w hw; cases hw) (by intro w hw; cases hw) ha hb
      (by simp)
  refine ⟨pre2, mid2, ?_, by simpa using hp2, by simpa using hm2, hq1, hq2⟩
  simpa using heq

/-- Top-level form of the outer scan of `bron_kerbosch_degeneracy`. -/
theorem partScanAll_spec (rev : Nat → Int) (lo hi : Nat) (l : List Nat) :
    ∃ pre2 mid2,
      partScanAll rev lo hi l.length 0 0 l = pre2 ++ mid2 ∧
      List.Perm pre2 (l.filter (fun w => inWinB rev lo hi w)) ∧
      List.Perm mid2 (l.filter (fun w => !(inWinB rev lo hi w))) ∧
      (∀ w ∈ pre2, inWinB rev lo hi w = true) ∧
      (∀ w ∈ mid2, inWinB rev lo hi w = false) := by
  obtain ⟨pre2, mid2, heq, hp2, hm2, hq1, hq2⟩ :=
    partScanAll_go rev lo hi l (l.length) [] []
      (by intro w hw; cases hw) (by intro w hw; cases hw) (le_refl _)
  refine ⟨pre2, mid2, ?_, by simpa using hp2, by simpa using hm2, hq1, hq2⟩
  simpa using heq

/-! ## Restoration steps: reinsertion, candidate-to-X moves, unwinding -/

/-- The erase-and-reinsert walk (lines 304–315) on a list whose window
prefix is `ain`: every copy of `cand` inside the prefix is erased and one
copy is inserted at the window boundary. -/
theorem reinsertCand_spec (rev : Nat → Int) (p e : Nat) (cand : Nat) :
    ∀ (ain aout : List Nat),
      (∀ w ∈ ain, inWinB rev p e w = true) →
      (∀ w ∈ aout, inWinB rev p e w = false) →
      reinsertCand rev p e cand (ain ++ aout) =
        (ain.filter (fun w => !(decide (w = cand)))) ++ (cand :: aout) := by
  intro ain
  induction ain with
  | nil =>
    intro aout _ hout
    cases aout with
    | nil => simp [reinsertCand]
    | cons w rest =>
      rw [List.nil_append, reinsertCand, hout w (List.mem_cons_self w rest)]
      simp
  | cons w ain' ih =>
    intro aout hin hout
    rw [List.cons_append, reinsertCand, hin w (List.mem_cons_self w ain')]
    simp only [if_true]
    by_cases hwc : w = cand
    · rw [if_pos hwc, List.filter_cons, if_neg (by simp [hwc])]
      exact ih aout (fun v hv => hin v (List.mem_cons_of_mem w hv)) hout
    · rw [if_neg hwc, List.filter_cons, if_pos (by simp [hwc])]
      rw [List.cons_append]
      congr 1
      exact ih aout (fun v hv => hin v (List.mem_cons_of_mem w hv)) hout

theorem swapF_comm (vl : Nat → Nat) (i j : Nat) : swapF vl i j = swapF vl j i := by
  funext k
  by_cases hki : k = i
  · by_cases hkj : k = j
    · have hij : i = j := hki.symm.trans hkj
      rw [hij]
    · have h1 : swapF vl i j k = vl j := by
        unfold swapF
        rw [upd_other _ _ _ _ hkj, hki, upd_same]
      have h2 : swapF vl j i k = vl j := by
        unfold swapF
        rw [hki, upd_same]
      rw [h1, h2]
  · by_cases hkj : k = j
    · have h1 : swapF vl i j k = vl i := by
        unfold swapF
        rw [hkj, upd_same]
      have h2 : swapF vl j i k = vl i := by
        unfold swapF
        rw [upd_other _ _ _ _ hki, hkj, upd_same]
      rw [h1, h2]
    · have h1 : swapF vl i j k = vl k := by
        unfold swapF
        rw [upd_other _ _ _ _ hkj, upd_other _ _ _ _ hki]
      have h2 : swapF vl j i k = vl k := by
        unfold swapF
        rw [upd_other _ _ _ _ hki, upd_other _ _ _ _ hkj]
      rw [h1, h2]

theorem upd_upd_same {α : Type} (f : Nat → α) (i : Nat) (a b : α) :
    upd (upd f i a) i b = upd f i b := by
  funext k
  by_cases hk : k = i
  · rw [hk, upd_same, upd_same]
  · rw [upd_other _ _ _ _ hk, upd_other _ _ _ _ hk, upd_other _ _ _ _ hk]

/-- The candidate-to-X move (lines 318–321) is the standard swap of the
candidate's position with `p_idx`, provided `rev_idx` is locally inverse. -/
theorem moveCandToX_eq_swapSt (p : Nat) (cand : Nat) (s : St) (q : Nat)
    (hq : s.rev_idx cand = (q : Int)) (hvq : s.v_list q = cand)
    (hbijp : s.rev_idx (s.v_list p) = (p : Int)) :
    moveCandToX p cand s = swapSt s q p := by
  by_cases hwp : s.v_list p = cand
  · have hqp : q = p := by
      rw [hwp, hq] at hbijp
      exact_mod_cast hbijp
    subst hqp
    unfold moveCandToX swapSt
    dsimp only
    rw [hwp, hq, upd_upd_same]
    have hj : ((upd s.rev_idx cand ((q : Int))) cand).toNat = q := by
      rw [upd_same]
      simp
    rw [hj]
  · unfold moveCandToX swapSt
    dsimp only
    rw [hq, hvq]
    have hR : upd (upd s.rev_idx (s.v_list p) ((q : Int))) cand ((p : Int)) =
        upd (upd s.rev_idx cand ((p : Int))) (s.v_list p) ((q : Int)) := by
      funext z
      by_cases hz1 : z = cand
      · rw [hz1, upd_same, upd_other _ _ _ _ (fun h => hwp h.symm), upd_same]
      · by_cases hz2 : z = s.v_list p
        · rw [hz2, upd_other _ _ _ _ hwp, upd_same, upd_same]
        · rw [upd_other _ _ _ _ hz1, upd_other _ _ _ _ hz2,
            upd_other _ _ _ _ hz2, upd_other _ _ _ _ hz1]
    rw [hR]
    have hj : ((upd (upd s.rev_idx cand ((p : Int))) (s.v_list p) ((q : Int)))
        (s.v_list p)).toNat = q := by
      rw [upd_same]
      simp
    rw [hj, swapF_comm]

/-! ## Window facts and candidate-list characterisation -/

theorem contentL_nodup (s : St) (x a b e : Nat) (hxa : x ≤ a) (hbe : b ≤ e)
    (bij1 : ∀ i, x ≤ i → i < e → s.rev_idx (s.v_list i) = (i : Int)) :
    (contentL s a b).Nodup := by
  unfold contentL
  refine List.Nodup.map_on ?_ (List.nodup_range _)
  intro i hi j hj hij
  rw [List.mem_range] at hi hj
  have h1 := bij1 (a + i) (by omega) (by omega)
  have h2 := bij1 (a + j) (by omega) (by omega)
  rw [hij] at h1
  rw [h2] at h1
  omega

theorem inWin_of_mem_contentL (s : St) (x p e : Nat) (hxp : x ≤ p)
    (bij1 : ∀ i, x ≤ i → i < e → s.rev_idx (s.v_list i) = (i : Int))
    (w : Nat) (hw : w ∈ contentL s p e) : inWinB s.rev_idx p e w = true := by
  obtain ⟨i, hi1, hi2, hvi⟩ := (mem_contentL s p e w).mp hw
  have := bij1 i (by omega) hi2
  rw [hvi] at this
  simp only [inWinB, this, decide_eq_true_eq]
  omega

theorem mem_contentL_of_win (n : Nat) (s : St) (x p e : Nat) (hxp : x ≤ p)
    (bij2 : ∀ w, w < n → (x : Int) ≤ s.rev_idx w → s.rev_idx w < (e : Int) →
      s.v_list (s.rev_idx w).toNat = w)
    (w : Nat) (hwn : w < n) (hw : inWinB s.rev_idx p e w = true) :
    w ∈ contentL s p e := by
  simp only [inWinB, decide_eq_true_eq] at hw
  have hv := bij2 w hwn (by omega) hw.2
  refine (mem_contentL s p e w).mpr ⟨(s.rev_idx w).toNat, ?_, ?_, hv⟩
  · omega
  · omega

/-- Characterisation of the pivot-neighbour marks: offset `k` is marked
exactly when the window vertex at `p + k` is a neighbour of the pivot. -/
theorem marks_char (n : Nat) (adj0 : Nat → List Nat) (hok : GraphOK n adj0)
    (x p e : Nat) (s : St) (hinv : BKInv n adj0 x p e s)
    (pvN : Nat) (i0 : Nat) (hi0 : x ≤ i0) (hi0e : i0 < e) (hvi0 : s.v_list i0 = pvN) :
    ∀ k, k < e - p →
      ((markNeigh s.rev_idx p e (s.adj_list pvN) (fun _ => false)) k = true ↔
        s.v_list (p + k) ∈ s.adj_list pvN) := by
  intro k hk
  have hxp := hinv.hxp
  have hpe := hinv.hpe
  have hsw : SplitWin s.rev_idx p e (s.adj_list pvN) := by
    have := hinv.pre i0 hi0 hi0e
    rwa [hvi0] at this
  obtain ⟨l1, l2, heq, h1, h2⟩ := hsw
  have hmk : ((markNeigh s.rev_idx p e (s.adj_list pvN) (fun _ => false)) k = true) ↔
      ∃ w ∈ l1, (s.rev_idx w).toNat - p = k := by
    rw [heq, markNeigh_aux s.rev_idx p e l1 l2 h1 h2 (fun _ => false) k]
    simp
  rw [hmk]
  constructor
  · rintro ⟨w, hw, hkw⟩
    have hwin := h1 w hw
    simp only [inWinB, decide_eq_true_eq] at hwin
    have hwadj : w ∈ s.adj_list pvN := by
      rw [heq]
      exact List.mem_append.mpr (Or.inl hw)
    have hwn : w < n := by
      have := (hinv.perm pvN).mem_iff.mp hwadj
      exact (hok.bound pvN w this).1
    have htn : (s.rev_idx w).toNat = p + k := by omega
    have hv := hinv.bij2 w hwn (by omega) hwin.2
    rw [htn] at hv
    rw [hv]
    exact hwadj
  · intro hmem
    have hb := hinv.bij1 (p + k) (by omega) (by omega)
    have hwin : inWinB s.rev_idx p e (s.v_list (p + k)) = true := by
      simp only [inWinB, hb, decide_eq_true_eq]
      omega
    rw [heq] at hmem
    rcases List.mem_append.mp hmem with hmem | hmem
    · refine ⟨s.v_list (p + k), hmem, ?_⟩
      rw [hb]
      omega
    · rw [h2 _ hmem] at hwin
      cases hwin

/-- Membership and non-duplication of the branching/pruned candidate lists
computed by `splitCands` on the pivot's marks. -/
theorem cands_facts (n : Nat) (adj0 : Nat → List Nat) (hok : GraphOK n adj0)
    (x p e : Nat) (s : St) (hinv : BKInv n adj0 x p e s)
    (pvN : Nat) (i0 : Nat) (hi0 : x ≤ i0) (hi0e : i0 < e) (hvi0 : s.v_list i0 = pvN) :
    (∀ w, w ∈ (splitCands s.v_list p e
        (markNeigh s.rev_idx p e (s.adj_list pvN) (fun _ => false))).1 ↔
      (w ∈ contentL s p e ∧ w ∉ adj0 pvN)) ∧
    (∀ w, w ∈ (splitCands s.v_list p e
        (markNeigh s.rev_idx p e (s.adj_list pvN) (fun _ => false))).2 ↔
      (w ∈ contentL s p e ∧ w ∈ adj0 pvN)) ∧
    (splitCands s.v_list p e
        (markNeigh s.rev_idx p e (s.adj_list pvN) (fun _ => false))).1.Nodup := by
  have hxp := hinv.hxp
  have hpe := hinv.hpe
  have hchar := marks_char n adj0 hok x p e s hinv pvN i0 hi0 hi0e hvi0
  have hadj : ∀ w, w ∈ s.adj_list pvN ↔ w ∈ adj0 pvN := fun w => (hinv.perm pvN).mem_iff
  rw [splitCands_eq]
  refine ⟨?_, ?_, ?_⟩
  · intro w
    simp only [List.mem_map, List.mem_filter, List.mem_range]
    constructor
    · rintro ⟨k, ⟨hk, hnm⟩, hvw⟩
      simp only [Bool.not_eq_true'] at hnm
      refine ⟨(mem_contentL s p e w).mpr ⟨p + k, by omega, by omega, hvw⟩, ?_⟩
      intro hmem
      have hmt : markNeigh s.rev_idx p e (s.adj_list pvN) (fun _ => false) k = true := by
        apply (hchar k hk).mpr
        rw [hvw]
        exact (hadj w).mpr hmem
      rw [hnm] at hmt
      cases hmt
    · rintro ⟨hmem, hna⟩
      obtain ⟨i, hi1, hi2, hvi⟩ := (mem_contentL s p e w).mp hmem
      refine ⟨i - p, ⟨by omega, ?_⟩, by rw [show p + (i - p) = i by omega]; exact hvi⟩
      simp only [Bool.not_eq_true']
      rw [Bool.eq_false_iff]
      intro hmk
      have := (hchar (i - p) (by omega)).mp hmk
      rw [show p + (i - p) = i by omega, hvi] at this
      exact hna ((hadj w).mp this)
  · intro w
    simp only [List.mem_map, List.mem_filter, List.mem_range]
    constructor
    · rintro ⟨k, ⟨hk, hm⟩, hvw⟩
      refine ⟨(mem_contentL s p e w).mpr ⟨p + k, by omega, by omega, hvw⟩, ?_⟩
      have := (hchar k hk).mp hm
      rw [hvw] at this
      exact (hadj w).mp this
    · rintro ⟨hmem, hna⟩
      obtain ⟨i, hi1, hi2, hvi⟩ := (mem_contentL s p e w).mp hmem
      refine ⟨i - p, ⟨by omega, ?_⟩, by rw [show p + (i - p) = i by omega]; exact hvi⟩
      apply (hchar (i - p) (by omega)).mpr
      rw [show p + (i - p) = i by omega, hvi]
      exact (hadj w).mpr hna
  · refine List.Nodup.map_on ?_ ((List.nodup_range _).filter _)
    intro k1 hk1 k2 hk2 hv
    have hk1r := List.mem_range.mp (List.mem_of_mem_filter hk1)
    have hk2r := List.mem_range.mp (List.mem_of_mem_filter hk2)
    have h1 := hinv.bij1 (p + k1) (by omega) (by omega)
    have h2 := hinv.bij1 (p + k2) (by omega) (by omega)
    rw [hv, h2] at h1
    omega

/-! ## The master postcondition of `bron_kerbosch_pivot` -/

/-- What one completed call to `bron_kerbosch_pivot` over window
`(x, p, e)` guarantees, relating the exit state `s'` to the entry state
`s` and the returned subtree count `r`. -/
structure BKPost (n : Nat) (adj0 : Nat → List Nat) (x p e : Nat) (pr : Bool)
    (s s' : St) (r : Nat) : Prop where
  inv : BKInv n adj0 x p e s'
  vl_frame : ∀ i, i < x ∨ e ≤ i → s'.v_list i = s.v_list i
  rev_frame : ∀ w, ¬ ((x : Int) ≤ s.rev_idx w ∧ s.rev_idx w < (e : Int)) →
    s'.rev_idx w = s.rev_idx w
  permX : List.Perm (contentL s' x p) (contentL s x p)
  permP : List.Perm (contentL s' p e) (contentL s p e)
  adj_out : ∀ u, u ∉ contentL s x e → s'.adj_list u = s.adj_list u
  adj_pre : ∀ u, u ∈ contentL s x e → ∀ a b, s.adj_list u = a ++ b →
    (∀ w ∈ a, inWinB s.rev_idx p e w = true) →
    (∀ w ∈ b, inWinB s.rev_idx p e w = false) →
    ∃ a2, s'.adj_list u = a2 ++ b ∧ List.Perm a2 a ∧
      (∀ w ∈ a2, inWinB s'.rev_idx p e w = true)
  cl_eq : s'.clique = s.clique
  tr_eq : s'.track_search_tree = s.track_search_tree
  cnt : s'.clique_count + (if pr = true ∧ x = p ∧ p = e then 1 else 0) =
    s.clique_count + r
  rval : r = mcCount n adj0 s.clique (contentL s p e)

/-- Invariant of the candidate loop of `bron_kerbosch_pivot` at the
boundary after consuming the branching candidates `done`, relating the loop
state `t` to the loop entry state `s`; `tot` is the accumulated count. -/
structure CandInv (n : Nat) (adj0 : Nat → List Nat) (x p e : Nat) (s : St)
    (done : List Nat) (tot : Nat) (t : St) : Prop where
  inv : BKInv n adj0 x (p + done.length) e t
  vl_frame : ∀ i, i < x ∨ e ≤ i → t.v_list i = s.v_list i
  rev_frame : ∀ w, ¬ ((x : Int) ≤ s.rev_idx w ∧ s.rev_idx w < (e : Int)) →
    t.rev_idx w = s.rev_idx w
  permX : List.Perm (contentL t x (p + done.length)) (contentL s x p ++ done)
  permP : List.Perm (contentL t (p + done.length) e)
    ((contentL s p e).filter (fun w => !(decide (w ∈ done))))
  adj_out : ∀ u, u ∉ contentL s x e → t.adj_list u = s.adj_list u
  adj_pre : ∀ u, u ∈ contentL s x e → ∀ a b, s.adj_list u = a ++ b →
    (∀ w ∈ a, inWinB s.rev_idx p e w = true) →
    (∀ w ∈ b, inWinB s.rev_idx p e w = false) →
    ∃ a2, t.adj_list u = a2 ++ b ∧ List.Perm a2 a ∧
      SplitWin t.rev_idx (p + done.length) e a2
  cl_eq : t.clique = s.clique
  cc_eq : t.clique_count = s.clique_count + tot
  tr_eq : t.track_search_tree = s.track_search_tree

/-! ## Packaged runs of the two restriction loops -/

theorem restrictX_run (n x pc e cand : Nat) (t : St)
    (hxp : x ≤ pc) (hpe : pc ≤ e)
    (hpre : ∀ i, x ≤ i → i < e → SplitWin t.rev_idx pc e (t.adj_list (t.v_list i)))
    (bij1 : ∀ i, x ≤ i → i < e → t.rev_idx (t.v_list i) = (i : Int))
    (bij2 : ∀ w, w < n → (x : Int) ≤ t.rev_idx w → t.rev_idx w < (e : Int) →
      t.v_list (t.rev_idx w).toNat = w)
    (hcand : inWinB t.rev_idx pc e cand = true) :
    XMid n x pc e cand t 0
      (restrictX pc e cand ((List.range (pc - x)).map (fun k => pc - 1 - k)) (t, 0)).2
      (restrictX pc e cand ((List.range (pc - x)).map (fun k => pc - 1 - k)) (t, 0)).1 := by
  have hfn : (List.range (pc - x)).map (fun k => pc - 1 - k) =
      (List.range (pc - x)).map (fun k => (x + (pc - x)) - 1 - k) := by
    apply List.map_congr_left
    intro k _
    omega
  rw [hfn]
  apply restrictX_go n x pc e cand t hxp hpe hpre hcand (pc - x) t 0
  refine ⟨by omega, by omega, ?_, ?_, ?_, ?_, ?_, bij1, bij2, ?_, ?_, rfl, rfl, rfl, rfl, rfl, rfl⟩
  · intro i _ _; rfl
  · intro i _; rfl
  · intro w _; rfl
  · intro w; rfl
  · intro w; rfl
  · rw [Nat.sub_zero, show x + (pc - x) = pc by omega, contentL_nil t pc pc (le_refl _)]
    simp
  · rw [Nat.sub_zero, show x + (pc - x) = pc by omega, contentL_nil t pc pc (le_refl _)]
    simp

theorem restrictP_run (n x pc e cand : Nat) (t1 : St)
    (hxp : x ≤ pc) (hpe : pc ≤ e)
    (hpre : ∀ i, x ≤ i → i < e → SplitWin t1.rev_idx pc e (t1.adj_list (t1.v_list i)))
    (bij1 : ∀ i, x ≤ i → i < e → t1.rev_idx (t1.v_list i) = (i : Int))
    (bij2 : ∀ w, w < n → (x : Int) ≤ t1.rev_idx w → t1.rev_idx w < (e : Int) →
      t1.v_list (t1.rev_idx w).toNat = w)
    (hcand : inWinB t1.rev_idx pc e cand = true) :
    RPMid n x pc e cand t1 e
      (restrictP pc e cand ((List.range (e - pc)).map (fun k => pc + k)) (t1, 0)).2
      (restrictP pc e cand ((List.range (e - pc)).map (fun k => pc + k)) (t1, 0)).1 := by
  have := restrictP_go n x pc e cand t1 hxp hpe hpre hcand (e - pc) pc t1 0 (by omega)
  apply this
  refine ⟨by omega, hpe, ?_, ?_, ?_, ?_, bij1, bij2, ?_, ?_, rfl, rfl, rfl, rfl, rfl, rfl⟩
  · intro i _ _; rfl
  · intro i _; rfl
  · intro w _; rfl
  · intro w; rfl
  · rw [Nat.add_zero, contentL_nil t1 pc pc (le_refl _)]
    simp
  · rw [Nat.add_zero, contentL_nil t1 pc pc (le_refl _)]
    simp

/-! ## The partition window loop (lines 282–296) -/

theorem partWindow_spec (n x e : Nat) (pc pHi lo : Nat) (t : St) :
    ∀ (cnt : Nat), x ≤ lo → lo + cnt ≤ e →
    (∀ i, x ≤ i → i < e → t.rev_idx (t.v_list i) = (i : Int)) →
    (partWindow pc e pHi lo cnt t).v_list = t.v_list ∧
    (partWindow pc e pHi lo cnt t).rev_idx = t.rev_idx ∧
    (partWindow pc e pHi lo cnt t).clique = t.clique ∧
    (partWindow pc e pHi lo cnt t).clique_count = t.clique_count ∧
    (partWindow pc e pHi lo cnt t).track_search_tree = t.track_search_tree ∧
    (partWindow pc e pHi lo cnt t).node_counter = t.node_counter ∧
    (partWindow pc e pHi lo cnt t).search_tree_nodes = t.search_tree_nodes ∧
    (∀ u, u ∉ contentL t lo (lo + cnt) → (partWindow pc e pHi lo cnt t).adj_list u = t.adj_list u) ∧
    (∀ k, k < cnt → (partWindow pc e pHi lo cnt t).adj_list (t.v_list (lo + k)) =
      partScan t.rev_idx pc e pHi ((t.adj_list (t.v_list (lo + k))).length) 0 0
        (t.adj_list (t.v_list (lo + k)))) := by
  intro cnt
  induction cnt with
  | zero =>
    intro _ _ _
    refine ⟨rfl, rfl, rfl, rfl, rfl, rfl, rfl, fun u _ => rfl, fun k hk => by omega⟩
  | succ m ih =>
    intro hlo hcnt bij1
    obtain ⟨hvl, hrev, hcl, hcc, htr, hnc, hnd, hout, hin⟩ :=
      ih hlo (by omega) bij1
    have hstep : partWindow pc e pHi lo (m + 1) t =
        (let t' := partWindow pc e pHi lo m t
         let u := t'.v_list (lo + m)
         let l := t'.adj_list u
         { t' with adj_list := upd t'.adj_list u (partScan t'.rev_idx pc e pHi l.length 0 0 l) }) := by
      unfold partWindow
      rw [List.range_succ, List.foldl_append, List.foldl_cons, List.foldl_nil]
    have hum : t.v_list (lo + m) ∉ contentL t lo (lo + m) := by
      intro hmem
      obtain ⟨i, hi1, hi2, hvi⟩ := (mem_contentL t lo (lo + m) _).mp hmem
      have h1 := bij1 i (by omega) (by omega)
      have h2 := bij1 (lo + m) (by omega) (by omega)
      rw [hvi, h2] at h1
      omega
    have hadjm : (partWindow pc e pHi lo m t).adj_list (t.v_list (lo + m)) =
        t.adj_list (t.v_list (lo + m)) := hout _ hum
    rw [hstep]
    dsimp only
    rw [hvl, hrev, hadjm]
    refine ⟨rfl, rfl, hcl, hcc, htr, hnc, hnd, ?_, ?_⟩
    · intro u hu
      have humem : u ≠ t.v_list (lo + m) := by
        intro h
        apply hu
        exact (mem_contentL t lo (lo + (m + 1)) u).mpr ⟨lo + m, by omega, by omega, h.symm⟩
      rw [upd_other _ _ _ _ humem]
      apply hout
      intro hmem
      apply hu
      obtain ⟨i, hi1, hi2, hvi⟩ := (mem_contentL t lo (lo + m) u).mp hmem
      exact (mem_contentL t lo (lo + (m + 1)) u).mpr ⟨i, by omega, by omega, hvi⟩
    · intro k hk
      by_cases hkm : k = m
      · rw [hkm, upd_same]
      · have hne : t.v_list (lo + k) ≠ t.v_list (lo + m) := by
          intro h
          have h1 := bij1 (lo + k) (by omega) (by omega)
          have h2 := bij1 (lo + m) (by omega) (by omega)
          rw [h, h2] at h1
          omega
        rw [upd_other _ _ _ _ hne]
        exact hin k (by omega)
/-! ## Setting up one branch of the candidate loop -/

/-- Existence of a window position for every window-content vertex. -/
theorem contentL_pos (s : St) (a b w : Nat) (hw : w ∈ contentL s a b) :
    ∃ i, a ≤ i ∧ i < b ∧ s.v_list i = w := (mem_contentL s a b w).mp hw

theorem contentL_append (s : St) (a b c : Nat) (hab : a ≤ b) (hbc : b ≤ c) :
    contentL s a c = contentL s a b ++ contentL s b c := by
  unfold contentL
  rw [show c - a = (b - a) + (c - b) by omega, List.range_add, List.map_append, List.map_map]
  congr 1
  apply List.map_congr_left
  intro k _
  simp only [Function.comp_apply]
  congr 1
  omega

/-- The two restriction loops (lines 245–280) establish the child window:
the final states, counts, and the content of each region. -/
theorem childSetup (n : Nat) (adj0 : Nat → List Nat) (hok : GraphOK n adj0)
    (x pc e : Nat) (t : St) (hinv : BKInv n adj0 x pc e t)
    (c : Nat) (hc : c ∈ contentL t pc e) :
    ∃ t1 num_x t2 num_p,
      restrictX pc e c ((List.range (pc - x)).map (fun k => pc - 1 - k)) (t, 0) = (t1, num_x) ∧
      restrictP pc e c ((List.range (e - pc)).map (fun k => pc + k)) (t1, 0) = (t2, num_p) ∧
      XMid n x pc e c t 0 num_x t1 ∧
      RPMid n x pc e c t1 e num_p t2 ∧
      num_x ≤ pc - x ∧ num_p ≤ e - pc ∧
      contentL t2 pc (pc + num_p) =
        (contentL t pc e).filter (fun u => decide (c ∈ t.adj_list u)) ∧
      List.Perm (contentL t2 (pc - num_x) pc)
        ((contentL t x pc).filter (fun u => decide (c ∈ t.adj_list u))) ∧
      List.Perm (contentL t2 x (pc - num_x))
        ((contentL t x pc).filter (fun u => !(decide (c ∈ t.adj_list u)))) ∧
      List.Perm (contentL t2 (pc + num_p) e)
        ((contentL t pc e).filter (fun u => !(decide (c ∈ t.adj_list u)))) ∧
      (∃ qc, pc + num_p ≤ qc ∧ qc < e ∧ t2.v_list qc = c ∧ t2.rev_idx c = (qc : Int)) := by
  have hxp := hinv.hxp
  have hpe := hinv.hpe
  obtain ⟨ic, hic1, hic2, hvic⟩ := contentL_pos t pc e c hc
  have hcwin : inWinB t.rev_idx pc e c = true := by
    have := hinv.bij1 ic (by omega) hic2
    rw [hvic] at this
    simp only [inWinB, this, decide_eq_true_eq]
    omega
  have M1 := restrictX_run n x pc e c t hxp hpe
    (fun i h1 h2 => hinv.pre i h1 h2) hinv.bij1 hinv.bij2 hcwin
  obtain ⟨t1, num_x, hrxeq⟩ :
      ∃ t1 num_x, restrictX pc e c
        ((List.range (pc - x)).map (fun k => pc - 1 - k)) (t, 0) = (t1, num_x) :=
    ⟨_, _, rfl⟩
  rw [hrxeq] at M1
  dsimp only at M1
  have hnx : num_x ≤ pc - x := by
    have := M1.hnx
    omega
  -- the X region of t1 is a permutation of the X region of t
  have hXperm : List.Perm (contentL t1 x pc) (contentL t x pc) := by
    rw [contentL_append t1 x (pc - num_x) pc (by omega) (by omega)]
    have h1 := M1.oth
    have h2 := M1.sel
    rw [Nat.add_zero] at h1 h2
    exact (h1.append h2).trans (List.perm_append_comm.trans (List.filter_append_perm _ _))
  -- SplitWin of every window list at t1
  have hpre1 : ∀ i, x ≤ i → i < e → SplitWin t1.rev_idx pc e (t1.adj_list (t1.v_list i)) := by
    intro i h1 h2
    rw [M1.adj_eq]
    have hmem : ∃ j, x ≤ j ∧ j < e ∧ t.v_list j = t1.v_list i := by
      by_cases hix : i < pc
      · have : t1.v_list i ∈ contentL t x pc := hXperm.mem_iff.mp
          ((mem_contentL t1 x pc _).mpr ⟨i, by omega, by omega, rfl⟩)
        obtain ⟨j, hj1, hj2, hvj⟩ := contentL_pos t x pc _ this
        exact ⟨j, hj1, by omega, hvj⟩
      · exact ⟨i, by omega, h2, (M1.vl_frame i (Or.inr (by omega))).symm⟩
    obtain ⟨j, hj1, hj2, hvj⟩ := hmem
    rw [← hvj]
    exact SplitWin_transfer t.rev_idx t1.rev_idx pc e _
      (fun w => (M1.win_pres w).symm) (hinv.pre j hj1 hj2)
  have hcwin1 : inWinB t1.rev_idx pc e c = true := (M1.win_pres c).trans hcwin
  have M2 := restrictP_run n x pc e c t1 hxp hpe hpre1 M1.bij1 M1.bij2 hcwin1
  obtain ⟨t2, num_p, hrpeq⟩ :
      ∃ t2 num_p, restrictP pc e c
        ((List.range (e - pc)).map (fun k => pc + k)) (t1, 0) = (t2, num_p) :=
    ⟨_, _, rfl⟩
  rw [hrpeq] at M2
  dsimp only at M2
  -- rewrite the P region of t1 in terms of t
  have hP1 : contentL t1 pc e = contentL t pc e :=
    contentL_congr t1 t pc e (fun i hi1 _ => M1.vl_frame i (Or.inr hi1))
  have hsel2 : contentL t2 pc (pc + num_p) =
      (contentL t pc e).filter (fun u => decide (c ∈ t.adj_list u)) := by
    have := M2.sel
    rwa [hP1, M1.adj_eq] at this
  have hnp : num_p ≤ e - pc := by
    have hlen := congrArg List.length hsel2
    rw [contentL_length] at hlen
    have := List.length_filter_le (fun u => decide (c ∈ t.adj_list u)) (contentL t pc e)
    rw [contentL_length] at this
    omega
  have hoth2 : List.Perm (contentL t2 (pc + num_p) e)
      ((contentL t pc e).filter (fun u => !(decide (c ∈ t.adj_list u)))) := by
    have := M2.oth
    rwa [hP1, M1.adj_eq] at this
  have hselX : List.Perm (contentL t2 (pc - num_x) pc)
      ((contentL t x pc).filter (fun u => decide (c ∈ t.adj_list u))) := by
    have hcg : contentL t2 (pc - num_x) pc = contentL t1 (pc - num_x) pc :=
      contentL_congr t2 t1 (pc - num_x) pc (fun i _ hi2 => M2.vl_frame i (Or.inl hi2))
    rw [hcg]
    have := M1.sel
    rw [Nat.add_zero] at this
    exact this
  have hothX : List.Perm (contentL t2 x (pc - num_x))
      ((contentL t x pc).filter (fun u => !(decide (c ∈ t.adj_list u)))) := by
    have hcg : contentL t2 x (pc - num_x) = contentL t1 x (pc - num_x) :=
      contentL_congr t2 t1 x (pc - num_x) (fun i _ hi2 => M2.vl_frame i (Or.inl (by omega)))
    rw [hcg]
    have := M1.oth
    rw [Nat.add_zero] at this
    exact this
  have hcq : ∃ qc, pc + num_p ≤ qc ∧ qc < e ∧ t2.v_list qc = c ∧ t2.rev_idx c = (qc : Int) := by
    have hcf : c ∈ (contentL t pc e).filter (fun u => !(decide (c ∈ t.adj_list u))) := by
      refine List.mem_filter.mpr ⟨hc, ?_⟩
      simp only [Bool.not_eq_eq_eq_not, Bool.not_true, decide_eq_false_iff_not]
      intro hmem
      exact hok.noself c ((hinv.perm c).mem_iff.mp hmem)
    have hcm : c ∈ contentL t2 (pc + num_p) e := hoth2.mem_iff.mpr hcf
    obtain ⟨qc, hq1, hq2, hvq⟩ := contentL_pos t2 (pc + num_p) e c hcm
    refine ⟨qc, hq1, hq2, hvq, ?_⟩
    have := M2.bij1 qc (by omega) hq2
    rwa [hvq] at this
  exact ⟨t1, num_x, t2, num_p, hrxeq, hrpeq, M1, M2, hnx, hnp, hsel2, hselX, hothX, hoth2, hcq⟩

/-- The partition loop and the clique push establish the full entry
invariant of the recursive child call (window `(pc-num_x, pc, pc+num_p)`). -/
theorem childInv (n : Nat) (adj0 : Nat → List Nat) (hok : GraphOK n adj0)
    (x pc e : Nat) (t : St) (hinv : BKInv n adj0 x pc e t)
    (c : Nat) (hc : c ∈ contentL t pc e)
    (t1 : St) (num_x : Nat) (t2 : St) (num_p : Nat)
    (M1 : XMid n x pc e c t 0 num_x t1) (M2 : RPMid n x pc e c t1 e num_p t2)
    (hnx : num_x ≤ pc - x) (hnp : num_p ≤ e - pc)
    (hsel2 : contentL t2 pc (pc + num_p) =
      (contentL t pc e).filter (fun u => decide (c ∈ t.adj_list u)))
    (hselX : List.Perm (contentL t2 (pc - num_x) pc)
      ((contentL t x pc).filter (fun u => decide (c ∈ t.adj_list u))))
    (hothX : List.Perm (contentL t2 x (pc - num_x))
      ((contentL t x pc).filter (fun u => !(decide (c ∈ t.adj_list u)))))
    (hoth2 : List.Perm (contentL t2 (pc + num_p) e)
      ((contentL t pc e).filter (fun u => !(decide (c ∈ t.adj_list u))))) :
    BKInv n adj0 (pc - num_x) pc (pc + num_p)
      { partWindow pc e (pc + num_p) (pc - num_x) (num_x + num_p) t2 with
        clique := (partWindow pc e (pc + num_p) (pc - num_x) (num_x + num_p) t2).clique ++ [c] } := by
  have hxp := hinv.hxp
  have hpe := hinv.hpe
  obtain ⟨ic, hic1, hic2, hvic⟩ := contentL_pos t pc e c hc
  have hcn : c < n := by
    have := hinv.vlt ic (by omega) hic2
    rwa [hvic] at this
  have hadj2 : t2.adj_list = t.adj_list := M2.adj_eq.trans M1.adj_eq
  have hcl2 : t2.clique = t.clique := M2.cl_eq.trans M1.cl_eq
  have hwin2 : ∀ w, inWinB t2.rev_idx pc e w = inWinB t.rev_idx pc e w :=
    fun w => (M2.win_pres w).trans (M1.win_pres w)
  have hXperm2 : List.Perm (contentL t2 x pc) (contentL t x pc) := by
    rw [contentL_append t2 x (pc - num_x) pc (by omega) (by omega)]
    exact (hothX.append hselX).trans
      (List.perm_append_comm.trans (List.filter_append_perm _ _))
  have hPperm2 : List.Perm (contentL t2 pc e) (contentL t pc e) := by
    rw [contentL_append t2 pc (pc + num_p) e (by omega) (by omega), hsel2]
    exact (List.Perm.append (List.Perm.refl _) hoth2).trans (List.filter_append_perm _ _)
  have hmem2 : ∀ i, x ≤ i → i < e → ∃ j, x ≤ j ∧ j < e ∧ t.v_list j = t2.v_list i := by
    intro i h1 h2
    by_cases hix : i < pc
    · have : t2.v_list i ∈ contentL t x pc := hXperm2.mem_iff.mp
        ((mem_contentL t2 x pc _).mpr ⟨i, by omega, by omega, rfl⟩)
      obtain ⟨j, hj1, hj2, hvj⟩ := contentL_pos t x pc _ this
      exact ⟨j, hj1, by omega, hvj⟩
    · have : t2.v_list i ∈ contentL t pc e := hPperm2.mem_iff.mp
        ((mem_contentL t2 pc e _).mpr ⟨i, by omega, by omega, rfl⟩)
      obtain ⟨j, hj1, hj2, hvj⟩ := contentL_pos t pc e _ this
      exact ⟨j, by omega, hj2, hvj⟩
  have hpre2 : ∀ i, x ≤ i → i < e → SplitWin t2.rev_idx pc e (t2.adj_list (t2.v_list i)) := by
    intro i h1 h2
    rw [hadj2]
    obtain ⟨j, hj1, hj2, hvj⟩ := hmem2 i h1 h2
    rw [← hvj]
    exact SplitWin_transfer t.rev_idx t2.rev_idx pc e _
      (fun w => (hwin2 w).symm) (hinv.pre j hj1 hj2)
  have hvlt2 : ∀ i, x ≤ i → i < e → t2.v_list i < n := by
    intro i h1 h2
    obtain ⟨j, hj1, hj2, hvj⟩ := hmem2 i h1 h2
    rw [← hvj]
    exact hinv.vlt j hj1 hj2
  obtain ⟨hvl3, hrev3, hcl3, _, _, _, _, hout3, hin3⟩ :=
    partWindow_spec n x e pc (pc + num_p) (pc - num_x) t2 (num_x + num_p)
      (by omega) (by omega) M2.bij1
  have hpe' : pc + num_p ≤ e := by omega
  -- the rewritten adjacency list of each child-window vertex
  have hlist : ∀ k, k < num_x + num_p → ∃ pre2 mid2 b,
      (partWindow pc e (pc + num_p) (pc - num_x) (num_x + num_p) t2).adj_list
        (t2.v_list (pc - num_x + k)) = pre2 ++ (mid2 ++ b) ∧
      (∀ w ∈ pre2, inWinB t2.rev_idx pc (pc + num_p) w = true) ∧
      (∀ w ∈ mid2, inWinB t2.rev_idx pc e w = true ∧
        inWinB t2.rev_idx pc (pc + num_p) w = false) ∧
      (∀ w ∈ b, inWinB t2.rev_idx pc e w = false) ∧
      List.Perm (pre2 ++ (mid2 ++ b)) (t2.adj_list (t2.v_list (pc - num_x + k))) := by
    intro k hk
    obtain ⟨a, b, hab, hain, hbout⟩ := hpre2 (pc - num_x + k) (by omega) (by omega)
    obtain ⟨pre2, mid2, heq, hp2, hm2, hq1, hq2⟩ :=
      partScan_spec t2.rev_idx pc e (pc + num_p) a b hpe' hain hbout
    refine ⟨pre2, mid2, b, ?_, hq1, hq2, hbout, ?_⟩
    · rw [hin3 k hk, hab]
      rw [show (a ++ b).length = (a ++ b).length from rfl] at heq
      exact heq
    · rw [hab, ← List.append_assoc]
      exact ((hp2.append hm2).trans (List.filter_append_perm _ _)).append_right b
  have hrb2 : ∀ w, (x : Int) ≤ t2.rev_idx w → t2.rev_idx w < (e : Int) → w < n := by
    intro w h1 h2
    by_cases hT : (x : Int) ≤ t.rev_idx w ∧ t.rev_idx w < (e : Int)
    · exact hinv.rev_bound w hT.1 hT.2
    · have hxw : ¬ ((x : Int) ≤ t.rev_idx w ∧ t.rev_idx w < (pc : Int)) := by
        intro h
        refine hT ⟨h.1, lt_of_lt_of_le h.2 ?_⟩
        exact_mod_cast hpe
      have h1' := M1.rev_frame w hxw
      have hpw : ¬ ((pc : Int) ≤ t1.rev_idx w ∧ t1.rev_idx w < (e : Int)) := by
        rw [h1']
        intro h
        refine hT ⟨le_trans ?_ h.1, h.2⟩
        exact_mod_cast hxp
      have h2' := M2.rev_frame w hpw
      rw [h2', h1'] at h1 h2
      exact absurd ⟨h1, h2⟩ hT
  refine ⟨by omega, by omega, ?_, ?_, ?_, ?_, ?_, ?_, ?_, ?_, ?_, ?_, ?_, ?_⟩
  · -- bij1
    intro i h1 h2
    show (partWindow pc e (pc + num_p) (pc - num_x) (num_x + num_p) t2).rev_idx
      ((partWindow pc e (pc + num_p) (pc - num_x) (num_x + num_p) t2).v_list i) = (i : Int)
    rw [hvl3, hrev3]
    exact M2.bij1 i (by omega) (by omega)
  · -- bij2
    intro w hw hw1 hw2
    show (partWindow pc e (pc + num_p) (pc - num_x) (num_x + num_p) t2).v_list
      (((partWindow pc e (pc + num_p) (pc - num_x) (num_x + num_p) t2).rev_idx w).toNat) = w
    rw [hvl3, hrev3]
    rw [hrev3] at hw1 hw2
    exact M2.bij2 w hw (by omega) (by omega)
  · -- vlt
    intro i h1 h2
    show (partWindow pc e (pc + num_p) (pc - num_x) (num_x + num_p) t2).v_list i < n
    rw [hvl3]
    exact hvlt2 i (by omega) (by omega)
  · -- perm
    intro u
    show (partWindow pc e (pc + num_p) (pc - num_x) (num_x + num_p) t2).adj_list u
      |>.Perm (adj0 u)
    by_cases hu : u ∈ contentL t2 (pc - num_x) (pc - num_x + (num_x + num_p))
    · obtain ⟨i, hi1, hi2, hvi⟩ := contentL_pos t2 _ _ u hu
      obtain ⟨pre2, mid2, b, heq, _, _, _, hperm⟩ := hlist (i - (pc - num_x)) (by omega)
      rw [show pc - num_x + (i - (pc - num_x)) = i by omega, hvi] at heq hperm
      rw [heq]
      refine hperm.trans ?_
      rw [hadj2]
      exact hinv.perm u
    · rw [hout3 u hu, hadj2]
      exact hinv.perm u
  · -- pre
    intro i h1 h2
    show SplitWin (partWindow pc e (pc + num_p) (pc - num_x) (num_x + num_p) t2).rev_idx
      pc (pc + num_p)
      ((partWindow pc e (pc + num_p) (pc - num_x) (num_x + num_p) t2).adj_list
        ((partWindow pc e (pc + num_p) (pc - num_x) (num_x + num_p) t2).v_list i))
    rw [hvl3, hrev3]
    obtain ⟨pre2, mid2, b, heq, hq1, hq2, hbout, _⟩ := hlist (i - (pc - num_x)) (by omega)
    rw [show pc - num_x + (i - (pc - num_x)) = i by omega] at heq
    rw [heq]
    refine ⟨pre2, mid2 ++ b, rfl, hq1, ?_⟩
    intro w hw
    rcases List.mem_append.mp hw with hw | hw
    · exact (hq2 w hw).2
    · exact inWinB_sub_false t2.rev_idx pc (pc + num_p) e w hpe' (hbout w hw)
  · -- cliq_lt
    intro r hr
    have hclique4 : ({ partWindow pc e (pc + num_p) (pc - num_x) (num_x + num_p) t2 with
        clique := (partWindow pc e (pc + num_p) (pc - num_x) (num_x + num_p) t2).clique
          ++ [c] } : St).clique = t.clique ++ [c] := by
      show (partWindow pc e (pc + num_p) (pc - num_x) (num_x + num_p) t2).clique ++ [c] = _
      rw [hcl3, hcl2]
    rw [hclique4] at hr
    rcases List.mem_append.mp hr with hr | hr
    · exact hinv.cliq_lt r hr
    · rw [List.mem_singleton.mp hr]
      exact hcn
  · -- cliq_nd
    show ((partWindow pc e (pc + num_p) (pc - num_x) (num_x + num_p) t2).clique ++ [c]).Nodup
    rw [hcl3, hcl2]
    rw [List.nodup_append]
    refine ⟨hinv.cliq_nd, List.nodup_singleton c, ?_⟩
    intro r hr hmem
    have hrc := List.mem_singleton.mp hmem
    rw [hrc] at hr
    have := hinv.win_adj ic (by omega) hic2 c hr
    rw [hvic] at this
    exact hok.noself c this
  · -- cliq_adj
    intro r hr q hq hrq
    have hclique4 : ({ partWindow pc e (pc + num_p) (pc - num_x) (num_x + num_p) t2 with
        clique := (partWindow pc e (pc + num_p) (pc - num_x) (num_x + num_p) t2).clique
          ++ [c] } : St).clique = t.clique ++ [c] := by
      show (partWindow pc e (pc + num_p) (pc - num_x) (num_x + num_p) t2).clique ++ [c] = _
      rw [hcl3, hcl2]
    rw [hclique4] at hr hq
    rcases List.mem_append.mp hr with hr | hr <;> rcases List.mem_append.mp hq with hq | hq
    · exact hinv.cliq_adj r hr q hq hrq
    · have hqc := List.mem_singleton.mp hq
      rw [hqc]
      have hadj := hinv.win_adj ic (by omega) hic2 r hr
      rw [hvic] at hadj
      exact hok.symm c r hadj
    · have hrc := List.mem_singleton.mp hr
      rw [hrc]
      have hadj := hinv.win_adj ic (by omega) hic2 q hq
      rwa [hvic] at hadj
    · exact absurd ((List.mem_singleton.mp hr).trans (List.mem_singleton.mp hq).symm) hrq
  · -- win_adj
    intro i h1 h2 r hr
    have hclique4 : ({ partWindow pc e (pc + num_p) (pc - num_x) (num_x + num_p) t2 with
        clique := (partWindow pc e (pc + num_p) (pc - num_x) (num_x + num_p) t2).clique
          ++ [c] } : St).clique = t.clique ++ [c] := by
      show (partWindow pc e (pc + num_p) (pc - num_x) (num_x + num_p) t2).clique ++ [c] = _
      rw [hcl3, hcl2]
    rw [hclique4] at hr
    have hv4 : ({ partWindow pc e (pc + num_p) (pc - num_x) (num_x + num_p) t2 with
        clique := (partWindow pc e (pc + num_p) (pc - num_x) (num_x + num_p) t2).clique
          ++ [c] } : St).v_list i = t2.v_list i := congrFun hvl3 i
    rw [hv4]
    have hu : t2.v_list i ∈ contentL t x e ∧ c ∈ t.adj_list (t2.v_list i) := by
      by_cases hip : i < pc
      · have hm : t2.v_list i ∈
            (contentL t x pc).filter (fun u => decide (c ∈ t.adj_list u)) :=
          hselX.mem_iff.mp
            ((mem_contentL t2 (pc - num_x) pc _).mpr ⟨i, by omega, by omega, rfl⟩)
        obtain ⟨hm1, hm2⟩ := List.mem_filter.mp hm
        refine ⟨?_, of_decide_eq_true hm2⟩
        rw [contentL_append t x pc e hxp hpe]
        exact List.mem_append.mpr (Or.inl hm1)
      · have hm : t2.v_list i ∈
            (contentL t pc e).filter (fun u => decide (c ∈ t.adj_list u)) := by
          rw [← hsel2]
          exact (mem_contentL t2 pc (pc + num_p) _).mpr ⟨i, by omega, by omega, rfl⟩
        obtain ⟨hm1, hm2⟩ := List.mem_filter.mp hm
        refine ⟨?_, of_decide_eq_true hm2⟩
        rw [contentL_append t x pc e hxp hpe]
        exact List.mem_append.mpr (Or.inr hm1)
    rcases List.mem_append.mp hr with hr | hr
    · obtain ⟨j, hj1, hj2, hvj⟩ := contentL_pos t x e _ hu.1
      rw [← hvj]
      exact hinv.win_adj j hj1 hj2 r hr
    · rw [List.mem_singleton.mp hr]
      exact hok.symm c _ ((hinv.perm (t2.v_list i)).mem_iff.mp hu.2)
  · -- sat
    intro w hw hadjall
    have hclique4 : ({ partWindow pc e (pc + num_p) (pc - num_x) (num_x + num_p) t2 with
        clique := (partWindow pc e (pc + num_p) (pc - num_x) (num_x + num_p) t2).clique
          ++ [c] } : St).clique = t.clique ++ [c] := by
      show (partWindow pc e (pc + num_p) (pc - num_x) (num_x + num_p) t2).clique ++ [c] = _
      rw [hcl3, hcl2]
    rw [hclique4] at hadjall
    have hadjR : ∀ r ∈ t.clique, w ∈ adj0 r :=
      fun r hr => hadjall r (List.mem_append.mpr (Or.inl hr))
    have hadjc : w ∈ adj0 c :=
      hadjall c (List.mem_append.mpr (Or.inr (List.mem_singleton_self c)))
    obtain ⟨j, hj1, hj2, hvj⟩ := hinv.sat w hw hadjR
    have hcw : c ∈ t.adj_list w := (hinv.perm w).mem_iff.mpr (hok.symm w c hadjc)
    have hv4 : ∀ i, ({ partWindow pc e (pc + num_p) (pc - num_x) (num_x + num_p) t2 with
        clique := (partWindow pc e (pc + num_p) (pc - num_x) (num_x + num_p) t2).clique
          ++ [c] } : St).v_list i = t2.v_list i := fun i => congrFun hvl3 i
    by_cases hjp : j < pc
    · have hwm : w ∈ (contentL t x pc).filter (fun u => decide (c ∈ t.adj_list u)) :=
        List.mem_filter.mpr
          ⟨(mem_contentL t x pc w).mpr ⟨j, hj1, hjp, hvj⟩, by simpa using hcw⟩
      obtain ⟨i, hi1, hi2, hvi⟩ := contentL_pos t2 (pc - num_x) pc w (hselX.mem_iff.mpr hwm)
      refine ⟨i, by omega, by omega, ?_⟩
      rw [hv4 i]
      exact hvi
    · have hwm : w ∈ (contentL t pc e).filter (fun u => decide (c ∈ t.adj_list u)) :=
        List.mem_filter.mpr
          ⟨(mem_contentL t pc e w).mpr ⟨j, by omega, hj2, hvj⟩, by simpa using hcw⟩
      have hwm2 : w ∈ contentL t2 pc (pc + num_p) := by
        rw [hsel2]
        exact hwm
      obtain ⟨i, hi1, hi2, hvi⟩ := contentL_pos t2 pc (pc + num_p) w hwm2
      refine ⟨i, by omega, by omega, ?_⟩
      rw [hv4 i]
      exact hvi
  · -- cliq_ne
    show (partWindow pc e (pc + num_p) (pc - num_x) (num_x + num_p) t2).clique ++ [c] ≠ []
    simp
  · -- rev_bound
    intro w h1 h2
    have h1' : ((pc - num_x : Nat) : Int) ≤ t2.rev_idx w := by
      rw [← hrev3]
      exact h1
    have h2' : t2.rev_idx w < ((pc + num_p : Nat) : Int) := by
      rw [← hrev3]
      exact h2
    refine hrb2 w ?_ ?_
    · refine le_trans ?_ h1'
      exact_mod_cast (by omega : x ≤ pc - num_x)
    · refine lt_of_lt_of_le h2' ?_
      exact_mod_cast (by omega : pc + num_p ≤ e)
/-! ## Further helpers for the master induction -/

theorem contentL_single (s : St) (a : Nat) : contentL s a (a + 1) = [s.v_list a] := by
  rw [contentL_cons_left s a (a + 1) (by omega), contentL_nil s (a + 1) (a + 1) (le_refl _)]

theorem perm_swap_middle (v w : Nat) (B C : List Nat) :
    List.Perm (w :: (B ++ v :: C)) (v :: (B ++ w :: C)) := by
  refine ((List.Perm.cons w List.perm_middle).trans ?_).trans
    (List.Perm.cons v List.perm_middle.symm)
  exact List.Perm.swap v w (B ++ C)

theorem swapSt_vl_j (t : St) (j tgt : Nat) (h : j ≠ tgt) :
    (swapSt t j tgt).v_list j = t.v_list tgt := by
  show swapF t.v_list j tgt j = t.v_list tgt
  unfold swapF
  rw [upd_other _ _ _ _ h, upd_same]

theorem swapSt_vl_tgt (t : St) (j tgt : Nat) :
    (swapSt t j tgt).v_list tgt = t.v_list j := by
  show swapF t.v_list j tgt tgt = t.v_list j
  unfold swapF
  rw [upd_same]

theorem swapSt_vl_other (t : St) (j tgt i : Nat) (h1 : i ≠ j) (h2 : i ≠ tgt) :
    (swapSt t j tgt).v_list i = t.v_list i := by
  show swapF t.v_list j tgt i = t.v_list i
  unfold swapF
  rw [upd_other _ _ _ _ h2, upd_other _ _ _ _ h1]

theorem swapSt_contentL_perm (t : St) (j tgt a b : Nat)
    (hj1 : a ≤ j) (hj2 : j < b) (ht1 : a ≤ tgt) (ht2 : tgt < b) :
    List.Perm (contentL (swapSt t j tgt) a b) (contentL t a b) := by
  have haux : ∀ (j tgt : Nat), a ≤ j → j < tgt → tgt < b →
      List.Perm (contentL (swapSt t j tgt) a b) (contentL t a b) := by
    intro j tgt hj1 hjt ht2
    have hsplit : ∀ u : St, contentL u a b =
        contentL u a j ++ (contentL u j (j + 1) ++ (contentL u (j + 1) tgt ++
          (contentL u tgt (tgt + 1) ++ contentL u (tgt + 1) b))) := by
      intro u
      rw [← contentL_append u tgt (tgt + 1) b (by omega) (by omega)]
      rw [← contentL_append u (j + 1) tgt b (by omega) (by omega)]
      rw [← contentL_append u j (j + 1) b (by omega) (by omega)]
      rw [← contentL_append u a j b (by omega) (by omega)]
    rw [hsplit (swapSt t j tgt), hsplit t]
    rw [contentL_single, contentL_single, contentL_single, contentL_single]
    rw [swapSt_vl_j t j tgt (by omega), swapSt_vl_tgt t j tgt]
    have hA : contentL (swapSt t j tgt) a j = contentL t a j :=
      contentL_congr _ _ a j (fun i hi1 hi2 => swapSt_vl_other t j tgt i (by omega) (by omega))
    have hB : contentL (swapSt t j tgt) (j + 1) tgt = contentL t (j + 1) tgt :=
      contentL_congr _ _ (j + 1) tgt
        (fun i hi1 hi2 => swapSt_vl_other t j tgt i (by omega) (by omega))
    have hC : contentL (swapSt t j tgt) (tgt + 1) b = contentL t (tgt + 1) b :=
      contentL_congr _ _ (tgt + 1) b
        (fun i hi1 hi2 => swapSt_vl_other t j tgt i (by omega) (by omega))
    rw [hA, hB, hC]
    refine List.Perm.append_left (contentL t a j) ?_
    simp only [List.singleton_append]
    exact perm_swap_middle (t.v_list j) (t.v_list tgt)
      (contentL t (j + 1) tgt) (contentL t (tgt + 1) b)
  rcases Nat.lt_trichotomy j tgt with h | h | h
  · exact haux j tgt hj1 h ht2
  · subst h
    refine List.Perm.of_eq (contentL_congr _ _ a b ?_)
    intro i _ _
    by_cases hij : i = j
    · rw [hij, swapSt_vl_tgt]
    · exact swapSt_vl_other t j j i hij hij
  · have hvl : (swapSt t j tgt).v_list = (swapSt t tgt j).v_list := by
      show swapF t.v_list j tgt = swapF t.v_list tgt j
      exact swapF_comm t.v_list j tgt
    rw [contentL_congr (swapSt t j tgt) (swapSt t tgt j) a b
      (fun i _ _ => congrFun hvl i)]
    exact haux tgt j ht1 h hj2

/-- Window membership for windows respecting the child blocks is preserved
across a completed child call. -/
theorem child_win_pres (n : Nat) (adj0 : Nat → List Nat) (x' pc e' : Nat) (pr : Bool)
    (t4 t5 : St) (r : Nat)
    (hinv4 : BKInv n adj0 x' pc e' t4) (PO : BKPost n adj0 x' pc e' pr t4 t5 r)
    (a b : Nat)
    (hblk1 : (a ≤ x' ∧ pc ≤ b) ∨ (b ≤ x' ∨ pc ≤ a))
    (hblk2 : (a ≤ pc ∧ e' ≤ b) ∨ (b ≤ pc ∨ e' ≤ a)) :
    ∀ w, inWinB t5.rev_idx a b w = inWinB t4.rev_idx a b w := by
  have hxp := hinv4.hxp
  have hpe := hinv4.hpe
  intro w
  by_cases h4 : (x' : Int) ≤ t4.rev_idx w ∧ t4.rev_idx w < (e' : Int)
  · have hwn : w < n := hinv4.rev_bound w h4.1 h4.2
    by_cases hX : t4.rev_idx w < (pc : Int)
    · have hv4 := hinv4.bij2 w hwn h4.1 h4.2
      have hmem4 : w ∈ contentL t4 x' pc :=
        (mem_contentL t4 x' pc w).mpr ⟨(t4.rev_idx w).toNat, by omega, by omega, hv4⟩
      obtain ⟨i, hi1, hi2, hvi⟩ := contentL_pos t5 x' pc w (PO.permX.mem_iff.mpr hmem4)
      have h5 : t5.rev_idx w = (i : Int) := by
        have := PO.inv.bij1 i hi1 (by omega)
        rwa [hvi] at this
      simp only [inWinB]
      rw [decide_eq_decide]
      omega
    · have hv4 := hinv4.bij2 w hwn h4.1 h4.2
      have hmem4 : w ∈ contentL t4 pc e' :=
        (mem_contentL t4 pc e' w).mpr ⟨(t4.rev_idx w).toNat, by omega, by omega, hv4⟩
      obtain ⟨i, hi1, hi2, hvi⟩ := contentL_pos t5 pc e' w (PO.permP.mem_iff.mpr hmem4)
      have h5 : t5.rev_idx w = (i : Int) := by
        have := PO.inv.bij1 i (by omega) hi2
        rwa [hvi] at this
      simp only [inWinB]
      rw [decide_eq_decide]
      omega
  · simp only [inWinB]
    rw [PO.rev_frame w h4]

/-- The restore-window loop only rewrites the adjacency lists of the
child-window vertices, by one `reinsertCand` pass each. -/
theorem restoreWindow_spec (n x e : Nat) (pc lo : Nat) (cand : Nat) (t : St) :
    ∀ (cnt : Nat), x ≤ lo → lo + cnt ≤ e →
    (∀ i, x ≤ i → i < e → t.rev_idx (t.v_list i) = (i : Int)) →
    (restoreWindow pc e cand lo cnt t).v_list = t.v_list ∧
    (restoreWindow pc e cand lo cnt t).rev_idx = t.rev_idx ∧
    (restoreWindow pc e cand lo cnt t).clique = t.clique ∧
    (restoreWindow pc e cand lo cnt t).clique_count = t.clique_count ∧
    (restoreWindow pc e cand lo cnt t).track_search_tree = t.track_search_tree ∧
    (restoreWindow pc e cand lo cnt t).node_counter = t.node_counter ∧
    (restoreWindow pc e cand lo cnt t).search_tree_nodes = t.search_tree_nodes ∧
    (∀ u, u ∉ contentL t lo (lo + cnt) →
      (restoreWindow pc e cand lo cnt t).adj_list u = t.adj_list u) ∧
    (∀ k, k < cnt → (restoreWindow pc e cand lo cnt t).adj_list (t.v_list (lo + k)) =
      reinsertCand t.rev_idx pc e cand (t.adj_list (t.v_list (lo + k)))) := by
  intro cnt
  induction cnt with
  | zero =>
    intro _ _ _
    exact ⟨rfl, rfl, rfl, rfl, rfl, rfl, rfl, fun u _ => rfl, fun k hk => by omega⟩
  | succ m ih =>
    intro hlo hcnt bij1
    obtain ⟨hvl, hrev, hcl, hcc, htr, hnc, hnd, hout, hin⟩ :=
      ih hlo (by omega) bij1
    have hstep : restoreWindow pc e cand lo (m + 1) t =
        (let t' := restoreWindow pc e cand lo m t
         let u := t'.v_list (lo + m)
         { t' with adj_list := upd t'.adj_list u (reinsertCand t'.rev_idx pc e cand (t'.adj_list u)) }) := by
      unfold restoreWindow
      rw [List.range_succ, List.foldl_append, List.foldl_cons, List.foldl_nil]
    have hum : t.v_list (lo + m) ∉ contentL t lo (lo + m) := by
      intro hmem
      obtain ⟨i, hi1, hi2, hvi⟩ := (mem_contentL t lo (lo + m) _).mp hmem
      have h1 := bij1 i (by omega) (by omega)
      have h2 := bij1 (lo + m) (by omega) (by omega)
      rw [hvi, h2] at h1
      omega
    have hadjm : (restoreWindow pc e cand lo m t).adj_list (t.v_list (lo + m)) =
        t.adj_list (t.v_list (lo + m)) := hout _ hum
    rw [hstep]
    dsimp only
    rw [hvl, hrev, hadjm]
    refine ⟨rfl, rfl, hcl, hcc, htr, hnc, hnd, ?_, ?_⟩
    · intro u hu
      have humem : u ≠ t.v_list (lo + m) := by
        intro h
        apply hu
        exact (mem_contentL t lo (lo + (m + 1)) u).mpr ⟨lo + m, by omega, by omega, h.symm⟩
      rw [upd_other _ _ _ _ humem]
      apply hout
      intro hmem
      apply hu
      obtain ⟨i, hi1, hi2, hvi⟩ := (mem_contentL t lo (lo + m) u).mp hmem
      exact (mem_contentL t lo (lo + (m + 1)) u).mpr ⟨i, by omega, by omega, hvi⟩
    · intro k hk
      by_cases hkm : k = m
      · rw [hkm, upd_same]
      · have hne : t.v_list (lo + k) ≠ t.v_list (lo + m) := by
          intro h
          have h1 := bij1 (lo + k) (by omega) (by omega)
          have h2 := bij1 (lo + m) (by omega) (by omega)
          rw [h, h2] at h1
          omega
        rw [upd_other _ _ _ _ hne]
        exact hin k (by omega)

theorem inWinB_true_iff (rev : Nat → Int) (p e w : Nat) :
    inWinB rev p e w = true ↔ ((p : Int) ≤ rev w ∧ rev w < (e : Int)) := by
  simp [inWinB]

theorem inWinB_split (rev : Nat → Int) (a m b w : Nat) (h1 : a ≤ m) (h2 : m ≤ b) :
    inWinB rev a b w = (inWinB rev a m w || inWinB rev m b w) := by
  simp only [inWinB]
  rw [Bool.eq_iff_iff]
  simp only [Bool.or_eq_true, decide_eq_true_eq]
  omega

/-- One iteration of the candidate loop (lines 243–330): consuming the
branching candidate `c` advances the boundary invariant by one position and
adds the child subtree's count. -/
theorem candStep (n : Nat) (adj0 : Nat → List Nat) (hok : GraphOK n adj0) (fuel : Nat)
    (HIH : ∀ x p e depth pid cv pr s s' r,
      BKInv n adj0 x p e s →
      bron_kerbosch_pivot fuel x p e depth pid cv pr s = some (s', r) →
      BKPost n adj0 x p e pr s s' r)
    (x p e : Nat) (s : St) (hinv0 : BKInv n adj0 x p e s)
    (done : List Nat) (tot : Nat) (t : St)
    (hCI : CandInv n adj0 x p e s done tot t)
    (c : Nat) (hcP : c ∈ contentL s p e) (hcD : c ∉ done)
    (depth : Nat) (cid : Int) :
    ∀ res : St × Nat × Nat,
      (let pc := p + done.length
       let xs := (List.range (pc - x)).map (fun k => pc - 1 - k)
       let rx := restrictX pc e c xs (t, 0)
       let t1 := rx.1
       let num_x := rx.2
       let ps := (List.range (e - pc)).map (fun k => pc + k)
       let rp := restrictP pc e c ps (t1, 0)
       let t2 := rp.1
       let num_p := rp.2
       let t3 := partWindow pc e (pc + num_p) (pc - num_x) (num_x + num_p) t2
       let t4 := { t3 with clique := t3.clique ++ [c] }
       match bron_kerbosch_pivot fuel (pc - num_x) pc (pc + num_p)
           (depth + 1) cid (c : Int) false t4 with
       | none => none
       | some (t5, sub) =>
         let t6 := { t5 with clique := t5.clique.dropLast }
         let t7 := restoreWindow pc e c (pc - num_x) (num_x + num_p) t6
         let t8 := moveCandToX pc c t7
         some (t8, pc + 1, tot + sub)) = some res →
      ∃ t8 sub, res = (t8, (p + done.length) + 1, tot + sub) ∧
        CandInv n adj0 x p e s (done ++ [c]) (tot + sub) t8 ∧
        sub = mcCount n adj0 (s.clique ++ [c])
          ((contentL s p e).filter (fun w => !(decide (w ∈ done)) && decide (c ∈ adj0 w))) := by
  intro res heval
  have hinvT := hCI.inv
  have hxpT : x ≤ p + done.length := hinvT.hxp
  have hpeT : p + done.length ≤ e := hinvT.hpe
  have hcT : c ∈ contentL t (p + done.length) e :=
    hCI.permP.mem_iff.mpr (List.mem_filter.mpr ⟨hcP, by simpa using hcD⟩)
  obtain ⟨t1, num_x, t2, num_p, hrxeq, hrpeq, M1, M2, hnx, hnp, hsel2, hselX, hothX, hoth2,
    ⟨qc, hq1, hq2, hvqc, hrevc⟩⟩ :=
    childSetup n adj0 hok x (p + done.length) e t hinvT c hcT
  dsimp only at heval
  rw [hrxeq] at heval
  dsimp only at heval
  rw [hrpeq] at heval
  dsimp only at heval
  have hinv4 : BKInv n adj0 (p + done.length - num_x) (p + done.length)
      (p + done.length + num_p)
      { partWindow (p + done.length) e (p + done.length + num_p)
          (p + done.length - num_x) (num_x + num_p) t2 with
        clique := (partWindow (p + done.length) e (p + done.length + num_p)
          (p + done.length - num_x) (num_x + num_p) t2).clique ++ [c] } :=
    childInv n adj0 hok x (p + done.length) e t hinvT c hcT t1 num_x t2 num_p M1 M2
      hnx hnp hsel2 hselX hothX hoth2
  cases hchild : bron_kerbosch_pivot fuel (p + done.length - num_x) (p + done.length)
      (p + done.length + num_p) (depth + 1) cid (c : Int) false
      { partWindow (p + done.length) e (p + done.length + num_p)
          (p + done.length - num_x) (num_x + num_p) t2 with
        clique := (partWindow (p + done.length) e (p + done.length + num_p)
          (p + done.length - num_x) (num_x + num_p) t2).clique ++ [c] } with
  | none =>
    rw [hchild] at heval
    simp at heval
  | some res5 =>
    obtain ⟨t5, sub⟩ := res5
    rw [hchild] at heval
    dsimp only at heval
    have hres := (Option.some.inj heval).symm
    have PO := HIH _ _ _ _ _ _ _ _ _ _ hinv4 hchild
    set pc := p + done.length with hpc
    set t3 := partWindow pc e (pc + num_p) (pc - num_x) (num_x + num_p) t2 with ht3
    set t4 : St := { t3 with clique := t3.clique ++ [c] } with ht4
    set t6 : St := { t5 with clique := t5.clique.dropLast } with ht6
    set t7 := restoreWindow pc e c (pc - num_x) (num_x + num_p) t6 with ht7
    set t8 := moveCandToX pc c t7 with ht8
    -- chain facts through the restriction loops
    have hclT : t.clique = s.clique := hCI.cl_eq
    have hadj2 : t2.adj_list = t.adj_list := M2.adj_eq.trans M1.adj_eq
    have hcl2 : t2.clique = t.clique := M2.cl_eq.trans M1.cl_eq
    have hcc2 : t2.clique_count = t.clique_count := M2.cc_eq.trans M1.cc_eq
    have htr2 : t2.track_search_tree = t.track_search_tree := M2.tr_eq.trans M1.tr_eq
    have hwin2 : ∀ w, inWinB t2.rev_idx pc e w = inWinB t.rev_idx pc e w :=
      fun w => (M2.win_pres w).trans (M1.win_pres w)
    have hxwin2 : ∀ w, inWinB t2.rev_idx x pc w = inWinB t.rev_idx x pc w := by
      intro w
      by_cases h : (pc : Int) ≤ t1.rev_idx w ∧ t1.rev_idx w < (e : Int)
      · have ht1w : inWinB t1.rev_idx pc e w = true := (inWinB_true_iff _ _ _ _).mpr h
        have ht2w := (inWinB_true_iff t2.rev_idx pc e w).mp ((M2.win_pres w).trans ht1w)
        have hx2 : inWinB t2.rev_idx x pc w = false := by
          simp only [inWinB, decide_eq_false_iff_not]
          omega
        have hx1 : inWinB t1.rev_idx x pc w = false := by
          simp only [inWinB, decide_eq_false_iff_not]
          omega
        rw [hx2, ← M1.xwin w, hx1]
      · have hfr := M2.rev_frame w h
        have hx1 := M1.xwin w
        simp only [inWinB] at hx1 ⊢
        rw [hfr]
        exact hx1
    have hxe2 : ∀ w, inWinB t2.rev_idx x e w = inWinB t.rev_idx x e w := by
      intro w
      rw [inWinB_split t2.rev_idx x pc e w hxpT hpeT,
        inWinB_split t.rev_idx x pc e w hxpT hpeT, hxwin2 w, hwin2 w]
    have hXperm2 : List.Perm (contentL t2 x pc) (contentL t x pc) := by
      rw [contentL_append t2 x (pc - num_x) pc (by omega) (by omega)]
      exact (hothX.append hselX).trans
        (List.perm_append_comm.trans (List.filter_append_perm _ _))
    have hPperm2 : List.Perm (contentL t2 pc e) (contentL t pc e) := by
      rw [contentL_append t2 pc (pc + num_p) e (by omega) (by omega), hsel2]
      exact (List.Perm.append (List.Perm.refl _) hoth2).trans (List.filter_append_perm _ _)
    have hrb2 : ∀ w, (x : Int) ≤ t2.rev_idx w → t2.rev_idx w < (e : Int) → w < n := by
      intro w h1 h2
      by_cases hT : (x : Int) ≤ t.rev_idx w ∧ t.rev_idx w < (e : Int)
      · exact hinvT.rev_bound w hT.1 hT.2
      · have hxw : ¬ ((x : Int) ≤ t.rev_idx w ∧ t.rev_idx w < (pc : Int)) := by
          intro h
          refine hT ⟨h.1, lt_of_lt_of_le h.2 ?_⟩
          exact_mod_cast hpeT
        have h1' := M1.rev_frame w hxw
        have hpw : ¬ ((pc : Int) ≤ t1.rev_idx w ∧ t1.rev_idx w < (e : Int)) := by
          rw [h1']
          intro h
          refine hT ⟨le_trans ?_ h.1, h.2⟩
          exact_mod_cast hxpT
        have h2' := M2.rev_frame w hpw
        rw [h2', h1'] at h1 h2
        exact absurd ⟨h1, h2⟩ hT
    -- partition loop facts
    obtain ⟨hvl3, hrev3, hcl3, hcc3, htr3, hnc3, hnd3, hout3, hin3⟩ :=
      partWindow_spec n x e pc (pc + num_p) (pc - num_x) t2 (num_x + num_p)
        (by omega) (by omega) M2.bij1
    have hvl4 : t4.v_list = t2.v_list := hvl3
    have hrev4 : t4.rev_idx = t2.rev_idx := hrev3
    have hadj4 : t4.adj_list = t3.adj_list := rfl
    have hcl4 : t4.clique = s.clique ++ [c] := by
      show t3.clique ++ [c] = _
      rw [hcl3, hcl2, hclT]
    have hcc4 : t4.clique_count = s.clique_count + tot := by
      show t3.clique_count = _
      rw [hcc3, hcc2, hCI.cc_eq]
    have htr4 : t4.track_search_tree = s.track_search_tree := by
      show t3.track_search_tree = _
      rw [htr3, htr2, hCI.tr_eq]
    -- window preservation across the child call
    have hw5_pe : ∀ w, inWinB t5.rev_idx pc e w = inWinB t4.rev_idx pc e w :=
      child_win_pres n adj0 (pc - num_x) pc (pc + num_p) false t4 t5 sub hinv4 PO pc e
        (Or.inr (Or.inr (le_refl _))) (Or.inl ⟨le_refl _, by omega⟩)
    have hw5_xpc : ∀ w, inWinB t5.rev_idx x pc w = inWinB t4.rev_idx x pc w :=
      child_win_pres n adj0 (pc - num_x) pc (pc + num_p) false t4 t5 sub hinv4 PO x pc
        (Or.inl ⟨by omega, le_refl _⟩) (Or.inr (Or.inl (le_refl _)))
    have hw5_xe : ∀ w, inWinB t5.rev_idx x e w = inWinB t4.rev_idx x e w :=
      child_win_pres n adj0 (pc - num_x) pc (pc + num_p) false t4 t5 sub hinv4 PO x e
        (Or.inl ⟨by omega, by omega⟩) (Or.inl ⟨by omega, by omega⟩)
    -- full-window bijection at t5
    have hpce : pc < e := by omega
    have hbij1_5 : ∀ i, x ≤ i → i < e → t5.rev_idx (t5.v_list i) = (i : Int) := by
      intro i h1 h2
      by_cases hiw : pc - num_x ≤ i ∧ i < pc + num_p
      · exact PO.inv.bij1 i hiw.1 hiw.2
      · have hvli : t5.v_list i = t4.v_list i := PO.vl_frame i (by omega)
        have hb4 : t4.rev_idx (t4.v_list i) = (i : Int) := by
          rw [congrFun hvl4 i, congrFun hrev4 (t2.v_list i)]
          exact M2.bij1 i h1 h2
        rw [hvli, PO.rev_frame _ (by rw [hb4]; push_cast; omega)]
        exact hb4
    have hbij2_5 : ∀ w, w < n → (x : Int) ≤ t5.rev_idx w → t5.rev_idx w < (e : Int) →
        t5.v_list (t5.rev_idx w).toNat = w := by
      intro w hw h1 h2
      by_cases h5w : ((pc - num_x : Nat) : Int) ≤ t5.rev_idx w ∧
          t5.rev_idx w < ((pc + num_p : Nat) : Int)
      · exact PO.inv.bij2 w hw h5w.1 h5w.2
      · have h4w : ¬ (((pc - num_x : Nat) : Int) ≤ t4.rev_idx w ∧
            t4.rev_idx w < ((pc + num_p : Nat) : Int)) := by
          intro hc4
          have hv4 := hinv4.bij2 w hw hc4.1 hc4.2
          by_cases hcx : t4.rev_idx w < (pc : Int)
          · have hmem4 : w ∈ contentL t4 (pc - num_x) pc :=
              (mem_contentL t4 (pc - num_x) pc w).mpr
                ⟨(t4.rev_idx w).toNat, by omega, by omega, hv4⟩
            obtain ⟨i, hi1, hi2, hvi⟩ :=
              contentL_pos t5 (pc - num_x) pc w (PO.permX.mem_iff.mpr hmem4)
            have h5 : t5.rev_idx w = (i : Int) := by
              have := PO.inv.bij1 i hi1 (by omega)
              rwa [hvi] at this
            rw [h5] at h5w
            refine h5w ⟨?_, ?_⟩ <;> (push_cast; omega)
          · have hmem4 : w ∈ contentL t4 pc (pc + num_p) :=
              (mem_contentL t4 pc (pc + num_p) w).mpr
                ⟨(t4.rev_idx w).toNat, by omega, by omega, hv4⟩
            obtain ⟨i, hi1, hi2, hvi⟩ :=
              contentL_pos t5 pc (pc + num_p) w (PO.permP.mem_iff.mpr hmem4)
            have h5 : t5.rev_idx w = (i : Int) := by
              have := PO.inv.bij1 i (by omega) hi2
              rwa [hvi] at this
            rw [h5] at h5w
            refine h5w ⟨?_, ?_⟩ <;> (push_cast; omega)
        have hfr := PO.rev_frame w h4w
        rw [hfr] at h1 h2 ⊢
        have hb2 : t4.rev_idx w = t2.rev_idx w := congrFun hrev4 w
        rw [hb2] at h1 h2 ⊢
        have hv2 := M2.bij2 w hw h1 h2
        have hpos : ¬ (pc - num_x ≤ (t2.rev_idx w).toNat ∧
            (t2.rev_idx w).toNat < pc + num_p) := by
          intro hcc
          refine h4w ⟨?_, ?_⟩ <;> (rw [hb2]; push_cast; omega)
        rw [PO.vl_frame _ (by omega), congrFun hvl4 _]
        exact hv2
    have hrb5 : ∀ w, (x : Int) ≤ t5.rev_idx w → t5.rev_idx w < (e : Int) → w < n := by
      intro w h1 h2
      by_cases h4 : ((pc - num_x : Nat) : Int) ≤ t4.rev_idx w ∧
          t4.rev_idx w < ((pc + num_p : Nat) : Int)
      · exact hinv4.rev_bound w h4.1 h4.2
      · have hfr := PO.rev_frame w h4
        rw [hfr, congrFun hrev4 w] at h1 h2
        exact hrb2 w h1 h2
    -- t6 facts (identical to t5 except the clique)
    have hvl6 : t6.v_list = t5.v_list := rfl
    have hrev6 : t6.rev_idx = t5.rev_idx := rfl
    have hadj6 : t6.adj_list = t5.adj_list := rfl
    have hcl6 : t6.clique = s.clique := by
      show t5.clique.dropLast = _
      rw [PO.cl_eq, hcl4]
      simp
    -- restore loop facts
    obtain ⟨hvl7, hrev7, hcl7, hcc7, htr7, hnc7, hnd7, hout7, hin7⟩ :=
      restoreWindow_spec n x e pc (pc - num_x) c t6 (num_x + num_p)
        (by omega) (by omega) (fun i h1 h2 => hbij1_5 i h1 h2)
    -- position of the candidate after the child call
    have hrevc5 : t5.rev_idx c = (qc : Int) := by
      rw [PO.rev_frame c (by rw [congrFun hrev4 c, hrevc]; push_cast; omega)]
      rw [congrFun hrev4 c]
      exact hrevc
    have hvqc5 : t5.v_list qc = c := by
      rw [PO.vl_frame qc (Or.inr (by omega)), congrFun hvl4 qc]
      exact hvqc
    have hbij1_7 : ∀ i, x ≤ i → i < e → t7.rev_idx (t7.v_list i) = (i : Int) := by
      intro i h1 h2
      rw [congrFun hvl7 i, congrFun hrev7 _]
      exact hbij1_5 i h1 h2
    have hbij2_7 : ∀ w, w < n → (x : Int) ≤ t7.rev_idx w → t7.rev_idx w < (e : Int) →
        t7.v_list (t7.rev_idx w).toNat = w := by
      intro w hw h1 h2
      rw [congrFun hrev7 w] at h1 h2 ⊢
      rw [congrFun hvl7 _]
      exact hbij2_5 w hw h1 h2
    -- the final move is a swap of positions qc and pc
    have hmove : t8 = swapSt t7 qc pc := by
      rw [ht8]
      exact moveCandToX_eq_swapSt pc c t7 qc
        (by rw [congrFun hrev7 c]; exact hrevc5)
        (by rw [congrFun hvl7 qc]; exact hvqc5)
        (hbij1_7 pc (by omega) hpce)
    obtain ⟨b1_8, b2_8, vlo8, revo8, hvt8, hrj8, hvj8, hrt8⟩ :=
      swapSt_spec n x e t7 qc pc (by omega) hq2 (by omega) hpce hbij1_7 hbij2_7
    have hv8pc : t8.v_list pc = c := by
      rw [hmove, hvt8, congrFun hvl7 qc]
      exact hvqc5
    have hrev8c : t8.rev_idx c = (pc : Int) := by
      have := hrj8
      rw [congrFun hvl7 qc, hvqc5] at this
      rw [hmove]
      exact this
    -- content permutations for the new boundary
    have hcontent5_xpc : List.Perm (contentL t5 x pc) (contentL t2 x pc) := by
      rw [contentL_append t5 x (pc - num_x) pc (by omega) (by omega),
          contentL_append t2 x (pc - num_x) pc (by omega) (by omega)]
      refine List.Perm.append (List.Perm.of_eq ?_) ?_
      · refine contentL_congr _ _ _ _ ?_
        intro i hi1 hi2
        rw [PO.vl_frame i (Or.inl (by omega)), congrFun hvl4 i]
      · refine PO.permX.trans (List.Perm.of_eq (contentL_congr _ _ _ _ ?_))
        intro i _ _
        exact congrFun hvl4 i
    have hcontent5_pce : List.Perm (contentL t5 pc e) (contentL t2 pc e) := by
      rw [contentL_append t5 pc (pc + num_p) e (by omega) (by omega),
          contentL_append t2 pc (pc + num_p) e (by omega) (by omega)]
      refine List.Perm.append ?_ (List.Perm.of_eq ?_)
      · refine PO.permP.trans (List.Perm.of_eq (contentL_congr _ _ _ _ ?_))
        intro i _ _
        exact congrFun hvl4 i
      · refine contentL_congr _ _ _ _ ?_
        intro i hi1 hi2
        rw [PO.vl_frame i (Or.inr (by omega)), congrFun hvl4 i]
    have hC8X : List.Perm (contentL t8 x (pc + 1)) (contentL s x p ++ (done ++ [c])) := by
      rw [contentL_succ_right t8 x pc (by omega), hv8pc]
      have h8 : contentL t8 x pc = contentL t7 x pc := by
        apply contentL_congr
        intro i hi1 hi2
        rw [hmove]
        exact vlo8 i (by omega) (by omega)
      have h7 : contentL t7 x pc = contentL t5 x pc :=
        contentL_congr _ _ _ _ (fun i _ _ => congrFun hvl7 i)
      rw [h8, h7]
      refine (List.Perm.append_right [c]
        ((hcontent5_xpc.trans hXperm2).trans hCI.permX)).trans ?_
      exact List.Perm.of_eq (List.append_assoc _ _ _)
    have hnodupP : ((contentL s p e).filter (fun w => !(decide (w ∈ done)))).Nodup :=
      (contentL_nodup s x p e e hinv0.hxp (le_refl _) hinv0.bij1).filter _
    have hC8P : List.Perm (contentL t8 (pc + 1) e)
        ((contentL s p e).filter (fun w => !(decide (w ∈ done ++ [c])))) := by
      have hc_cons : c :: contentL t8 (pc + 1) e = contentL t8 pc e := by
        rw [contentL_cons_left t8 pc e hpce, hv8pc]
      have hperm8 : List.Perm (contentL t8 pc e) (contentL t7 pc e) := by
        rw [hmove]
        exact swapSt_contentL_perm t7 qc pc pc e (by omega) hq2 (le_refl _) hpce
      have h7 : contentL t7 pc e = contentL t5 pc e :=
        contentL_congr _ _ _ _ (fun i _ _ => congrFun hvl7 i)
      have hbig : List.Perm (c :: contentL t8 (pc + 1) e)
          ((contentL s p e).filter (fun w => !(decide (w ∈ done)))) := by
        rw [hc_cons]
        exact ((hperm8.trans (List.Perm.of_eq h7)).trans hcontent5_pce).trans
          (hPperm2.trans hCI.permP)
      have hcons := (List.cons_perm_iff_perm_erase.mp hbig).2
      refine hcons.trans ?_
      rw [List.Nodup.erase_eq_filter hnodupP c, List.filter_filter]
      apply List.Perm.of_eq
      apply List.filter_congr
      intro w _
      by_cases h1 : w = c <;> by_cases h2 : w ∈ done <;> simp [h1, h2]
    -- frames
    have hvlf8 : ∀ i, i < x ∨ e ≤ i → t8.v_list i = s.v_list i := by
      intro i hi
      rw [hmove, vlo8 i (by omega) (by omega), congrFun hvl7 i,
        PO.vl_frame i (by omega), congrFun hvl4 i,
        M2.vl_frame i (by omega), M1.vl_frame i (by omega)]
      exact hCI.vl_frame i hi
    have hrev7s : ∀ w, ¬ ((x : Int) ≤ s.rev_idx w ∧ s.rev_idx w < (e : Int)) →
        t7.rev_idx w = s.rev_idx w := by
      intro w hw
      have hT := hCI.rev_frame w hw
      have hc1 : ¬ ((x : Int) ≤ t.rev_idx w ∧ t.rev_idx w < (pc : Int)) := by
        rw [hT]
        intro h
        exact hw ⟨h.1, lt_of_lt_of_le h.2 (by exact_mod_cast hpeT)⟩
      have h1 : t1.rev_idx w = s.rev_idx w := (M1.rev_frame w hc1).trans hT
      have hc2 : ¬ ((pc : Int) ≤ t1.rev_idx w ∧ t1.rev_idx w < (e : Int)) := by
        rw [h1]
        intro h
        exact hw ⟨le_trans (by exact_mod_cast hxpT) h.1, h.2⟩
      have h2 : t2.rev_idx w = s.rev_idx w := (M2.rev_frame w hc2).trans h1
      have hc5 : ¬ (((pc - num_x : Nat) : Int) ≤ t4.rev_idx w ∧
          t4.rev_idx w < ((pc + num_p : Nat) : Int)) := by
        rw [congrFun hrev4 w, h2]
        intro h
        refine hw ⟨le_trans ?_ h.1, lt_of_lt_of_le h.2 ?_⟩
        · exact_mod_cast (by omega : x ≤ pc - num_x)
        · exact_mod_cast (by omega : pc + num_p ≤ e)
      have h5 : t5.rev_idx w = s.rev_idx w := by
        rw [PO.rev_frame w hc5, congrFun hrev4 w]
        exact h2
      rw [congrFun hrev7 w]
      exact h5
    have hrevf8 : ∀ w, ¬ ((x : Int) ≤ s.rev_idx w ∧ s.rev_idx w < (e : Int)) →
        t8.rev_idx w = s.rev_idx w := by
      intro w hw
      have h7 := hrev7s w hw
      have hwc : w ≠ c := by
        intro h
        obtain ⟨j, hj1, hj2, hvj⟩ := contentL_pos s p e c hcP
        have hxp0 : x ≤ p := hinv0.hxp
        have hbj := hinv0.bij1 j (le_trans hinv0.hxp hj1) hj2
        rw [hvj] at hbj
        rw [h] at hw
        refine hw ⟨?_, ?_⟩ <;> (rw [hbj]; push_cast; omega)
      have hww0 : w ≠ t7.v_list pc := by
        intro h
        have hbp := hbij1_7 pc (by omega) hpce
        rw [← h] at hbp
        rw [h7] at hbp
        refine hw ⟨?_, ?_⟩ <;> (rw [hbp]; push_cast; omega)
      have hwq : w ≠ t7.v_list qc := by
        rw [congrFun hvl7 qc, hvqc5]
        exact hwc
      rw [hmove, revo8 w hwq hww0]
      exact h7
    -- window membership chains
    have hwin7 : ∀ w, inWinB t7.rev_idx pc e w = inWinB t.rev_idx pc e w := by
      intro w
      rw [hrev7]
      show inWinB t5.rev_idx pc e w = _
      rw [hw5_pe w, hrev4]
      exact hwin2 w
    have hwinx7 : ∀ w, inWinB t7.rev_idx x pc w = inWinB t.rev_idx x pc w := by
      intro w
      rw [hrev7]
      show inWinB t5.rev_idx x pc w = _
      rw [hw5_xpc w, hrev4]
      exact hxwin2 w
    -- transfer of full-window membership back to the loop entry state
    have hmemTS : ∀ u, u ∈ contentL t x e → u ∈ contentL s x e := by
      intro u hu
      obtain ⟨i, hi1, hi2, hvi⟩ := contentL_pos t x e u hu
      have hrevt : t.rev_idx u = (i : Int) := by
        have := hinvT.bij1 i hi1 hi2
        rwa [hvi] at this
      have hs : (x : Int) ≤ s.rev_idx u ∧ s.rev_idx u < (e : Int) := by
        by_contra hns
        have hfr := hCI.rev_frame u hns
        rw [hfr] at hrevt
        refine hns ⟨?_, ?_⟩ <;> (rw [hrevt]; push_cast; omega)
      have hun : u < n := hinv0.rev_bound u hs.1 hs.2
      have hv := hinv0.bij2 u hun hs.1 hs.2
      refine (mem_contentL s x e u).mpr ⟨(s.rev_idx u).toNat, ?_, ?_, hv⟩ <;> omega
    have hXE2 : List.Perm (contentL t2 x e) (contentL t x e) := by
      rw [contentL_append t2 x pc e hxpT hpeT, contentL_append t x pc e hxpT hpeT]
      exact hXperm2.append hPperm2
    have hCWperm : List.Perm (contentL t5 (pc - num_x) (pc + num_p))
        (contentL t2 (pc - num_x) (pc + num_p)) := by
      rw [contentL_append t5 (pc - num_x) pc (pc + num_p) (by omega) (by omega),
          contentL_append t2 (pc - num_x) pc (pc + num_p) (by omega) (by omega)]
      refine List.Perm.append ?_ ?_
      · exact PO.permX.trans (List.Perm.of_eq (contentL_congr _ _ _ _
          (fun i _ _ => congrFun hvl4 i)))
      · exact PO.permP.trans (List.Perm.of_eq (contentL_congr _ _ _ _
          (fun i _ _ => congrFun hvl4 i)))
    have hadj_of_CW : ∀ u, u ∈ contentL t2 (pc - num_x) (pc + num_p) →
        c ∈ t.adj_list u := by
      intro u hu
      rw [contentL_append t2 (pc - num_x) pc (pc + num_p) (by omega) (by omega)] at hu
      rcases List.mem_append.mp hu with hu | hu
      · exact of_decide_eq_true (List.mem_filter.mp (hselX.mem_iff.mp hu)).2
      · rw [hsel2] at hu
        exact of_decide_eq_true (List.mem_filter.mp hu).2
    have hCW_of_adj : ∀ u, u ∈ contentL t x e → c ∈ t.adj_list u →
        u ∈ contentL t2 (pc - num_x) (pc + num_p) := by
      intro u hu hc
      rw [contentL_append t x pc e hxpT hpeT] at hu
      rw [contentL_append t2 (pc - num_x) pc (pc + num_p) (by omega) (by omega)]
      rcases List.mem_append.mp hu with hu | hu
      · exact List.mem_append.mpr (Or.inl (hselX.mem_iff.mpr
          (List.mem_filter.mpr ⟨hu, decide_eq_true hc⟩)))
      · refine List.mem_append.mpr (Or.inr ?_)
        rw [hsel2]
        exact List.mem_filter.mpr ⟨hu, decide_eq_true hc⟩
    -- adjacency of vertices outside the child window is untouched
    have hadj8_out : ∀ u, u ∉ contentL t2 (pc - num_x) (pc + num_p) →
        t8.adj_list u = t.adj_list u := by
      intro u hu
      have h3 : t3.adj_list u = t2.adj_list u := by
        apply hout3
        rw [show pc - num_x + (num_x + num_p) = pc + num_p from by omega]
        exact hu
      have h5 : t5.adj_list u = t4.adj_list u := by
        apply PO.adj_out
        intro hmem
        apply hu
        rw [contentL_congr t4 t2 (pc - num_x) (pc + num_p)
          (fun i _ _ => congrFun hvl4 i)] at hmem
        exact hmem
      have h7 : t7.adj_list u = t6.adj_list u := by
        apply hout7
        rw [show pc - num_x + (num_x + num_p) = pc + num_p from by omega]
        intro hmem
        exact hu (hCWperm.mem_iff.mp hmem)
      rw [hmove]
      show t7.adj_list u = t.adj_list u
      rw [h7]
      show t5.adj_list u = _
      rw [h5]
      show t3.adj_list u = _
      rw [h3, hadj2]
    -- window flags and boundedness at the final state
    have hwin5t : ∀ w, inWinB t5.rev_idx pc e w = inWinB t.rev_idx pc e w := by
      intro w
      rw [hw5_pe w, hrev4]
      exact hwin2 w
    have hbig7 : List.Perm (contentL t7 x e) (contentL t x e) := by
      have h7 : contentL t7 x e = contentL t5 x e :=
        contentL_congr _ _ _ _ (fun i _ _ => congrFun hvl7 i)
      rw [h7, contentL_append t5 x pc e hxpT hpeT]
      refine (List.Perm.append hcontent5_xpc hcontent5_pce).trans ?_
      rw [← contentL_append t2 x pc e hxpT hpeT]
      exact hXE2
    have hbig8 : List.Perm (contentL t8 x e) (contentL t x e) := by
      refine List.Perm.trans ?_ hbig7
      rw [hmove]
      exact swapSt_contentL_perm t7 qc pc x e (by omega) hq2 hxpT hpce
    have hbij1_8 : ∀ i, x ≤ i → i < e → t8.rev_idx (t8.v_list i) = (i : Int) := by
      intro i h1 h2
      rw [hmove]
      exact b1_8 i h1 h2
    have hbij2_8 : ∀ w, w < n → (x : Int) ≤ t8.rev_idx w → t8.rev_idx w < (e : Int) →
        t8.v_list (t8.rev_idx w).toNat = w := by
      intro w hw h1 h2
      rw [hmove] at h1 h2 ⊢
      exact b2_8 w hw h1 h2
    have hvlt8 : ∀ i, x ≤ i → i < e → t8.v_list i < n := by
      intro i h1 h2
      have hm : t8.v_list i ∈ contentL t x e :=
        hbig8.mem_iff.mp ((mem_contentL t8 x e _).mpr ⟨i, h1, h2, rfl⟩)
      obtain ⟨j, hj1, hj2, hvj⟩ := contentL_pos t x e _ hm
      rw [← hvj]
      exact hinvT.vlt j hj1 hj2
    have hcn : c < n := by
      obtain ⟨j, hj1, hj2, hvj⟩ := contentL_pos s p e c hcP
      rw [← hvj]
      exact hinv0.vlt j (le_trans hinv0.hxp hj1) hj2
    have hrb8 : ∀ w, (x : Int) ≤ t8.rev_idx w → t8.rev_idx w < (e : Int) → w < n := by
      intro w h1 h2
      by_cases hwc : w = c
      · rw [hwc]
        exact hcn
      by_cases hww0 : w = t7.v_list pc
      · rw [hww0]
        have hm : t7.v_list pc ∈ contentL t x e :=
          hbig7.mem_iff.mp ((mem_contentL t7 x e _).mpr ⟨pc, hxpT, hpce, rfl⟩)
        obtain ⟨j, hj1, hj2, hvj⟩ := contentL_pos t x e _ hm
        rw [← hvj]
        exact hinvT.vlt j hj1 hj2
      · have hwq : w ≠ t7.v_list qc := by
          rw [congrFun hvl7 qc, hvqc5]
          exact hwc
        rw [hmove, revo8 w hwq hww0, congrFun hrev7 w] at h1 h2
        exact hrb5 w h1 h2
    have hin8 : ∀ w, w < n → w ≠ c → inWinB t5.rev_idx pc e w = true →
        inWinB t8.rev_idx (pc + 1) e w = true := by
      intro w hwn hwc hw5
      have hm5 : w ∈ contentL t5 pc e :=
        mem_contentL_of_win n t5 x pc e hxpT hbij2_5 w hwn hw5
      have hmT : w ∈ contentL t pc e :=
        hPperm2.mem_iff.mp (hcontent5_pce.mem_iff.mp hm5)
      have hmS := List.mem_filter.mp (hCI.permP.mem_iff.mp hmT)
      have hwd : w ∉ done := by simpa using hmS.2
      have hm8 : w ∈ contentL t8 (pc + 1) e := by
        apply hC8P.mem_iff.mpr
        refine List.mem_filter.mpr ⟨hmS.1, ?_⟩
        simp [List.mem_append, hwd, hwc]
      exact inWin_of_mem_contentL t8 x (pc + 1) e (by omega) hbij1_8 w hm8
    have hout8 : ∀ w, inWinB t.rev_idx pc e w = false →
        inWinB t8.rev_idx (pc + 1) e w = false := by
      intro w hwf
      by_contra hcon
      simp only [Bool.not_eq_false] at hcon
      have hw8 := (inWinB_true_iff _ _ _ _).mp hcon
      have hwn : w < n := hrb8 w
        (le_trans (by exact_mod_cast (by omega : x ≤ pc + 1)) hw8.1) hw8.2
      have hm8 : w ∈ contentL t8 (pc + 1) e :=
        mem_contentL_of_win n t8 x (pc + 1) e (by omega) hbij2_8 w hwn hcon
      have hf := List.mem_filter.mp (hC8P.mem_iff.mp hm8)
      have hwd : w ∉ done ++ [c] := by simpa using hf.2
      simp only [List.mem_append, List.mem_singleton, not_or] at hwd
      have hmT : w ∈ contentL t pc e := hCI.permP.mem_iff.mpr
        (List.mem_filter.mpr ⟨hf.1, by simp [hwd.1]⟩)
      have h2 := inWin_of_mem_contentL t x pc e hxpT hinvT.bij1 w hmT
      rw [hwf] at h2
      exact Bool.false_ne_true h2
    have hmemST : ∀ v, v ∈ contentL s x e → v ∈ contentL t x e := by
      intro v hv
      rw [contentL_append s x p e hinv0.hxp hinv0.hpe] at hv
      rw [contentL_append t x pc e hxpT hpeT]
      rcases List.mem_append.mp hv with hv | hv
      · exact List.mem_append.mpr (Or.inl (hCI.permX.mem_iff.mpr
          (List.mem_append.mpr (Or.inl hv))))
      · by_cases hd : v ∈ done
        · exact List.mem_append.mpr (Or.inl (hCI.permX.mem_iff.mpr
            (List.mem_append.mpr (Or.inr hd))))
        · exact List.mem_append.mpr (Or.inr (hCI.permP.mem_iff.mpr
            (List.mem_filter.mpr ⟨hv, by simpa using hd⟩)))
    -- the adjacency-prefix property at the new loop boundary
    have hadj_pre8 : ∀ u, u ∈ contentL s x e → ∀ a b, s.adj_list u = a ++ b →
        (∀ w ∈ a, inWinB s.rev_idx p e w = true) →
        (∀ w ∈ b, inWinB s.rev_idx p e w = false) →
        ∃ a2, t8.adj_list u = a2 ++ b ∧ List.Perm a2 a ∧
          SplitWin t8.rev_idx (pc + 1) e a2 := by
      intro u hu a b hab ha hb
      obtain ⟨a2, hta, hpa2, hsw2⟩ := hCI.adj_pre u hu a b hab ha hb
      obtain ⟨a21, a22, ha2eq, h21, h22⟩ := hsw2
      have hnda : (a2 ++ b).Nodup := by
        rw [← hta]
        exact ((hinvT.perm u).nodup_iff).mpr (hok.nodup u)
      have hallb : ∀ w ∈ a2 ++ b, w < n := by
        intro w hw
        rw [← hta] at hw
        exact (hok.bound u w ((hinvT.perm u).mem_iff.mp hw)).1
      have hxp0 : x ≤ p := hinv0.hxp
      have hbout_t : ∀ w ∈ b, inWinB t.rev_idx pc e w = false := by
        intro w hw
        have hwf := hb w hw
        have hwn : w < n := hallb w (List.mem_append.mpr (Or.inr hw))
        simp only [inWinB, decide_eq_false_iff_not] at hwf
        by_cases hsx : (x : Int) ≤ s.rev_idx w ∧ s.rev_idx w < (e : Int)
        · have hv := hinv0.bij2 w hwn hsx.1 hsx.2
          have hmem : w ∈ contentL s x p :=
            (mem_contentL s x p w).mpr ⟨(s.rev_idx w).toNat, by omega, by omega, hv⟩
          have hmemt : w ∈ contentL t x pc :=
            hCI.permX.mem_iff.mpr (List.mem_append.mpr (Or.inl hmem))
          obtain ⟨i, hi1, hi2, hvi⟩ := contentL_pos t x pc w hmemt
          have hbi := hinvT.bij1 i hi1 (by omega)
          rw [hvi] at hbi
          simp only [inWinB, hbi, decide_eq_false_iff_not]
          push_cast
          omega
        · have hfr := hCI.rev_frame w hsx
          simp only [inWinB, hfr, decide_eq_false_iff_not]
          intro hcc
          exact hsx ⟨le_trans (by exact_mod_cast hxpT) hcc.1, hcc.2⟩
      by_cases hucw : u ∈ contentL t2 (pc - num_x) (pc + num_p)
      case neg =>
        have hcnot : c ∉ t.adj_list u := fun hc => hucw (hCW_of_adj u (hmemST u hu) hc)
        have htadj8 : t8.adj_list u = t.adj_list u := hadj8_out u hucw
        refine ⟨a2, by rw [htadj8, hta], hpa2, a21, a22, ha2eq, ?_, ?_⟩
        · intro w hw
          have hw2 : w ∈ a2 := by
            rw [ha2eq]
            exact List.mem_append.mpr (Or.inl hw)
          have hwn : w < n := hallb w (List.mem_append.mpr (Or.inl hw2))
          have hwc : w ≠ c := by
            intro hh
            apply hcnot
            rw [hta]
            exact List.mem_append.mpr (Or.inl (hh ▸ hw2))
          apply hin8 w hwn hwc
          rw [hwin5t w]
          exact h21 w hw
        · intro w hw
          exact hout8 w (h22 w hw)
      case pos =>
        have hcadj : c ∈ t.adj_list u := hadj_of_CW u hucw
        have hcwt : inWinB t.rev_idx pc e c = true :=
          inWin_of_mem_contentL t x pc e hxpT hinvT.bij1 c hcT
        have hca21 : c ∈ a21 := by
          have hca : c ∈ a2 ++ b := by
            rw [← hta]
            exact hcadj
          rcases List.mem_append.mp hca with hx1 | hx1
          · rw [ha2eq] at hx1
            rcases List.mem_append.mp hx1 with hx2 | hx2
            · exact hx2
            · rw [h22 c hx2] at hcwt
              exact absurd hcwt Bool.false_ne_true
          · rw [hbout_t c hx1] at hcwt
            exact absurd hcwt Bool.false_ne_true
        obtain ⟨iu, hiu1, hiu2, hviu⟩ := contentL_pos t2 (pc - num_x) (pc + num_p) u hucw
        have hk := hin3 (iu - (pc - num_x)) (by omega)
        rw [show pc - num_x + (iu - (pc - num_x)) = iu from by omega, hviu] at hk
        have htadj2 : t2.adj_list u = a21 ++ (a22 ++ b) := by
          rw [hadj2, hta, ha2eq, List.append_assoc]
        have h21' : ∀ w ∈ a21, inWinB t2.rev_idx pc e w = true := by
          intro w hw
          rw [hwin2 w]
          exact h21 w hw
        have h22b' : ∀ w ∈ a22 ++ b, inWinB t2.rev_idx pc e w = false := by
          intro w hw
          rw [hwin2 w]
          rcases List.mem_append.mp hw with hw | hw
          · exact h22 w hw
          · exact hbout_t w hw
        obtain ⟨pre2, mid2, hps, hpp2, hpm2, hq1p, hq2p⟩ :=
          partScan_spec t2.rev_idx pc e (pc + num_p) a21 (a22 ++ b) (by omega) h21' h22b'
        rw [htadj2, hps] at hk
        have hu4 : u ∈ contentL t4 (pc - num_x) (pc + num_p) := by
          rw [contentL_congr t4 t2 _ _ (fun i _ _ => congrFun hvl4 i)]
          exact hucw
        have hpre4 : ∀ w ∈ pre2, inWinB t4.rev_idx pc (pc + num_p) w = true := by
          intro w hw
          rw [hrev4]
          exact hq1p w hw
        have hrest4 : ∀ w ∈ mid2 ++ (a22 ++ b),
            inWinB t4.rev_idx pc (pc + num_p) w = false := by
          intro w hw
          rw [hrev4]
          rcases List.mem_append.mp hw with hw | hw
          · exact (hq2p w hw).2
          · have hwf := h22b' w hw
            simp only [inWinB, decide_eq_false_iff_not] at hwf ⊢
            intro hcc
            exact hwf ⟨hcc.1, lt_of_lt_of_le hcc.2
              (by exact_mod_cast (by omega : pc + num_p ≤ e))⟩
        have hadj4u : t4.adj_list u = pre2 ++ (mid2 ++ (a22 ++ b)) := hk
        obtain ⟨a3, hta5, hpa3, hq3⟩ :=
          PO.adj_pre u hu4 pre2 (mid2 ++ (a22 ++ b)) hadj4u hpre4 hrest4
        have hu6 : u ∈ contentL t5 (pc - num_x) (pc + num_p) := hCWperm.mem_iff.mpr hucw
        obtain ⟨ju, hju1, hju2, hvju⟩ := contentL_pos t5 (pc - num_x) (pc + num_p) u hu6
        have hk7 := hin7 (ju - (pc - num_x)) (by omega)
        rw [show pc - num_x + (ju - (pc - num_x)) = ju from by omega] at hk7
        have hv6 : t6.v_list ju = u := hvju
        rw [hv6] at hk7
        have hain : ∀ w ∈ a3 ++ mid2, inWinB t5.rev_idx pc e w = true := by
          intro w hw
          rcases List.mem_append.mp hw with hw | hw
          · have hq := hq3 w hw
            simp only [inWinB, decide_eq_true_eq] at hq ⊢
            exact ⟨hq.1, lt_of_lt_of_le hq.2
              (by exact_mod_cast (by omega : pc + num_p ≤ e))⟩
          · rw [hwin5t w, ← hwin2 w]
            exact (hq2p w hw).1
        have haout : ∀ w ∈ a22 ++ b, inWinB t5.rev_idx pc e w = false := by
          intro w hw
          rw [hwin5t w, ← hwin2 w]
          exact h22b' w hw
        have hk7' : t7.adj_list u =
            (a3 ++ mid2).filter (fun w => !(decide (w = c))) ++ (c :: (a22 ++ b)) := by
          rw [hk7]
          show reinsertCand t5.rev_idx pc e c (t5.adj_list u) = _
          rw [hta5, ← List.append_assoc]
          exact reinsertCand_spec t5.rev_idx pc e c (a3 ++ mid2) (a22 ++ b) hain haout
        refine ⟨(a3 ++ mid2).filter (fun w => !(decide (w = c))) ++ (c :: a22), ?_, ?_, ?_⟩
        · rw [hmove]
          show t7.adj_list u = _
          rw [hk7']
          simp [List.append_assoc]
        · have hperm1 : List.Perm (a3 ++ mid2) a21 :=
            ((hpa3.append (List.Perm.refl mid2)).trans (hpp2.append hpm2)).trans
              (List.filter_append_perm _ a21)
          have hnd21 : a21.Nodup := by
            rw [ha2eq] at hnda
            exact hnda.of_append_left.of_append_left
          have herase : a21.filter (fun w => !(decide (w = c))) = a21.erase c := by
            rw [List.Nodup.erase_eq_filter hnd21 c]
            apply List.filter_congr
            intro w _
            by_cases h : w = c <;> simp [h]
          have hstep1 : List.Perm
              ((a3 ++ mid2).filter (fun w => !(decide (w = c))) ++ [c])
              (a21.filter (fun w => !(decide (w = c))) ++ [c]) :=
            (hperm1.filter _).append (List.Perm.refl _)
          have hstep2 : List.Perm (a21.filter (fun w => !(decide (w = c))) ++ [c]) a21 := by
            rw [herase]
            exact (List.perm_append_singleton _ _).trans (List.perm_cons_erase hca21).symm
          have hfin : List.Perm
              ((a3 ++ mid2).filter (fun w => !(decide (w = c))) ++ (c :: a22))
              ((a21 ++ a22)) := by
            have he1 : (a3 ++ mid2).filter (fun w => !(decide (w = c))) ++ (c :: a22) =
                ((a3 ++ mid2).filter (fun w => !(decide (w = c))) ++ [c]) ++ a22 := by
              simp [List.append_assoc]
            rw [he1]
            exact (hstep1.trans hstep2).append (List.Perm.refl a22)
          rw [← ha2eq] at hfin
          exact hfin.trans hpa2
        · refine ⟨(a3 ++ mid2).filter (fun w => !(decide (w = c))), c :: a22, rfl, ?_, ?_⟩
          · intro w hw
            have hw' := List.mem_filter.mp hw
            have hwc : w ≠ c := by simpa using hw'.2
            have hwn : w < n := by
              rcases List.mem_append.mp hw'.1 with hwm | hwm
              · have hwm5 : w ∈ t5.adj_list u := by
                  rw [hta5]
                  exact List.mem_append.mpr (Or.inl hwm)
                exact (hok.bound u w ((PO.inv.perm u).mem_iff.mp hwm5)).1
              · have hw21 : w ∈ a21 := (List.mem_filter.mp (hpm2.mem_iff.mp hwm)).1
                refine hallb w (List.mem_append.mpr (Or.inl ?_))
                rw [ha2eq]
                exact List.mem_append.mpr (Or.inl hw21)
            exact hin8 w hwn hwc (hain w hw'.1)
          · intro w hw
            rcases List.mem_cons.mp hw with hw | hw
            · rw [hw]
              simp only [inWinB, hrev8c, decide_eq_false_iff_not]
              intro hcc
              have := hcc.1
              omega
            · exact hout8 w (h22 w hw)
    have hCWnotS : ∀ u, u ∉ contentL s x e →
        u ∉ contentL t2 (pc - num_x) (pc + num_p) := by
      intro u hu hmem
      apply hu
      apply hmemTS
      apply hXE2.mem_iff.mp
      obtain ⟨i, hi1, hi2, hvi⟩ := contentL_pos t2 _ _ u hmem
      exact (mem_contentL t2 x e u).mpr ⟨i, by omega, by omega, hvi⟩
    have hxq0 : x ≤ p := hinv0.hxp
    have houtT : ∀ w, w < n → inWinB s.rev_idx p e w = false →
        inWinB t.rev_idx pc e w = false := by
      intro w hwn hwf
      simp only [inWinB, decide_eq_false_iff_not] at hwf
      by_cases hsx : (x : Int) ≤ s.rev_idx w ∧ s.rev_idx w < (e : Int)
      · have hv := hinv0.bij2 w hwn hsx.1 hsx.2
        have hmem : w ∈ contentL s x p :=
          (mem_contentL s x p w).mpr ⟨(s.rev_idx w).toNat, by omega, by omega, hv⟩
        have hmemt : w ∈ contentL t x pc :=
          hCI.permX.mem_iff.mpr (List.mem_append.mpr (Or.inl hmem))
        obtain ⟨i, hi1, hi2, hvi⟩ := contentL_pos t x pc w hmemt
        have hbi := hinvT.bij1 i hi1 (by omega)
        rw [hvi] at hbi
        simp only [inWinB, hbi, decide_eq_false_iff_not]
        push_cast
        omega
      · have hfr := hCI.rev_frame w hsx
        simp only [inWinB, hfr, decide_eq_false_iff_not]
        intro hcc
        exact hsx ⟨le_trans (by exact_mod_cast hxpT) hcc.1, hcc.2⟩
    have hperm8A : ∀ u, List.Perm (t8.adj_list u) (adj0 u) := by
      intro u
      by_cases hu : u ∈ contentL s x e
      · obtain ⟨j, hj1, hj2, hvj⟩ := contentL_pos s x e u hu
        obtain ⟨l1, l2, hl, h1, h2⟩ := hinv0.pre j hj1 hj2
        rw [hvj] at hl
        obtain ⟨a2, hta8, hpa2, _⟩ := hadj_pre8 u hu l1 l2 hl h1 h2
        rw [hta8]
        have hs0 : List.Perm (l1 ++ l2) (adj0 u) := by
          rw [← hl]
          exact hinv0.perm u
        exact (hpa2.append (List.Perm.refl l2)).trans hs0
      · rw [hadj8_out u (hCWnotS u hu)]
        exact hinvT.perm u
    have hcl8 : t8.clique = s.clique := by
      rw [hmove]
      show t7.clique = s.clique
      rw [hcl7]
      exact hcl6
    have hcnt5 : t5.clique_count = t4.clique_count + sub := by
      have hcnt := PO.cnt
      rw [if_neg (by simp)] at hcnt
      omega
    have hcc8 : t8.clique_count = s.clique_count + (tot + sub) := by
      rw [hmove]
      show t7.clique_count = _
      rw [hcc7]
      show t5.clique_count = _
      rw [hcnt5, hcc4]
      omega
    have htr8 : t8.track_search_tree = s.track_search_tree := by
      rw [hmove]
      show t7.track_search_tree = _
      rw [htr7]
      show t5.track_search_tree = _
      rw [PO.tr_eq]
      exact htr4
    have hinv8 : BKInv n adj0 x (pc + 1) e t8 := by
      refine ⟨by omega, by omega, hbij1_8, hbij2_8, hvlt8, hperm8A, ?_, ?_, ?_, ?_, ?_, ?_,
        ?_, hrb8⟩
      · intro i h1 h2
        have hm : t8.v_list i ∈ contentL s x e :=
          hmemTS _ (hbig8.mem_iff.mp ((mem_contentL t8 x e _).mpr ⟨i, h1, h2, rfl⟩))
        obtain ⟨j, hj1, hj2, hvj⟩ := contentL_pos s x e _ hm
        obtain ⟨l1, l2, hl, hw1, hw2⟩ := hinv0.pre j hj1 hj2
        rw [hvj] at hl
        obtain ⟨a2, hta8, _, hsw⟩ := hadj_pre8 _ hm l1 l2 hl hw1 hw2
        rw [hta8]
        obtain ⟨m1, m2, hm12, hs1, hs2⟩ := hsw
        refine ⟨m1, m2 ++ l2, by rw [hm12, List.append_assoc], hs1, ?_⟩
        intro w hw
        rcases List.mem_append.mp hw with hw | hw
        · exact hs2 w hw
        · have hwn : w < n := by
            have hwm : w ∈ s.adj_list (t8.v_list i) := by
              rw [hl]
              exact List.mem_append.mpr (Or.inr hw)
            exact (hok.bound _ w ((hinv0.perm _).mem_iff.mp hwm)).1
          exact hout8 w (houtT w hwn (hw2 w hw))
      · rw [hcl8]
        exact hinv0.cliq_lt
      · rw [hcl8]
        exact hinv0.cliq_nd
      · rw [hcl8]
        exact hinv0.cliq_adj
      · intro i h1 h2 r hr
        have hm : t8.v_list i ∈ contentL t x e :=
          hbig8.mem_iff.mp ((mem_contentL t8 x e _).mpr ⟨i, h1, h2, rfl⟩)
        obtain ⟨j, hj1, hj2, hvj⟩ := contentL_pos t x e _ hm
        rw [← hvj]
        apply hinvT.win_adj j hj1 hj2 r
        rw [hclT, ← hcl8]
        exact hr
      · intro w hw hadjw
        rw [hcl8] at hadjw
        have hadj' : ∀ r ∈ t.clique, w ∈ adj0 r := by
          rw [hclT]
          exact hadjw
        obtain ⟨i, hi1, hi2, hvi⟩ := hinvT.sat w hw hadj'
        exact contentL_pos t8 x e w
          (hbig8.mem_iff.mpr ((mem_contentL t x e w).mpr ⟨i, hi1, hi2, hvi⟩))
      · rw [hcl8]
        exact hinv0.cliq_ne
    have hlen : p + (done ++ [c]).length = pc + 1 := by
      simp only [List.length_append, List.length_cons, List.length_nil]
      omega
    have hsub : sub = mcCount n adj0 (s.clique ++ [c])
        ((contentL s p e).filter (fun w => !(decide (w ∈ done)) && decide (c ∈ adj0 w))) := by
      rw [PO.rval, hcl4]
      apply mcCount_congr
      · intro w
        exact Iff.rfl
      intro w
      rw [contentL_congr t4 t2 pc (pc + num_p) (fun i _ _ => congrFun hvl4 i), hsel2]
      simp only [List.mem_filter, decide_eq_true_eq, Bool.and_eq_true, Bool.not_eq_true',
        decide_eq_false_iff_not]
      constructor
      · rintro ⟨hw1, hw2⟩
        have hf := List.mem_filter.mp (hCI.permP.mem_iff.mp hw1)
        refine ⟨hf.1, ⟨by simpa using hf.2, (hinvT.perm w).mem_iff.mp hw2⟩⟩
      · rintro ⟨hw1, hw2, hw3⟩
        exact ⟨hCI.permP.mem_iff.mpr (List.mem_filter.mpr ⟨hw1, by simpa using hw2⟩),
          (hinvT.perm w).mem_iff.mpr hw3⟩
    refine ⟨t8, sub, hres, ?_, hsub⟩
    refine ⟨?_, hvlf8, hrevf8, ?_, ?_, ?_, ?_, hcl8, hcc8, htr8⟩
    · rw [hlen]
      exact hinv8
    · rw [hlen]
      exact hC8X
    · rw [hlen]
      exact hC8P
    · intro u hu
      rw [hadj8_out u (hCWnotS u hu)]
      exact hCI.adj_out u hu
    · rw [hlen]
      exact hadj_pre8

end GSS
